import Mathlib

/-!
Verification development for the pygraph library (edge normalization,
adjacency-list / adjacency-matrix representations, graph facade, tree).

Shallow embedding conventions:
* Python dicts are embedded as association lists (`List (V × β)`) with
  insertion-order semantics: inserting a fresh key appends, updating an
  existing key rewrites in place, deleting filters the key out.  Dict keys
  are unique in Python; every state built by the embedded operations keeps
  its key lists duplicate-free.
* Python sets returned by query methods (`get_vertices`, `get_neighbors`)
  are embedded as duplicate-free lists and compared by membership.
* Exceptions are embedded as `Except PyErr`; mutating methods return the
  result together with the post state (the raising paths of the source all
  validate before mutating, so the post state on an error is the input).
* Weights (Python floats used only as stored values, never arithmetic) are
  embedded as `ℚ`; vertex and metadata types are parameters.
-/

deriving instance DecidableEq for Except

namespace Pygraph

/-- Python exception kinds raised by the library: the builtin ValueError and
TypeError plus the closed taxonomy of exceptions.py (GraphError subclasses).
No other exception type exists in the codebase. -/
inductive PyErr : Type where
  | valueError : PyErr
  | typeError : PyErr
  | vertexNotFound : PyErr
  | edgeNotFound : PyErr
  | cycleErr : PyErr
  | disconnectedErr : PyErr
  | invalidGraph : PyErr
deriving DecidableEq, Repr

/-- Edge dataclass of edge.py: fields (source, target, weight, metadata,
directed); `metadata` carries `compare=False, hash=False`, so Python
equality and hash of edges ignore it (see `Edge.pyEq`). -/
structure Edge (V M : Type) : Type where
  source : V
  target : V
  weight : ℚ
  metadata : M
  directed : Bool
deriving DecidableEq, Repr

/-- Python `==` on Edge values: dataclass equality over the compared fields
(source, target, weight, directed); metadata is excluded. -/
def Edge.pyEq {V M : Type} [DecidableEq V] (e₁ e₂ : Edge V M) : Bool :=
  decide (e₁.source = e₂.source) && decide (e₁.target = e₂.target) &&
    decide (e₁.weight = e₂.weight) && decide (e₁.directed = e₂.directed)

/-- Edge construction including `__post_init__` of edge.py.  `gt` embeds the
Python comparison `a > b` on vertices (`some r` when the comparison
succeeds with truth value `r`, `none` when it raises TypeError), and
`hashv` embeds the builtin `hash`.  For undirected non-self-loop edges the
endpoints are swapped into canonical order: by the comparison when it is
supported, otherwise by comparing hashes. -/
def mkEdge {V M : Type} [DecidableEq V] (gt : V → V → Option Bool) (hashv : V → Int)
    (source target : V) (weight : ℚ) (metadata : M) (directed : Bool) : Edge V M :=
  if directed = false ∧ source ≠ target then
    match gt source target with
    | some true => ⟨target, source, weight, metadata, directed⟩
    | some false => ⟨source, target, weight, metadata, directed⟩
    | none =>
      if hashv source > hashv target then ⟨target, source, weight, metadata, directed⟩
      else ⟨source, target, weight, metadata, directed⟩
  else ⟨source, target, weight, metadata, directed⟩

/-- Method `Edge.has_vertex` of edge.py: `vertex in (self.source, self.target)`. -/
def Edge.has_vertex {V M : Type} [DecidableEq V] (e : Edge V M) (vertex : V) : Bool :=
  decide (vertex = e.source) || decide (vertex = e.target)

/-- Method `Edge.other_vertex` of edge.py: returns the other endpoint, and
raises the builtin ValueError (not any exceptions.py class) when the given
vertex is neither endpoint. -/
def Edge.other_vertex {V M : Type} [DecidableEq V] (e : Edge V M) (vertex : V) :
    Except PyErr V :=
  if vertex = e.source then .ok e.target
  else if vertex = e.target then .ok e.source
  else .error .valueError

end Pygraph

namespace Pygraph

variable {V M : Type} [DecidableEq V]

/-- Dict lookup on an association list (first matching key). -/
def dlook {β : Type} : List (V × β) → V → Option β
  | [], _ => none
  | (k, b) :: rest, v => if k = v then some b else dlook rest v

/-- Dict membership test (`key in d`). -/
def dmem {β : Type} (d : List (V × β)) (v : V) : Bool :=
  (dlook d v).isSome

/-- Dict assignment `d[k] = b`: updates in place when the key exists,
appends otherwise (Python insertion-order semantics). -/
def dset {β : Type} : List (V × β) → V → β → List (V × β)
  | [], k, b => [(k, b)]
  | (k', b') :: rest, k, b =>
    if k' = k then (k', b) :: rest else (k', b') :: dset rest k b

/-- Dict deletion `del d[k]` / `d.pop(k, None)`: removes the key,
preserving the order of the remaining entries. -/
def derase {β : Type} : List (V × β) → V → List (V × β)
  | [], _ => []
  | (k', b) :: rest, k => if k' = k then derase rest k else (k', b) :: derase rest k

/-- Dict key view (insertion order). -/
def dkeys {β : Type} (d : List (V × β)) : List V :=
  d.map Prod.fst

/-- Dict value view (insertion order). -/
def dvalues {β : Type} (d : List (V × β)) : List β :=
  d.map Prod.snd

/-- Dict value adjustment at a key (`d[k] = f(d[k])`, used for the nested
row updates `self._adj[source][target] = ...`); a missing key would be a
Python KeyError and every call site guards membership first. -/
def dmodify {β : Type} : List (V × β) → V → (β → β) → List (V × β)
  | [], _, _ => []
  | (k', b) :: rest, k, f =>
    if k' = k then (k', f b) :: rest else (k', b) :: dmodify rest k f

end Pygraph

namespace Pygraph

variable {V M : Type} [DecidableEq V]

/-- Class `AdjacencyList` of representations.py: `_directed` flag and the
nested dict `_adj : dict[V, dict[V, Edge]]`. -/
structure AdjacencyList (V M : Type) : Type where
  directed : Bool
  adj : List (V × List (V × Edge V M))
deriving DecidableEq, Repr

/-- Constructor `AdjacencyList(directed)`: empty adjacency dict. -/
def AdjacencyList.empty (directed : Bool) : AdjacencyList V M :=
  ⟨directed, []⟩

/-- Method `AdjacencyList.add_vertex`: False when present, else a fresh
empty row. -/
def AdjacencyList.add_vertex (r : AdjacencyList V M) (vertex : V) :
    Bool × AdjacencyList V M :=
  if dmem r.adj vertex then (false, r)
  else (true, ⟨r.directed, dset r.adj vertex []⟩)

/-- Method `AdjacencyList.remove_vertex`: pops the vertex from every row,
then deletes its own row. -/
def AdjacencyList.remove_vertex (r : AdjacencyList V M) (vertex : V) :
    Bool × AdjacencyList V M :=
  if dmem r.adj vertex = false then (false, r)
  else
    (true, ⟨r.directed,
      derase (r.adj.map (fun p => (p.1, derase p.2 vertex))) vertex⟩)

/-- Method `AdjacencyList.add_edge`: False when an endpoint is missing or
the edge exists; stores `Edge(source, target, weight, metadata)` — with
the Edge default `directed=True`, so `__post_init__` performs no
normalization — and for undirected graphs also the reverse
`Edge(target, source, weight, metadata)` in the target row. -/
def AdjacencyList.add_edge (r : AdjacencyList V M) (source target : V)
    (weight : ℚ) (metadata : M) : Bool × AdjacencyList V M :=
  if dmem r.adj source = false ∨ dmem r.adj target = false then (false, r)
  else
    match dlook r.adj source with
    | none => (false, r)
    | some row =>
      if dmem row target then (false, r)
      else
        let adj₁ := dmodify r.adj source
          (fun rw => dset rw target ⟨source, target, weight, metadata, true⟩)
        if r.directed then (true, ⟨r.directed, adj₁⟩)
        else
          (true, ⟨r.directed, dmodify adj₁ target
            (fun rw => dset rw source ⟨target, source, weight, metadata, true⟩)⟩)

/-- Method `AdjacencyList.remove_edge`: False when the entry is missing;
for undirected graphs also deletes the reverse entry when present. -/
def AdjacencyList.remove_edge (r : AdjacencyList V M) (source target : V) :
    Bool × AdjacencyList V M :=
  match dlook r.adj source with
  | none => (false, r)
  | some row =>
    if dmem row target = false then (false, r)
    else
      let adj₁ := dmodify r.adj source (fun rw => derase rw target)
      if r.directed then (true, ⟨r.directed, adj₁⟩)
      else
        match dlook adj₁ target with
        | none => (true, ⟨r.directed, adj₁⟩)
        | some rw₂ =>
          if dmem rw₂ source then
            (true, ⟨r.directed, dmodify adj₁ target (fun rw => derase rw source)⟩)
          else (true, ⟨r.directed, adj₁⟩)

/-- Method `AdjacencyList.has_vertex`. -/
def AdjacencyList.has_vertex (r : AdjacencyList V M) (vertex : V) : Bool :=
  dmem r.adj vertex

/-- Method `AdjacencyList.has_edge`. -/
def AdjacencyList.has_edge (r : AdjacencyList V M) (source target : V) : Bool :=
  match dlook r.adj source with
  | none => false
  | some row => dmem row target

/-- Method `AdjacencyList.get_vertices` (a Python set; embedded as the
duplicate-free key list). -/
def AdjacencyList.get_vertices (r : AdjacencyList V M) : List V :=
  dkeys r.adj

/-- Method `AdjacencyList.get_edges`: appends every row's stored edge
values, row by row. -/
def AdjacencyList.get_edges (r : AdjacencyList V M) : List (Edge V M) :=
  (r.adj.map (fun p => dvalues p.2)).flatten

/-- Method `AdjacencyList.get_neighbors` (a Python set; embedded as the
duplicate-free key list of the row, empty for a missing vertex). -/
def AdjacencyList.get_neighbors (r : AdjacencyList V M) (vertex : V) : List V :=
  match dlook r.adj vertex with
  | none => []
  | some row => dkeys row

/-- Method `AdjacencyList.get_edge_data`. -/
def AdjacencyList.get_edge_data (r : AdjacencyList V M) (source target : V) :
    Option (Edge V M) :=
  (dlook r.adj source).bind (fun row => dlook row target)

/-- List position of the first occurrence of a vertex. -/
def listIdx : List V → V → Option Nat
  | [], _ => none
  | a :: rest, v => if a = v then some 0 else (listIdx rest v).map (· + 1)

/-- Matrix cell read `self._matrix[i][j]`. -/
def cellAt {M : Type} (mat : List (List (Option (Edge V M)))) (i j : Nat) :
    Option (Edge V M) :=
  ((mat[i]?).bind (fun row => row[j]?)).join

/-- Matrix cell write `self._matrix[i][j] = val`. -/
def matSet {M : Type} (mat : List (List (Option (Edge V M)))) (i j : Nat)
    (val : Option (Edge V M)) : List (List (Option (Edge V M))) :=
  mat.modify (fun row => row.set j val) i

/-- Class `AdjacencyMatrix` of representations.py: `_directed`, the two
index dicts `_vertex_to_index` / `_index_to_vertex`, and `_matrix`.  The
two dicts always form the bijection sending a vertex to its position in
insertion order compacted by removals (removal shifts every higher index
down by one), so they are embedded together as the ordered list `order`
with `index of v = position of v in order`. -/
structure AdjacencyMatrix (V M : Type) : Type where
  directed : Bool
  order : List V
  mat : List (List (Option (Edge V M)))
deriving DecidableEq, Repr

/-- Constructor `AdjacencyMatrix(directed)`. -/
def AdjacencyMatrix.empty (directed : Bool) : AdjacencyMatrix V M :=
  ⟨directed, [], []⟩

/-- Method `AdjacencyMatrix.add_vertex`: assigns the next index, appends a
None entry to every row and a fresh all-None row of the new width. -/
def AdjacencyMatrix.add_vertex (r : AdjacencyMatrix V M) (vertex : V) :
    Bool × AdjacencyMatrix V M :=
  if (listIdx r.order vertex).isSome then (false, r)
  else
    (true, ⟨r.directed, r.order ++ [vertex],
      (r.mat.map (fun row => row ++ [none])) ++ [List.replicate (r.order.length + 1) none]⟩)

/-- Method `AdjacencyMatrix.remove_vertex`: deletes the row and the column
of the vertex and shifts every higher index down by one (list deletion). -/
def AdjacencyMatrix.remove_vertex (r : AdjacencyMatrix V M) (vertex : V) :
    Bool × AdjacencyMatrix V M :=
  match listIdx r.order vertex with
  | none => (false, r)
  | some i =>
    (true, ⟨r.directed, r.order.eraseIdx i,
      (r.mat.eraseIdx i).map (fun row => row.eraseIdx i)⟩)

/-- Method `AdjacencyMatrix.add_edge`: mirrors `AdjacencyList.add_edge`
(the stored edges again use the Edge default `directed=True`). -/
def AdjacencyMatrix.add_edge (r : AdjacencyMatrix V M) (source target : V)
    (weight : ℚ) (metadata : M) : Bool × AdjacencyMatrix V M :=
  match listIdx r.order source, listIdx r.order target with
  | some i, some j =>
    if (cellAt r.mat i j).isSome then (false, r)
    else
      let mat₁ := matSet r.mat i j (some ⟨source, target, weight, metadata, true⟩)
      if r.directed then (true, ⟨r.directed, r.order, mat₁⟩)
      else
        (true, ⟨r.directed, r.order,
          matSet mat₁ j i (some ⟨target, source, weight, metadata, true⟩)⟩)
  | _, _ => (false, r)

/-- Method `AdjacencyMatrix.remove_edge`: clears the cell, and for
undirected graphs also the mirror cell. -/
def AdjacencyMatrix.remove_edge (r : AdjacencyMatrix V M) (source target : V) :
    Bool × AdjacencyMatrix V M :=
  match listIdx r.order source, listIdx r.order target with
  | some i, some j =>
    if (cellAt r.mat i j).isNone then (false, r)
    else
      let mat₁ := matSet r.mat i j none
      if r.directed then (true, ⟨r.directed, r.order, mat₁⟩)
      else (true, ⟨r.directed, r.order, matSet mat₁ j i none⟩)
  | _, _ => (false, r)

/-- Method `AdjacencyMatrix.has_vertex`. -/
def AdjacencyMatrix.has_vertex (r : AdjacencyMatrix V M) (vertex : V) : Bool :=
  (listIdx r.order vertex).isSome

/-- Method `AdjacencyMatrix.has_edge`. -/
def AdjacencyMatrix.has_edge (r : AdjacencyMatrix V M) (source target : V) : Bool :=
  match listIdx r.order source, listIdx r.order target with
  | some i, some j => (cellAt r.mat i j).isSome
  | _, _ => false

/-- Method `AdjacencyMatrix.get_vertices` (a Python set; embedded as the
duplicate-free ordered vertex list). -/
def AdjacencyMatrix.get_vertices (r : AdjacencyMatrix V M) : List V :=
  r.order

/-- Method `AdjacencyMatrix.get_edges`: collects the non-None cells in
row-major order. -/
def AdjacencyMatrix.get_edges (r : AdjacencyMatrix V M) : List (Edge V M) :=
  (r.mat.map (fun row => row.filterMap id)).flatten

/-- The column filter of `AdjacencyMatrix.get_neighbors`: keep the vertex
of a (cell, vertex) column pair when the cell is non-None. -/
def matrixNbrPick {M : Type} (p : Option (Edge V M) × V) : Option V :=
  match p.1 with
  | some _ => some p.2
  | none => none

/-- Method `AdjacencyMatrix.get_neighbors`: the vertices whose column in
the row of the given vertex is non-None (a Python set; embedded as a
duplicate-free list). -/
def AdjacencyMatrix.get_neighbors (r : AdjacencyMatrix V M) (vertex : V) : List V :=
  match listIdx r.order vertex with
  | none => []
  | some i =>
    (((r.mat[i]?).getD []).zip r.order).filterMap matrixNbrPick

/-- Method `AdjacencyMatrix.get_edge_data`. -/
def AdjacencyMatrix.get_edge_data (r : AdjacencyMatrix V M) (source target : V) :
    Option (Edge V M) :=
  match listIdx r.order source, listIdx r.order target with
  | some i, some j => cellAt r.mat i j
  | _, _ => none

/-- Protocol `GraphRepresentation` of representations.py, embedded as a
record of the methods; Python methods mutate `self`, embedded as the
result paired with the post state. -/
structure RepOps (V M R : Type) : Type where
  add_vertex : R → V → Bool × R
  remove_vertex : R → V → Bool × R
  add_edge : R → V → V → ℚ → M → Bool × R
  remove_edge : R → V → V → Bool × R
  has_vertex : R → V → Bool
  has_edge : R → V → V → Bool
  get_vertices : R → List V
  get_edges : R → List (Edge V M)
  get_neighbors : R → V → List V
  get_edge_data : R → V → V → Option (Edge V M)

/-- AdjacencyList implementation of the protocol. -/
def AdjacencyList.ops : RepOps V M (AdjacencyList V M) :=
  ⟨AdjacencyList.add_vertex, AdjacencyList.remove_vertex, AdjacencyList.add_edge,
    AdjacencyList.remove_edge, AdjacencyList.has_vertex, AdjacencyList.has_edge,
    AdjacencyList.get_vertices, AdjacencyList.get_edges, AdjacencyList.get_neighbors,
    AdjacencyList.get_edge_data⟩

/-- AdjacencyMatrix implementation of the protocol. -/
def AdjacencyMatrix.ops : RepOps V M (AdjacencyMatrix V M) :=
  ⟨AdjacencyMatrix.add_vertex, AdjacencyMatrix.remove_vertex, AdjacencyMatrix.add_edge,
    AdjacencyMatrix.remove_edge, AdjacencyMatrix.has_vertex, AdjacencyMatrix.has_edge,
    AdjacencyMatrix.get_vertices, AdjacencyMatrix.get_edges, AdjacencyMatrix.get_neighbors,
    AdjacencyMatrix.get_edge_data⟩

/-- Class `Graph` of graph.py: configuration flags plus the pluggable
representation (the facade methods below take the protocol record the
source dispatches through). -/
structure Graph (V M R : Type) : Type where
  directed : Bool
  weighted : Bool
  rep : R
deriving DecidableEq, Repr

/-- Method `Graph.add_vertex`: validates hashability (every embedded
vertex is hashable) then delegates; idempotent. -/
def Graph.add_vertex {R : Type} (O : RepOps V M R) (g : Graph V M R) (vertex : V) :
    Graph V M R :=
  ⟨g.directed, g.weighted, (O.add_vertex g.rep vertex).2⟩

/-- Method `Graph.remove_vertex`: raises VertexNotFoundError for an absent
vertex (before any mutation), else delegates. -/
def Graph.remove_vertex {R : Type} (O : RepOps V M R) (g : Graph V M R) (vertex : V) :
    Except PyErr Unit × Graph V M R :=
  if O.has_vertex g.rep vertex then
    (.ok (), ⟨g.directed, g.weighted, (O.remove_vertex g.rep vertex).2⟩)
  else (.error .vertexNotFound, g)

/-- Method `Graph.vertices`. -/
def Graph.vertices {R : Type} (O : RepOps V M R) (g : Graph V M R) : List V :=
  O.get_vertices g.rep

/-- Method `Graph.edges`: returns `self._repr.get_edges()` unchanged — the
representation's list of stored entries, although the annotation declares
a set. -/
def Graph.edges {R : Type} (O : RepOps V M R) (g : Graph V M R) : List (Edge V M) :=
  O.get_edges g.rep

/-- Method `Graph.num_vertices` (`len(self.vertices())`; the key lists are
duplicate-free so list length equals the Python set's cardinality). -/
def Graph.num_vertices {R : Type} (O : RepOps V M R) (g : Graph V M R) : Nat :=
  (Graph.vertices O g).length

/-- Method `Graph.num_edges` (`len(self.edges())`, the length of the
list `get_edges` returns). -/
def Graph.num_edges {R : Type} (O : RepOps V M R) (g : Graph V M R) : Nat :=
  (Graph.edges O g).length

/-- Method `Graph.add_edge`: validates that both endpoints exist (raising
VertexNotFoundError before any mutation), then delegates (the
representation handles idempotency). -/
def Graph.add_edge {R : Type} (O : RepOps V M R) (g : Graph V M R) (source target : V)
    (weight : ℚ) (metadata : M) : Except PyErr Unit × Graph V M R :=
  if O.has_vertex g.rep source = false then (.error .vertexNotFound, g)
  else if O.has_vertex g.rep target = false then (.error .vertexNotFound, g)
  else (.ok (), ⟨g.directed, g.weighted, (O.add_edge g.rep source target weight metadata).2⟩)

/-- Method `Graph.remove_edge`: validates both endpoints, then that the
edge exists (EdgeNotFoundError), all before any mutation, then delegates. -/
def Graph.remove_edge {R : Type} (O : RepOps V M R) (g : Graph V M R) (source target : V) :
    Except PyErr Unit × Graph V M R :=
  if O.has_vertex g.rep source = false then (.error .vertexNotFound, g)
  else if O.has_vertex g.rep target = false then (.error .vertexNotFound, g)
  else if O.has_edge g.rep source target = false then (.error .edgeNotFound, g)
  else (.ok (), ⟨g.directed, g.weighted, (O.remove_edge g.rep source target).2⟩)

/-- Method `Graph.has_edge`. -/
def Graph.has_edge {R : Type} (O : RepOps V M R) (g : Graph V M R) (source target : V) :
    Bool :=
  O.has_edge g.rep source target

/-- Method `Graph.get_edge`: validates existence (EdgeNotFoundError) then
returns the stored edge data (non-None whenever `has_edge` holds, for
both representations). -/
def Graph.get_edge {R : Type} (O : RepOps V M R) (g : Graph V M R) (source target : V) :
    Except PyErr (Edge V M) :=
  if O.has_edge g.rep source target = false then .error .edgeNotFound
  else
    match O.get_edge_data g.rep source target with
    | some e => .ok e
    | none => .error .edgeNotFound

/-- Method `Graph.neighbors`: validates the vertex then returns the
representation's neighbor set. -/
def Graph.neighbors {R : Type} (O : RepOps V M R) (g : Graph V M R) (vertex : V) :
    Except PyErr (List V) :=
  if O.has_vertex g.rep vertex then .ok (O.get_neighbors g.rep vertex)
  else .error .vertexNotFound

/-- Method `Graph.degree`: the size of the neighbor set (the embedded
neighbor lists are duplicate-free). -/
def Graph.degree {R : Type} (O : RepOps V M R) (g : Graph V M R) (vertex : V) :
    Except PyErr Nat :=
  (Graph.neighbors O g vertex).map List.length

/-- Vertex/edge mutations of the Graph facade, for driving both
representations with one sequence. -/
inductive GOp (V M : Type) : Type where
  | addVertex (v : V)
  | removeVertex (v : V)
  | addEdge (s t : V) (w : ℚ) (m : M)
  | removeEdge (s t : V)

/-- Application of one facade mutation; a raising call leaves the graph in
its pre-call state (all validation precedes mutation). -/
def applyGOp {R : Type} (O : RepOps V M R) (g : Graph V M R) : GOp V M → Graph V M R
  | .addVertex v => Graph.add_vertex O g v
  | .removeVertex v => (Graph.remove_vertex O g v).2
  | .addEdge s t w m => (Graph.add_edge O g s t w m).2
  | .removeEdge s t => (Graph.remove_edge O g s t).2

/-- Application of a sequence of facade mutations. -/
def applyGOps {R : Type} (O : RepOps V M R) (g : Graph V M R) (ops : List (GOp V M)) :
    Graph V M R :=
  ops.foldl (applyGOp O) g

/-- Well-formedness of an adjacency list state, as Python dicts guarantee
it: outer keys unique, row keys unique, and every row key an existing
vertex (edges are only ever added between existing vertices and vertex
removal pops the vertex from every row).  Every state reachable through
the operations from an empty representation satisfies it. -/
def AdjacencyList.WF (r : AdjacencyList V M) : Prop :=
  (dkeys r.adj).Nodup
    ∧ ∀ p ∈ r.adj, (dkeys p.2).Nodup ∧ ∀ q ∈ p.2, q.1 ∈ dkeys r.adj

/-- Well-formedness of an adjacency matrix state: the vertex order is
duplicate-free and the matrix is square of matching dimension. -/
def AdjacencyMatrix.WF (mx : AdjacencyMatrix V M) : Prop :=
  mx.order.Nodup
    ∧ mx.mat.length = mx.order.length
    ∧ ∀ row ∈ mx.mat, row.length = mx.order.length

/-- Coupling between an adjacency list and an adjacency matrix holding the
same graph: same directedness, same vertices in the same insertion order,
and cell-wise identical stored edges. -/
def Coupled (r : AdjacencyList V M) (mx : AdjacencyMatrix V M) : Prop :=
  r.directed = mx.directed
    ∧ dkeys r.adj = mx.order
    ∧ ∀ s t, r.get_edge_data s t = mx.get_edge_data s t

/-- Constructor `Graph(directed, weighted, "adjacency_list")`. -/
def Graph.newList (directed weighted : Bool) : Graph V M (AdjacencyList V M) :=
  ⟨directed, weighted, AdjacencyList.empty directed⟩

/-- Constructor `Graph(directed, weighted, "adjacency_matrix")`. -/
def Graph.newMatrix (directed weighted : Bool) : Graph V M (AdjacencyMatrix V M) :=
  ⟨directed, weighted, AdjacencyMatrix.empty directed⟩

end Pygraph

-- ===================================================================
-- tree.py
-- ===================================================================

namespace Pygraph

variable {V : Type} [DecidableEq V]

/-- Class `Tree` of tree.py: `_root`, the internal directed unweighted
`_graph` (graph.py's default representation is the adjacency list;
`add_child` passes no weight/metadata, so edges carry weight 1.0 and
metadata None, embedded as `Unit`), and `_parent_map`. -/
structure TreeSt (V : Type) : Type where
  root : V
  g : Graph V Unit (AdjacencyList V Unit)
  pm : List (V × V)
deriving DecidableEq, Repr

/-- Constructor `Tree(root)`: a directed unweighted graph holding only the
root, and an empty parent map. -/
def Tree.new (root : V) : TreeSt V :=
  ⟨root, Graph.add_vertex AdjacencyList.ops (Graph.newList true false) root, []⟩

/-- Method `Tree.add_child`: raises VertexNotFoundError for a missing
parent; for an existing child raises ValueError when the child is already
a child of this parent (`child in self._graph.neighbors(parent)`) and
CycleError otherwise; else adds the child vertex, the parent→child edge
(with the defaults weight=1.0, metadata=None) and the parent-map entry. -/
def Tree.add_child (t : TreeSt V) (parent child : V) :
    Except PyErr Unit × TreeSt V :=
  if parent ∉ Graph.vertices AdjacencyList.ops t.g then (.error .vertexNotFound, t)
  else if child ∈ Graph.vertices AdjacencyList.ops t.g then
    match Graph.neighbors AdjacencyList.ops t.g parent with
    | .error e => (.error e, t)
    | .ok nbrs =>
      if child ∈ nbrs then (.error .valueError, t)
      else (.error .cycleErr, t)
  else
    let g₁ := Graph.add_vertex AdjacencyList.ops t.g child
    let g₂ := (Graph.add_edge AdjacencyList.ops g₁ parent child 1 ()).2
    (.ok (), ⟨t.root, g₂, dset t.pm child parent⟩)

/-- The BFS collection loop of `Tree.remove_subtree` (`while queue:`,
popping from the front, appending each popped vertex to `to_remove` and
enqueueing its children).  A raising `neighbors` call propagates.  The
loop is embedded with explicit fuel counting the pops; the caller passes
`num_vertices()`, which bounds the pops whenever the graph below the
start vertex is a tree, so the fuel-exhaustion branch is unreachable on
every state the Tree class can produce. -/
def bfsCollect (g : Graph V Unit (AdjacencyList V Unit)) :
    Nat → List V → Except PyErr (List V)
  | _, [] => .ok []
  | 0, _ :: _ => .ok []
  | fuel + 1, current :: queue =>
    match Graph.neighbors AdjacencyList.ops g current with
    | .error e => .error e
    | .ok nbrs => (bfsCollect g fuel (queue ++ nbrs)).map (fun rest => current :: rest)

/-- One iteration of the removal loop of `Tree.remove_subtree`: if no
earlier iteration raised, pop the vertex from the parent map (`if vertex
in self._parent_map: del ...`, a no-op for a missing key) and remove it
from the graph — a raising `remove_vertex` call propagates, leaving the
later vertices unprocessed. -/
def removeStep (acc : Except PyErr Unit × TreeSt V) (v : V) :
    Except PyErr Unit × TreeSt V :=
  match acc.1 with
  | .error _ => acc
  | .ok _ =>
    let pm₁ := derase acc.2.pm v
    let res := Graph.remove_vertex AdjacencyList.ops acc.2.g v
    (res.1, ⟨acc.2.root, res.2, pm₁⟩)

/-- Method `Tree.remove_subtree`: raises VertexNotFoundError for a missing
node; otherwise collects the node and its descendants by BFS, then runs
the removal loop over the collected vertices. -/
def Tree.remove_subtree (t : TreeSt V) (node : V) :
    Except PyErr Unit × TreeSt V :=
  if node ∉ Graph.vertices AdjacencyList.ops t.g then (.error .vertexNotFound, t)
  else
    match bfsCollect t.g (Graph.num_vertices AdjacencyList.ops t.g) [node] with
    | .error e => (.error e, t)
    | .ok to_remove => to_remove.foldl removeStep (.ok (), t)

/-- Method `Tree.parent`: validates the vertex, then `dict.get` on the
parent map (None for the root). -/
def Tree.parent (t : TreeSt V) (vertex : V) : Except PyErr (Option V) :=
  if vertex ∉ Graph.vertices AdjacencyList.ops t.g then (.error .vertexNotFound)
  else .ok (dlook t.pm vertex)

/-- Method `Tree.children`: delegates to the graph's neighbor set. -/
def Tree.children (t : TreeSt V) (vertex : V) : Except PyErr (List V) :=
  Graph.neighbors AdjacencyList.ops t.g vertex

/-- Method `Tree.is_leaf`: validates the vertex, then tests for an empty
child set. -/
def Tree.is_leaf (t : TreeSt V) (vertex : V) : Except PyErr Bool :=
  if vertex ∉ Graph.vertices AdjacencyList.ops t.g then (.error .vertexNotFound)
  else (Tree.children t vertex).map (fun l => decide (l.length = 0))

/-- Method `Tree.is_root`: validates the vertex, then compares with
`_root`. -/
def Tree.is_root (t : TreeSt V) (vertex : V) : Except PyErr Bool :=
  if vertex ∉ Graph.vertices AdjacencyList.ops t.g then (.error .vertexNotFound)
  else .ok (decide (vertex = t.root))

/-- Method `Tree.num_vertices`: delegates to the graph. -/
def Tree.num_vertices (t : TreeSt V) : Nat :=
  Graph.num_vertices AdjacencyList.ops t.g

/-- Method `Tree.num_edges`: delegates to the graph. -/
def Tree.num_edges (t : TreeSt V) : Nat :=
  Graph.num_edges AdjacencyList.ops t.g

/-- Static method `Tree.from_graph`: the only validation the code performs
is the directedness check (the cycle and connectivity checks are "Phase 5"
TODO comments); on success it wraps the aliased input graph and fills the
parent map by iterating `graph.edges()` (`tree._parent_map[edge.target] =
edge.source`). -/
def Tree.from_graph (graph : Graph V Unit (AdjacencyList V Unit)) (root : V) :
    Except PyErr (TreeSt V) :=
  if graph.directed = false then .error .valueError
  else
    .ok ⟨root, graph,
      (Graph.edges AdjacencyList.ops graph).foldl
        (fun pm e => dset pm e.target e.source) []⟩

/-- The Tree mutations, for driving a tree with one call sequence. -/
inductive TOp (V : Type) : Type where
  | addChild (parent child : V)
  | removeSubtree (node : V)

/-- Application of one Tree mutation; a raising call leaves the tree in
the state the call left behind (errors from the validation prefix leave
it unchanged). -/
def applyTOp (t : TreeSt V) : TOp V → TreeSt V
  | .addChild p c => (Tree.add_child t p c).2
  | .removeSubtree v => (Tree.remove_subtree t v).2

/-- Application of a sequence of Tree mutations. -/
def applyTOps (t : TreeSt V) (ops : List (TOp V)) : TreeSt V :=
  ops.foldl applyTOp t

/-- Iterated parent-map lookup: the vertex reached from `v` after `k`
steps up the parent chain. -/
def pmChain (pm : List (V × V)) : Nat → V → Option V
  | 0, v => some v
  | k + 1, v => (dlook pm v).bind (pmChain pm k)

/-- `a` is a strict ancestor of `d`: some positive number of parent-chain
steps leads from `d` to `a`. -/
def isStrictAncestor (pm : List (V × V)) (a d : V) : Prop :=
  ∃ k, 0 < k ∧ pmChain pm k d = some a

/-- The invariant of a live (root not yet removed) Tree state: the
internal graph is directed and well-formed, the root is a vertex, the
parent map binds exactly the non-root vertices, its entries' parents are
vertices, the graph's edges are exactly the child→parent bindings
reversed (stated entrywise in both directions), and a depth function
certifies acyclicity. -/
def TreeLive (t : TreeSt V) : Prop :=
  t.g.rep.directed = true
    ∧ t.g.rep.WF
    ∧ t.root ∈ dkeys t.g.rep.adj
    ∧ (dkeys t.pm).Nodup
    ∧ (∀ v ∈ dkeys t.pm, v ∈ dkeys t.g.rep.adj ∧ v ≠ t.root)
    ∧ (∀ v ∈ dkeys t.g.rep.adj, v ≠ t.root → v ∈ dkeys t.pm)
    ∧ (∀ q ∈ t.pm, q.2 ∈ dkeys t.g.rep.adj)
    ∧ (∀ pr ∈ t.g.rep.adj, ∀ q ∈ pr.2, dlook t.pm q.1 = some pr.1)
    ∧ (∀ q ∈ t.pm, (t.g.rep.get_edge_data q.2 q.1).isSome)
    ∧ ∃ dep : V → Nat, ∀ q ∈ t.pm, dep q.1 = dep q.2 + 1

/-- The Tree invariant: live, or fully emptied by removing the root's
subtree. -/
def TreeInv (t : TreeSt V) : Prop :=
  TreeLive t ∨ (t.g.rep.adj = [] ∧ t.pm = [])

end Pygraph

namespace Pygraph

/-- The C1 example graph: directed, vertices 0, 1, 2, one edge 0→1
(vertex 2 unreachable; 1 edge ≠ 3 − 1 vertices). -/
def gExample : Graph Nat Unit (AdjacencyList Nat Unit) :=
  (Graph.add_edge AdjacencyList.ops
    (Graph.add_vertex AdjacencyList.ops
      (Graph.add_vertex AdjacencyList.ops
        (Graph.add_vertex AdjacencyList.ops
          (Graph.newList true true) 0) 1) 2) 0 1 1 ()).2

end Pygraph

-- ===================================================================
-- Theorems
-- ===================================================================

namespace Pygraph

variable {V M : Type} [DecidableEq V]

theorem dmem_eq_isSome {β : Type} (d : List (V × β)) (v : V) :
    dmem d v = (dlook d v).isSome := rfl

theorem dkeys_nil {β : Type} : dkeys ([] : List (V × β)) = [] := rfl

theorem dkeys_cons {β : Type} (p : V × β) (d : List (V × β)) :
    dkeys (p :: d) = p.1 :: dkeys d := rfl

theorem dvalues_nil {β : Type} : dvalues ([] : List (V × β)) = [] := rfl

theorem dvalues_cons {β : Type} (p : V × β) (d : List (V × β)) :
    dvalues (p :: d) = p.2 :: dvalues d := rfl

theorem dlook_dset {β : Type} (d : List (V × β)) (k : V) (b : β) (k' : V) :
    dlook (dset d k b) k' = if k = k' then some b else dlook d k' := by
  induction d with
  | nil => simp [dset, dlook]
  | cons p rest ih =>
    obtain ⟨pk, pb⟩ := p
    by_cases h₁ : pk = k
    · subst h₁
      by_cases h₂ : pk = k' <;> simp [dset, dlook, h₂]
    · by_cases h₂ : pk = k'
      · subst h₂
        have hkk : ¬k = pk := fun hh => h₁ hh.symm
        simp [dset, dlook, h₁, hkk]
      · simp [dset, dlook, h₁, h₂, ih]

theorem dlook_dmodify {β : Type} (d : List (V × β)) (k : V) (f : β → β) (k' : V) :
    dlook (dmodify d k f) k' = if k = k' then (dlook d k).map f else dlook d k' := by
  induction d with
  | nil => simp [dmodify, dlook]
  | cons p rest ih =>
    obtain ⟨pk, pb⟩ := p
    by_cases h₁ : pk = k
    · subst h₁
      by_cases h₂ : pk = k' <;> simp [dmodify, dlook, h₂]
    · by_cases h₂ : pk = k'
      · subst h₂
        have hkk : ¬k = pk := fun hh => h₁ hh.symm
        simp [dmodify, dlook, h₁, hkk]
      · simp [dmodify, dlook, h₁, h₂, ih]

theorem dlook_derase {β : Type} (d : List (V × β)) (k : V) (k' : V) :
    dlook (derase d k) k' = if k = k' then none else dlook d k' := by
  induction d with
  | nil => simp [derase, dlook]
  | cons p rest ih =>
    obtain ⟨pk, pb⟩ := p
    by_cases h₁ : pk = k
    · subst h₁
      by_cases h₂ : pk = k'
      · subst h₂
        simp [derase, ih]
      · simp [derase, dlook, h₂, ih]
    · by_cases h₂ : pk = k'
      · subst h₂
        have hkk : ¬k = pk := fun hh => h₁ hh.symm
        simp [derase, dlook, h₁, hkk]
      · simp [derase, dlook, h₁, h₂, ih]

theorem dlook_map_rows {β γ : Type} (d : List (V × β)) (f : β → γ) (k : V) :
    dlook (d.map (fun p => (p.1, f p.2))) k = (dlook d k).map f := by
  induction d with
  | nil => simp [dlook]
  | cons p rest ih =>
    obtain ⟨pk, pb⟩ := p
    by_cases h : pk = k <;> simp [dlook, h, ih]

theorem dkeys_dset {β : Type} (d : List (V × β)) (k : V) (b : β) :
    dkeys (dset d k b) = if dmem d k then dkeys d else dkeys d ++ [k] := by
  induction d with
  | nil => simp [dset, dkeys, dmem, dlook]
  | cons p rest ih =>
    obtain ⟨pk, pb⟩ := p
    by_cases h : pk = k
    · simp [dset, dkeys_cons, dmem, dlook, h]
    · simp only [dset, h, if_false, dkeys_cons, dmem_eq_isSome, dlook]
      rw [dmem_eq_isSome] at ih
      rw [ih]
      by_cases h₂ : (dlook rest k).isSome <;> simp [h, h₂]

theorem dkeys_dmodify {β : Type} (d : List (V × β)) (k : V) (f : β → β) :
    dkeys (dmodify d k f) = dkeys d := by
  induction d with
  | nil => simp [dmodify]
  | cons p rest ih =>
    obtain ⟨pk, pb⟩ := p
    by_cases h : pk = k <;> simp [dmodify, dkeys_cons, h, ih]

theorem dkeys_derase {β : Type} (d : List (V × β)) (k : V) :
    dkeys (derase d k) = (dkeys d).filter (fun x => !decide (x = k)) := by
  induction d with
  | nil => simp [derase, dkeys]
  | cons p rest ih =>
    obtain ⟨pk, pb⟩ := p
    by_cases h : pk = k <;> simp [derase, dkeys_cons, h, ih]

theorem dkeys_map_rows {β γ : Type} (d : List (V × β)) (f : β → γ) :
    dkeys (d.map (fun p => (p.1, f p.2))) = dkeys d := by
  simp [dkeys]

theorem dvalues_length {β : Type} (d : List (V × β)) :
    (dvalues d).length = d.length := by
  simp [dvalues]

theorem dset_length {β : Type} (d : List (V × β)) (k : V) (b : β) :
    (dset d k b).length = if dmem d k then d.length else d.length + 1 := by
  induction d with
  | nil => simp [dset, dmem, dlook]
  | cons p rest ih =>
    obtain ⟨pk, pb⟩ := p
    by_cases h : pk = k
    · simp [dset, dmem, dlook, h]
    · simp only [dset, h, if_false, List.length_cons, ih, dmem_eq_isSome, dlook]
      by_cases h₂ : (dlook rest k).isSome <;> simp [dmem_eq_isSome, h₂]

theorem get_edges_length_dmodify (dir : Bool) (d : List (V × List (V × Edge V M)))
    (k : V) (f : List (V × Edge V M) → List (V × Edge V M)) (row : List (V × Edge V M))
    (h : dlook d k = some row) :
    (AdjacencyList.get_edges ⟨dir, dmodify d k f⟩).length + row.length
      = (AdjacencyList.get_edges ⟨dir, d⟩).length + (f row).length := by
  induction d with
  | nil => simp [dlook] at h
  | cons p rest ih =>
    obtain ⟨pk, pb⟩ := p
    by_cases h₁ : pk = k
    · subst h₁
      have h' : pb = row := by simpa [dlook] using h
      subst h'
      have hd : dmodify ((pk, pb) :: rest) pk f = (pk, f pb) :: rest := by
        simp [dmodify]
      rw [hd]
      simp only [AdjacencyList.get_edges, List.map_cons, List.flatten_cons,
        List.length_append, dvalues_length]
      omega
    · simp only [dlook, h₁, if_false] at h
      have := ih h
      simp only [AdjacencyList.get_edges, dmodify, h₁, if_false, List.map_cons,
        List.flatten_cons, List.length_append] at this ⊢
      omega


theorem dlook_isSome_iff {β : Type} (d : List (V × β)) (k : V) :
    (dlook d k).isSome ↔ k ∈ dkeys d := by
  induction d with
  | nil => simp [dlook, dkeys]
  | cons p rest ih =>
    obtain ⟨pk, pb⟩ := p
    by_cases h : pk = k
    · subst h
      simp [dlook, dkeys_cons]
    · have h' : ¬k = pk := fun hh => h hh.symm
      simp [dlook, dkeys_cons, h, h', ih]

theorem mem_of_dlook_eq_some {β : Type} {d : List (V × β)} {k : V} {b : β}
    (h : dlook d k = some b) : (k, b) ∈ d := by
  induction d with
  | nil => simp [dlook] at h
  | cons p rest ih =>
    obtain ⟨pk, pb⟩ := p
    by_cases hh : pk = k
    · subst hh
      have h' : pb = b := by simpa [dlook] using h
      subst h'
      exact List.mem_cons_self _ _
    · simp only [dlook, hh, if_false] at h
      exact List.mem_cons_of_mem _ (ih h)

theorem dlook_eq_some_of_mem {β : Type} {d : List (V × β)} {k : V} {b : β}
    (hnd : (dkeys d).Nodup) (hm : (k, b) ∈ d) : dlook d k = some b := by
  induction d with
  | nil => simp at hm
  | cons p rest ih =>
    obtain ⟨pk, pb⟩ := p
    rw [dkeys_cons, List.nodup_cons] at hnd
    rcases List.mem_cons.mp hm with heq | hmem
    · cases heq
      simp [dlook]
    · have hk : pk ≠ k := by
        intro hh
        subst hh
        exact hnd.1 (by simpa [dkeys] using List.mem_map_of_mem Prod.fst hmem)
      simp only [dlook, hk, if_false]
      exact ih hnd.2 hmem

theorem listIdx_isSome_iff (l : List V) (v : V) :
    (listIdx l v).isSome ↔ v ∈ l := by
  induction l with
  | nil => simp [listIdx]
  | cons a rest ih =>
    by_cases h : a = v
    · subst h
      simp [listIdx]
    · have h' : ¬v = a := fun hh => h hh.symm
      simp [listIdx, h, h', ih]

theorem listIdx_getElem {l : List V} {v : V} {i : Nat}
    (h : listIdx l v = some i) : l[i]? = some v := by
  induction l generalizing i with
  | nil => simp [listIdx] at h
  | cons a rest ih =>
    by_cases hh : a = v
    · subst hh
      have h' : i = 0 := by simpa [listIdx] using h.symm
      subst h'
      exact List.getElem?_cons_zero
    · simp only [listIdx, hh, if_false] at h
      cases hl : listIdx rest v with
      | none => rw [hl] at h; simp at h
      | some i₀ =>
        rw [hl] at h
        have h' : i = i₀ + 1 := by simpa using h.symm
        subst h'
        simpa using ih hl

theorem listIdx_lt_length {l : List V} {v : V} {i : Nat}
    (h : listIdx l v = some i) : i < l.length := by
  have := listIdx_getElem h
  rw [List.getElem?_eq_some_iff] at this
  exact this.1

theorem listIdx_of_getElem {l : List V} {v : V} {i : Nat}
    (hnd : l.Nodup) (h : l[i]? = some v) : listIdx l v = some i := by
  induction l generalizing i with
  | nil => simp at h
  | cons a rest ih =>
    rw [List.nodup_cons] at hnd
    match i with
    | 0 =>
      have h' : a = v := by simpa using h
      subst h'
      simp [listIdx]
    | i + 1 =>
      simp only [List.getElem?_cons_succ] at h
      have hne : a ≠ v := by
        intro hh
        subst hh
        exact hnd.1 (List.getElem?_mem h)
      simp [listIdx, hne, ih hnd.2 h]

theorem listIdx_eraseIdx {l : List V} {v : V} {i : Nat}
    (hnd : l.Nodup) (h : listIdx l v = some i) :
    l.eraseIdx i = l.filter (fun x => !decide (x = v)) := by
  induction l generalizing i with
  | nil => simp [listIdx] at h
  | cons a rest ih =>
    rw [List.nodup_cons] at hnd
    by_cases hh : a = v
    · subst hh
      have h' : i = 0 := by simpa [listIdx] using h.symm
      subst h'
      have hself : rest.filter (fun x => !decide (x = a)) = rest := by
        apply List.filter_eq_self.mpr
        intro x hx
        simp only [Bool.not_eq_eq_eq_not, Bool.not_true, decide_eq_false_iff_not]
        intro hxa
        exact hnd.1 (hxa ▸ hx)
      simp [List.eraseIdx, hself]
    · simp only [listIdx, hh, if_false] at h
      cases hl : listIdx rest v with
      | none => rw [hl] at h; simp at h
      | some i₀ =>
        rw [hl] at h
        have h' : i = i₀ + 1 := by simpa using h.symm
        subst h'
        simp [List.eraseIdx, hh, ih hnd.2 hl]

theorem listIdx_append (l : List V) (v x : V) :
    listIdx (l ++ [v]) x
      = if (listIdx l x).isSome then listIdx l x
        else if v = x then some l.length else none := by
  induction l with
  | nil => simp [listIdx]
  | cons a rest ih =>
    by_cases h : a = x
    · simp [listIdx, h]
    · simp only [List.cons_append, listIdx, h, if_false, ih]
      by_cases h₂ : (listIdx rest x).isSome
      · obtain ⟨i, hi⟩ := Option.isSome_iff_exists.mp h₂
        simp [ih, hi]
      · rw [Option.not_isSome_iff_eq_none] at h₂
        by_cases h₃ : v = x
        · subst h₃
          simp [ih, h₂]
        · simp [ih, h₂, h₃]

theorem cellAt_matSet {M : Type} (mat : List (List (Option (Edge V M))))
    (i j : Nat) (val : Option (Edge V M)) (i' j' : Nat)
    (hj : ∀ row ∈ mat, j < row.length) :
    cellAt (matSet mat i j val) i' j'
      = if i = i' ∧ j = j' then (if i < mat.length then val else none)
        else cellAt mat i' j' := by
  unfold cellAt matSet
  rw [List.getElem?_modify]
  by_cases hii : i = i'
  · subst hii
    cases hmi : mat[i]? with
    | none =>
      have hge : ¬i < mat.length := by
        rw [List.getElem?_eq_none_iff] at hmi
        omega
      simp [hge]
    | some row =>
      have hlt : i < mat.length := by
        rw [List.getElem?_eq_some_iff] at hmi
        exact hmi.1
      have hrow : row ∈ mat := List.getElem?_mem hmi
      have hjr : j < row.length := hj row hrow
      simp only [Option.map_some, Option.some_bind, if_pos rfl, hlt, if_true, true_and]
      rw [List.getElem?_set]
      by_cases hjj : j = j'
      · subst hjj
        simp [hjr]
      · simp [hjj]
  · have hcond : ¬(i = i' ∧ j = j') := fun hc => hii hc.1
    simp only [hcond, if_false]
    cases hmi : mat[i']? with
    | none => simp [hmi]
    | some row => simp [hmi, hii]

theorem cellAt_grow {M : Type} (mat : List (List (Option (Edge V M))))
    (hsq : ∀ row ∈ mat, row.length = mat.length) (i j : Nat) :
    cellAt ((mat.map (fun row => row ++ [none])) ++ [List.replicate (mat.length + 1) none]) i j
      = cellAt mat i j := by
  unfold cellAt
  rw [List.getElem?_append]
  simp only [List.length_map]
  by_cases hi : i < mat.length
  · rw [if_pos hi, List.getElem?_map]
    cases hmi : mat[i]? with
    | none =>
      rw [List.getElem?_eq_none_iff] at hmi
      omega
    | some row =>
      have hrow : row ∈ mat := List.getElem?_mem hmi
      simp only [hmi, Option.map_some', Option.some_bind]
      rw [List.getElem?_append]
      by_cases hjr : j < row.length
      · simp [hjr]
      · have h₁ : row[j]? = none := by
          rw [List.getElem?_eq_none_iff]
          omega
        have h₂ : ([(none : Option (Edge V M))][j - row.length]?).join = none := by
          match hq : j - row.length with
          | 0 => rfl
          | q + 1 => rfl
        simp only [hjr, if_false, h₁]
        simpa using h₂
  · rw [if_neg hi]
    have hmain : mat[i]? = none := by
      rw [List.getElem?_eq_none_iff]
      omega
    simp only [hmain, Option.none_bind]
    match hq : i - mat.length with
    | 0 =>
      simp only [List.getElem?_cons_zero, Option.some_bind]
      rw [List.getElem?_replicate]
      by_cases hjn : j < mat.length + 1 <;> simp [hjn]
    | q + 1 => simp

theorem mem_dset {β : Type} {p : V × β} {d : List (V × β)} {k : V} {b : β}
    (h : p ∈ dset d k b) : p = (k, b) ∨ p ∈ d := by
  induction d with
  | nil => simpa [dset] using h
  | cons q rest ih =>
    obtain ⟨qk, qb⟩ := q
    by_cases hh : qk = k
    · subst hh
      rcases List.mem_cons.mp (by simpa [dset] using h) with h₁ | h₁
      · left
        simpa using h₁
      · right
        exact List.mem_cons_of_mem _ h₁
    · rcases List.mem_cons.mp (by simpa [dset, hh] using h) with h₁ | h₁
      · right
        simp [h₁]
      · rcases ih h₁ with h₂ | h₂
        · left
          exact h₂
        · right
          exact List.mem_cons_of_mem _ h₂

theorem mem_derase {β : Type} {p : V × β} {d : List (V × β)} {k : V}
    (h : p ∈ derase d k) : p ∈ d ∧ p.1 ≠ k := by
  induction d with
  | nil => simp [derase] at h
  | cons q rest ih =>
    obtain ⟨qk, qb⟩ := q
    by_cases hh : qk = k
    · subst hh
      have h' := ih (by simpa [derase] using h)
      exact ⟨List.mem_cons_of_mem _ h'.1, h'.2⟩
    · rcases List.mem_cons.mp (by simpa [derase, hh] using h) with h₁ | h₁
      · subst h₁
        exact ⟨List.mem_cons_self _ _, hh⟩
      · have h' := ih h₁
        exact ⟨List.mem_cons_of_mem _ h'.1, h'.2⟩

theorem mem_dmodify {β : Type} {p : V × β} {d : List (V × β)} {k : V} {f : β → β}
    (h : p ∈ dmodify d k f) : p ∈ d ∨ ∃ c, (k, c) ∈ d ∧ p = (k, f c) := by
  induction d with
  | nil => simp [dmodify] at h
  | cons q rest ih =>
    obtain ⟨qk, qb⟩ := q
    by_cases hh : qk = k
    · subst hh
      rcases List.mem_cons.mp (by simpa [dmodify] using h) with h₁ | h₁
      · right
        exact ⟨qb, List.mem_cons_self _ _, h₁⟩
      · left
        exact List.mem_cons_of_mem _ h₁
    · rcases List.mem_cons.mp (by simpa [dmodify, hh] using h) with h₁ | h₁
      · left
        simp [h₁]
      · rcases ih h₁ with h₂ | h₂
        · left
          exact List.mem_cons_of_mem _ h₂
        · right
          obtain ⟨c, hc₁, hc₂⟩ := h₂
          exact ⟨c, List.mem_cons_of_mem _ hc₁, hc₂⟩

theorem dmem_eq_decide {β : Type} (d : List (V × β)) (v : V) :
    dmem d v = decide (v ∈ dkeys d) := by
  by_cases hm : v ∈ dkeys d
  · simp [dmem_eq_isSome, (dlook_isSome_iff d v).mpr hm, hm]
  · have h2 : (dlook d v).isSome = false := by
      rw [← Bool.not_eq_true, dlook_isSome_iff]
      exact hm
    simp [dmem_eq_isSome, h2, hm]

theorem list_has_vertex_eq (r : AdjacencyList V M) (v : V) :
    r.has_vertex v = decide (v ∈ dkeys r.adj) :=
  dmem_eq_decide r.adj v

theorem list_has_edge_eq (r : AdjacencyList V M) (s t : V) :
    r.has_edge s t = (r.get_edge_data s t).isSome := by
  unfold AdjacencyList.has_edge AdjacencyList.get_edge_data
  cases h : dlook r.adj s with
  | none => simp
  | some row => simp [dmem_eq_isSome]

theorem matrix_has_vertex_eq (mx : AdjacencyMatrix V M) (v : V) :
    mx.has_vertex v = decide (v ∈ mx.order) := by
  unfold AdjacencyMatrix.has_vertex
  by_cases hm : v ∈ mx.order
  · simp [(listIdx_isSome_iff mx.order v).mpr hm, hm]
  · have h2 : (listIdx mx.order v).isSome = false := by
      rw [← Bool.not_eq_true, listIdx_isSome_iff]
      exact hm
    simp [h2, hm]

theorem matrix_has_edge_eq (mx : AdjacencyMatrix V M) (s t : V) :
    mx.has_edge s t = (mx.get_edge_data s t).isSome := by
  unfold AdjacencyMatrix.has_edge AdjacencyMatrix.get_edge_data
  cases h₁ : listIdx mx.order s <;> cases h₂ : listIdx mx.order t <;> simp

theorem list_add_vertex_spec (r : AdjacencyList V M) (v : V) (hwf : r.WF) :
    (r.add_vertex v).1 = !decide (v ∈ dkeys r.adj)
      ∧ (r.add_vertex v).2.directed = r.directed
      ∧ dkeys (r.add_vertex v).2.adj
          = (if v ∈ dkeys r.adj then dkeys r.adj else dkeys r.adj ++ [v])
      ∧ (∀ s t, (r.add_vertex v).2.get_edge_data s t = r.get_edge_data s t)
      ∧ (r.add_vertex v).2.WF := by
  by_cases hm : v ∈ dkeys r.adj
  · have hdm : dmem r.adj v = true := by simp [dmem_eq_decide, hm]
    simp [AdjacencyList.add_vertex, hdm, hm, hwf]
  · have hdm : dmem r.adj v = false := by simp [dmem_eq_decide, hm]
    have habs : dlook r.adj v = none := by
      rw [← Option.not_isSome_iff_eq_none, dlook_isSome_iff]
      exact hm
    have hkeys : dkeys (dset r.adj v ([] : List (V × Edge V M))) = dkeys r.adj ++ [v] := by
      rw [dkeys_dset, hdm]
      simp
    refine ⟨by simp [AdjacencyList.add_vertex, hdm, hm], by simp [AdjacencyList.add_vertex, hdm], ?_, ?_, ?_⟩
    · simp only [AdjacencyList.add_vertex, hdm]
      simp [hkeys, hm]
    · intro s t
      simp only [AdjacencyList.add_vertex, hdm]
      simp only [Bool.false_eq_true, if_false, AdjacencyList.get_edge_data]
      rw [dlook_dset]
      by_cases hs : v = s
      · subst hs
        simp [habs, dlook]
      · simp [hs]
    · simp only [AdjacencyList.add_vertex, hdm]
      simp only [Bool.false_eq_true, if_false]
      refine ⟨?_, ?_⟩
      · rw [hkeys, List.nodup_append]
        exact ⟨hwf.1, List.nodup_singleton v, by simpa using hm⟩
      · intro p hp
        rcases mem_dset hp with h₁ | h₁
        · subst h₁
          simp [dkeys]
        · have h₂ := hwf.2 p h₁
          refine ⟨h₂.1, fun q hq => ?_⟩
          rw [hkeys]
          exact List.mem_append_left _ (h₂.2 q hq)

theorem list_remove_vertex_spec (r : AdjacencyList V M) (v : V) (hwf : r.WF) :
    (r.remove_vertex v).1 = decide (v ∈ dkeys r.adj)
      ∧ (r.remove_vertex v).2.directed = r.directed
      ∧ dkeys (r.remove_vertex v).2.adj
          = (dkeys r.adj).filter (fun x => !decide (x = v))
      ∧ (∀ s t, (r.remove_vertex v).2.get_edge_data s t
          = if s = v ∨ t = v then none else r.get_edge_data s t)
      ∧ (r.remove_vertex v).2.WF := by
  by_cases hm : v ∈ dkeys r.adj
  · have hdm : dmem r.adj v = true := by simp [dmem_eq_decide, hm]
    have hkeys : dkeys (derase (r.adj.map (fun p => (p.1, derase p.2 v))) v)
        = (dkeys r.adj).filter (fun x => !decide (x = v)) := by
      rw [dkeys_derase, dkeys_map_rows r.adj (fun row => derase row v)]
    refine ⟨by simp [AdjacencyList.remove_vertex, hdm, hm],
      by simp [AdjacencyList.remove_vertex, hdm], ?_, ?_, ?_⟩
    · simp [AdjacencyList.remove_vertex, hdm, hkeys]
    · intro s t
      simp only [AdjacencyList.remove_vertex, hdm, Bool.true_eq_false, if_false,
        AdjacencyList.get_edge_data]
      rw [dlook_derase]
      by_cases hs : v = s
      · subst hs
        simp
      · rw [if_neg hs, dlook_map_rows r.adj (fun row => derase row v) s]
        have hsv : ¬(s = v) := fun hh => hs hh.symm
        cases hrow : dlook r.adj s with
        | none => simp [hsv]
        | some row =>
          simp only [Option.map_some', Option.some_bind, hsv, false_or]
          rw [dlook_derase]
          by_cases ht : v = t
          · subst ht
            simp
          · have htv : ¬(t = v) := fun hh => ht hh.symm
            simp [ht, htv]
    · simp only [AdjacencyList.remove_vertex, hdm, Bool.true_eq_false, if_false]
      refine ⟨?_, ?_⟩
      · rw [hkeys]
        exact List.Nodup.filter _ hwf.1
      · intro p hp
        obtain ⟨hp₁, hp₂⟩ := mem_derase hp
        obtain ⟨q, hq₁, hq₂⟩ := List.mem_map.mp hp₁
        subst hq₂
        have hq₃ := hwf.2 q hq₁
        refine ⟨?_, ?_⟩
        · rw [dkeys_derase]
          exact List.Nodup.filter _ hq₃.1
        · intro e he
          obtain ⟨he₁, he₂⟩ := mem_derase he
          rw [hkeys]
          rw [List.mem_filter]
          exact ⟨hq₃.2 e he₁, by simpa using he₂⟩
  · have hdm : dmem r.adj v = false := by simp [dmem_eq_decide, hm]
    have habs : dlook r.adj v = none := by
      rw [← Option.not_isSome_iff_eq_none, dlook_isSome_iff]
      exact hm
    have hid : (dkeys r.adj).filter (fun x => !decide (x = v)) = dkeys r.adj := by
      apply List.filter_eq_self.mpr
      intro x hx
      simp only [Bool.not_eq_eq_eq_not, Bool.not_true, decide_eq_false_iff_not]
      intro hxv
      exact hm (hxv ▸ hx)
    refine ⟨by simp [AdjacencyList.remove_vertex, hdm, hm],
      by simp [AdjacencyList.remove_vertex, hdm], ?_, ?_, ?_⟩
    · simp [AdjacencyList.remove_vertex, hdm, hid]
    · intro s t
      have hstate : r.remove_vertex v = (false, r) := by
        simp [AdjacencyList.remove_vertex, hdm]
      rw [hstate]
      by_cases hs : s = v
      · subst hs
        simp [AdjacencyList.get_edge_data, habs]
      · by_cases ht : t = v
        · rw [if_pos (Or.inr ht)]
          unfold AdjacencyList.get_edge_data
          cases hrow : dlook r.adj s with
          | none => simp [hrow]
          | some row =>
            simp only [Option.some_bind]
            rw [← Option.not_isSome_iff_eq_none, dlook_isSome_iff]
            intro hmem
            obtain ⟨b, hb⟩ := Option.isSome_iff_exists.mp ((dlook_isSome_iff row t).mpr hmem)
            have hkm : t ∈ dkeys r.adj :=
              (hwf.2 _ (mem_of_dlook_eq_some hrow)).2 _ (mem_of_dlook_eq_some hb)
            exact hm (ht ▸ hkm)
        · simp [hs, ht]
    · simpa [AdjacencyList.remove_vertex, hdm] using hwf

theorem wf_row_dset {ks : List V} {row : List (V × Edge V M)} {k : V} {e : Edge V M}
    (hnd : (dkeys row).Nodup) (hmem : ∀ q ∈ row, q.1 ∈ ks) (hk : k ∈ ks) :
    (dkeys (dset row k e)).Nodup ∧ ∀ q ∈ dset row k e, q.1 ∈ ks := by
  refine ⟨?_, ?_⟩
  · rw [dkeys_dset]
    by_cases hdm : dmem row k
    · simp [hdm, hnd]
    · have hknm : k ∉ dkeys row := by
        intro hmm
        rw [dmem_eq_decide] at hdm
        simp [hmm] at hdm
      simp only [hdm, Bool.false_eq_true, if_false]
      rw [List.nodup_append]
      exact ⟨hnd, List.nodup_singleton k, by simpa using hknm⟩
  · intro q hq
    rcases mem_dset hq with h | h
    · subst h
      exact hk
    · exact hmem q h

theorem list_add_edge_fail (r : AdjacencyList V M) (s t : V) (w : ℚ) (m : M)
    (h : s ∉ dkeys r.adj ∨ t ∉ dkeys r.adj ∨ (r.get_edge_data s t).isSome) :
    r.add_edge s t w m = (false, r) := by
  by_cases hs : dmem r.adj s = false
  · simp [AdjacencyList.add_edge, hs]
  · by_cases ht : dmem r.adj t = false
    · simp [AdjacencyList.add_edge, ht]
    · rcases h with h | h | h
      · exact absurd (by simp [dmem_eq_decide, h]) hs
      · exact absurd (by simp [dmem_eq_decide, h]) ht
      · obtain ⟨row, hrow⟩ : ∃ row, dlook r.adj s = some row := by
          cases hl : dlook r.adj s with
          | none =>
            rw [AdjacencyList.get_edge_data, hl] at h
            simp at h
          | some row => exact ⟨row, rfl⟩
        have hdm : dmem row t = true := by
          rw [AdjacencyList.get_edge_data, hrow] at h
          simpa [dmem_eq_isSome] using h
        simp [AdjacencyList.add_edge, hs, ht, hrow, hdm]

theorem list_add_edge_ok (r : AdjacencyList V M) (s t : V) (w : ℚ) (m : M)
    (hs : s ∈ dkeys r.adj) (ht : t ∈ dkeys r.adj)
    (hcell : r.get_edge_data s t = none) (hwf : r.WF) :
    (r.add_edge s t w m).1 = true
      ∧ (r.add_edge s t w m).2.directed = r.directed
      ∧ dkeys (r.add_edge s t w m).2.adj = dkeys r.adj
      ∧ (∀ x y, (r.add_edge s t w m).2.get_edge_data x y
          = if r.directed = false ∧ t = x ∧ s = y then some ⟨t, s, w, m, true⟩
            else if s = x ∧ t = y then some ⟨s, t, w, m, true⟩
            else r.get_edge_data x y)
      ∧ (r.add_edge s t w m).2.WF := by
  have hdms : dmem r.adj s = true := by simp [dmem_eq_decide, hs]
  have hdmt : dmem r.adj t = true := by simp [dmem_eq_decide, ht]
  obtain ⟨row, hrow⟩ := Option.isSome_iff_exists.mp (dmem_eq_isSome r.adj s ▸ hdms)
  have hnab : dmem row t = false := by
    rw [AdjacencyList.get_edge_data, hrow] at hcell
    simp only [Option.some_bind] at hcell
    simp [dmem_eq_isSome, hcell]
  have step1 : ∀ x y,
      AdjacencyList.get_edge_data
        ⟨r.directed, dmodify r.adj s (fun rw => dset rw t ⟨s, t, w, m, true⟩)⟩ x y
      = if s = x ∧ t = y then some ⟨s, t, w, m, true⟩ else r.get_edge_data x y := by
    intro x y
    unfold AdjacencyList.get_edge_data
    rw [dlook_dmodify]
    by_cases hx : s = x
    · rw [if_pos hx, hrow]
      simp only [Option.map_some', Option.some_bind]
      rw [dlook_dset]
      by_cases hy : t = y
      · simp [hx, hy]
      · rw [if_neg hy, ← hx, hrow]
        simp [hy]
    · simp [hx]
  have wf1 : (⟨r.directed, dmodify r.adj s (fun rw => dset rw t ⟨s, t, w, m, true⟩)⟩
      : AdjacencyList V M).WF := by
    refine ⟨by rw [dkeys_dmodify]; exact hwf.1, ?_⟩
    intro p hp
    rw [dkeys_dmodify]
    rcases mem_dmodify hp with h | h
    · exact hwf.2 p h
    · obtain ⟨c, hc₁, hc₂⟩ := h
      subst hc₂
      have hwfc := hwf.2 (s, c) hc₁
      exact wf_row_dset hwfc.1 hwfc.2 ht
  by_cases hdir : r.directed = true
  · have key : r.add_edge s t w m
        = (true, ⟨r.directed, dmodify r.adj s (fun rw => dset rw t ⟨s, t, w, m, true⟩)⟩) := by
      simp [AdjacencyList.add_edge, hdms, hdmt, hrow, hnab, hdir]
    refine ⟨by rw [key], by rw [key], ?_, ?_, ?_⟩
    · rw [key]
      exact dkeys_dmodify _ _ _
    · intro x y
      rw [key]
      rw [show (true, (⟨r.directed, dmodify r.adj s
          (fun rw => dset rw t ⟨s, t, w, m, true⟩)⟩ : AdjacencyList V M)).2
        = ⟨r.directed, dmodify r.adj s (fun rw => dset rw t ⟨s, t, w, m, true⟩)⟩ from rfl]
      rw [step1 x y]
      simp [hdir]
    · rw [key]
      exact wf1
  · have hdirf : r.directed = false := by
      cases hd : r.directed
      · rfl
      · exact absurd hd hdir
    have key : r.add_edge s t w m
        = (true, ⟨r.directed,
            dmodify (dmodify r.adj s (fun rw => dset rw t ⟨s, t, w, m, true⟩)) t
              (fun rw => dset rw s ⟨t, s, w, m, true⟩)⟩) := by
      simp [AdjacencyList.add_edge, hdms, hdmt, hrow, hnab, hdirf]
    refine ⟨by rw [key], by rw [key], ?_, ?_, ?_⟩
    · rw [key]
      rw [show (true, (⟨r.directed, dmodify (dmodify r.adj s
            (fun rw => dset rw t ⟨s, t, w, m, true⟩)) t
            (fun rw => dset rw s ⟨t, s, w, m, true⟩)⟩ : AdjacencyList V M)).2.adj
          = dmodify (dmodify r.adj s (fun rw => dset rw t ⟨s, t, w, m, true⟩)) t
            (fun rw => dset rw s ⟨t, s, w, m, true⟩) from rfl]
      rw [dkeys_dmodify, dkeys_dmodify]
    · intro x y
      rw [key]
      unfold AdjacencyList.get_edge_data
      rw [dlook_dmodify]
      by_cases hx : t = x
      · subst hx
        rw [if_pos rfl, dlook_dmodify]
        by_cases hst : s = t
        · rw [if_pos hst, hrow]
          simp only [Option.map_some', Option.some_bind]
          rw [dlook_dset]
          by_cases hy : s = y
          · rw [if_pos hy]
            simp [hdirf, hy]
          · rw [if_neg hy, dlook_dset, if_neg (fun hh => hy (hst.trans hh)), ← hst, hrow]
            simp [hy]
        · rw [if_neg hst]
          cases hrt : dlook r.adj t with
          | none =>
            have habs : (dlook r.adj t).isSome := (dlook_isSome_iff r.adj t).mpr ht
            rw [hrt] at habs
            simp at habs
          | some rowt =>
            simp only [Option.map_some', Option.some_bind]
            rw [dlook_dset]
            by_cases hy : s = y
            · rw [if_pos hy]
              simp [hdirf, hy]
            · rw [if_neg hy]
              simp [hy, hst]
      · rw [if_neg hx]
        have bridge : ((dlook (dmodify r.adj s
              (fun rw => dset rw t ⟨s, t, w, m, true⟩)) x).bind fun row => dlook row y)
            = AdjacencyList.get_edge_data
                ⟨r.directed, dmodify r.adj s (fun rw => dset rw t ⟨s, t, w, m, true⟩)⟩ x y :=
          rfl
        rw [bridge, step1 x y]
        have hc₁ : ¬(r.directed = false ∧ t = x ∧ s = y) := by
          rintro ⟨-, htx, -⟩
          exact hx htx
        rw [if_neg hc₁]
        rfl
    · rw [key]
      refine ⟨?_, ?_⟩
      · rw [show (⟨r.directed, dmodify (dmodify r.adj s
            (fun rw => dset rw t ⟨s, t, w, m, true⟩)) t
            (fun rw => dset rw s ⟨t, s, w, m, true⟩)⟩ : AdjacencyList V M).adj
          = dmodify (dmodify r.adj s (fun rw => dset rw t ⟨s, t, w, m, true⟩)) t
            (fun rw => dset rw s ⟨t, s, w, m, true⟩) from rfl]
        rw [dkeys_dmodify, dkeys_dmodify]
        exact hwf.1
      · intro p hp
        rw [show (⟨r.directed, dmodify (dmodify r.adj s
            (fun rw => dset rw t ⟨s, t, w, m, true⟩)) t
            (fun rw => dset rw s ⟨t, s, w, m, true⟩)⟩ : AdjacencyList V M).adj
          = dmodify (dmodify r.adj s (fun rw => dset rw t ⟨s, t, w, m, true⟩)) t
            (fun rw => dset rw s ⟨t, s, w, m, true⟩) from rfl] at hp
        rw [show dkeys (dmodify (dmodify r.adj s
            (fun rw => dset rw t ⟨s, t, w, m, true⟩)) t
            (fun rw => dset rw s ⟨t, s, w, m, true⟩))
          = dkeys r.adj from by rw [dkeys_dmodify, dkeys_dmodify]]
        rcases mem_dmodify hp with h | h
        · have := wf1.2 p h
          rwa [dkeys_dmodify] at this
        · obtain ⟨c, hc₁, hc₂⟩ := h
          subst hc₂
          have hwfc := wf1.2 (t, c) hc₁
          rw [dkeys_dmodify] at hwfc
          exact wf_row_dset hwfc.1 hwfc.2 hs

theorem list_remove_edge_fail (r : AdjacencyList V M) (s t : V)
    (h : r.get_edge_data s t = none) : r.remove_edge s t = (false, r) := by
  unfold AdjacencyList.remove_edge
  cases hrow : dlook r.adj s with
  | none => rfl
  | some row =>
    have hdm : dmem row t = false := by
      rw [AdjacencyList.get_edge_data, hrow] at h
      simp only [Option.some_bind] at h
      simp [dmem_eq_isSome, h]
    simp [hdm]

theorem list_remove_edge_ok (r : AdjacencyList V M) (s t : V) (e : Edge V M)
    (hcell : r.get_edge_data s t = some e) (hwf : r.WF) :
    (r.remove_edge s t).1 = true
      ∧ (r.remove_edge s t).2.directed = r.directed
      ∧ dkeys (r.remove_edge s t).2.adj = dkeys r.adj
      ∧ (∀ x y, (r.remove_edge s t).2.get_edge_data x y
          = if (s = x ∧ t = y) ∨ (r.directed = false ∧ t = x ∧ s = y) then none
            else r.get_edge_data x y)
      ∧ (r.remove_edge s t).2.WF := by
  obtain ⟨row, hrow⟩ : ∃ row, dlook r.adj s = some row := by
    cases hl : dlook r.adj s with
    | none =>
      rw [AdjacencyList.get_edge_data, hl] at hcell
      simp at hcell
    | some row => exact ⟨row, rfl⟩
  have hdm : dmem row t = true := by
    rw [AdjacencyList.get_edge_data, hrow] at hcell
    simp only [Option.some_bind] at hcell
    simp [dmem_eq_isSome, hcell]
  have step1 : ∀ x y,
      AdjacencyList.get_edge_data ⟨r.directed, dmodify r.adj s (fun rw => derase rw t)⟩ x y
        = if s = x ∧ t = y then none else r.get_edge_data x y := by
    intro x y
    unfold AdjacencyList.get_edge_data
    rw [dlook_dmodify]
    by_cases hx : s = x
    · rw [if_pos hx, hrow]
      simp only [Option.map_some', Option.some_bind]
      rw [dlook_derase]
      by_cases hy : t = y
      · simp [hx, hy]
      · rw [if_neg hy, ← hx, hrow]
        simp [hy]
    · simp [hx]
  have wfa : (⟨r.directed, dmodify r.adj s (fun rw => derase rw t)⟩
      : AdjacencyList V M).WF := by
    refine ⟨by rw [dkeys_dmodify]; exact hwf.1, ?_⟩
    intro p hp
    rw [dkeys_dmodify]
    rcases mem_dmodify hp with h | h
    · exact hwf.2 p h
    · obtain ⟨c, hc₁, hc₂⟩ := h
      subst hc₂
      have hwfc := hwf.2 (s, c) hc₁
      refine ⟨?_, ?_⟩
      · rw [dkeys_derase]
        exact List.Nodup.filter _ hwfc.1
      · intro q hq
        exact hwfc.2 q (mem_derase hq).1
  by_cases hdir : r.directed = true
  · have key : r.remove_edge s t
        = (true, ⟨r.directed, dmodify r.adj s (fun rw => derase rw t)⟩) := by
      unfold AdjacencyList.remove_edge
      rw [hrow]
      simp [hdm, hdir]
    refine ⟨by rw [key], by rw [key], ?_, ?_, ?_⟩
    · rw [key]
      exact dkeys_dmodify _ _ _
    · intro x y
      rw [key]
      rw [show (true, (⟨r.directed, dmodify r.adj s (fun rw => derase rw t)⟩
          : AdjacencyList V M)).2
        = ⟨r.directed, dmodify r.adj s (fun rw => derase rw t)⟩ from rfl]
      rw [step1 x y]
      by_cases hc : s = x ∧ t = y
      · simp [hc]
      · have hc₂ : ¬((s = x ∧ t = y) ∨ (r.directed = false ∧ t = x ∧ s = y)) := by
          rintro (hc₃ | ⟨hdf, -⟩)
          · exact hc hc₃
          · rw [hdir] at hdf
            exact absurd hdf (by simp)
        rw [if_neg hc, if_neg hc₂]
    · rw [key]
      exact wfa
  · have hdirf : r.directed = false := by
      cases hd : r.directed
      · rfl
      · exact absurd hd hdir
    by_cases hst : s = t
    · have hnone : dlook (derase row t) s = none := by
        rw [dlook_derase, hst]
        simp
      have hlook : dlook (dmodify r.adj s (fun rw => derase rw t)) t
          = some (derase row t) := by
        rw [dlook_dmodify, if_pos hst, hrow]
        rfl
      have key : r.remove_edge s t
          = (true, ⟨r.directed, dmodify r.adj s (fun rw => derase rw t)⟩) := by
        unfold AdjacencyList.remove_edge
        rw [hrow]
        simp [hdm, hdirf, hlook, dmem_eq_isSome, hnone]
      refine ⟨by rw [key], by rw [key], ?_, ?_, ?_⟩
      · rw [key]
        exact dkeys_dmodify _ _ _
      · intro x y
        rw [key]
        rw [show (true, (⟨r.directed, dmodify r.adj s (fun rw => derase rw t)⟩
            : AdjacencyList V M)).2
          = ⟨r.directed, dmodify r.adj s (fun rw => derase rw t)⟩ from rfl]
        rw [step1 x y]
        by_cases hc : s = x ∧ t = y
        · simp [hc]
        · have hc₂ : ¬((s = x ∧ t = y) ∨ (r.directed = false ∧ t = x ∧ s = y)) := by
            rintro (hc₃ | ⟨-, htx, hsy⟩)
            · exact hc hc₃
            · exact hc ⟨hst.trans htx, hst ▸ hsy⟩
          rw [if_neg hc, if_neg hc₂]
      · rw [key]
        exact wfa
    · cases hrt : dlook r.adj t with
      | none =>
        have hlook : dlook (dmodify r.adj s (fun rw => derase rw t)) t = none := by
          rw [dlook_dmodify, if_neg hst, hrt]
        have key : r.remove_edge s t
            = (true, ⟨r.directed, dmodify r.adj s (fun rw => derase rw t)⟩) := by
          unfold AdjacencyList.remove_edge
          rw [hrow]
          simp [hdm, hdirf, hlook]
        refine ⟨by rw [key], by rw [key], ?_, ?_, ?_⟩
        · rw [key]
          exact dkeys_dmodify _ _ _
        · intro x y
          rw [key]
          rw [show (true, (⟨r.directed, dmodify r.adj s (fun rw => derase rw t)⟩
              : AdjacencyList V M)).2
            = ⟨r.directed, dmodify r.adj s (fun rw => derase rw t)⟩ from rfl]
          rw [step1 x y]
          by_cases hc : s = x ∧ t = y
          · simp [hc]
          · rw [if_neg hc]
            by_cases hc₂ : r.directed = false ∧ t = x ∧ s = y
            · obtain ⟨-, htx, hsy⟩ := hc₂
              rw [if_pos (Or.inr ⟨hdirf, htx, hsy⟩), AdjacencyList.get_edge_data,
                ← htx, hrt]
              rfl
            · rw [if_neg (by
                rintro (hc₃ | hc₄)
                · exact hc hc₃
                · exact hc₂ hc₄)]
        · rw [key]
          exact wfa
      | some rowt =>
        have hlook : dlook (dmodify r.adj s (fun rw => derase rw t)) t = some rowt := by
          rw [dlook_dmodify, if_neg hst, hrt]
        by_cases hms : dmem rowt s = true
        · have key : r.remove_edge s t
              = (true, ⟨r.directed,
                  dmodify (dmodify r.adj s (fun rw => derase rw t)) t
                    (fun rw => derase rw s)⟩) := by
            unfold AdjacencyList.remove_edge
            rw [hrow]
            simp [hdm, hdirf, hlook, hms]
          refine ⟨by rw [key], by rw [key], ?_, ?_, ?_⟩
          · rw [key]
            rw [show (true, (⟨r.directed,
                dmodify (dmodify r.adj s (fun rw => derase rw t)) t
                  (fun rw => derase rw s)⟩ : AdjacencyList V M)).2.adj
              = dmodify (dmodify r.adj s (fun rw => derase rw t)) t
                  (fun rw => derase rw s) from rfl]
            rw [dkeys_dmodify, dkeys_dmodify]
          · intro x y
            rw [key]
            unfold AdjacencyList.get_edge_data
            rw [dlook_dmodify]
            by_cases hx : t = x
            · rw [if_pos hx, hlook]
              simp only [Option.map_some', Option.some_bind]
              rw [dlook_derase]
              by_cases hy : s = y
              · rw [if_pos hy, if_pos (Or.inr ⟨hdirf, hx, hy⟩)]
              · rw [if_neg hy]
                have hc : ¬((s = x ∧ t = y) ∨ (r.directed = false ∧ t = x ∧ s = y)) := by
                  rintro (⟨hsx, hty⟩ | ⟨-, -, hsy⟩)
                  · exact hst (hsx.trans hx.symm)
                  · exact hy hsy
                rw [if_neg hc, ← hx, hrt]
                rfl
            · rw [if_neg hx]
              have bridge : ((dlook (dmodify r.adj s (fun rw => derase rw t)) x).bind
                    fun row => dlook row y)
                  = AdjacencyList.get_edge_data
                      ⟨r.directed, dmodify r.adj s (fun rw => derase rw t)⟩ x y := rfl
              rw [bridge, step1 x y]
              by_cases hc : s = x ∧ t = y
              · simp [hc]
              · rw [if_neg hc, if_neg (by
                  rintro (hc₃ | ⟨-, htx, -⟩)
                  · exact hc hc₃
                  · exact hx htx)]
                rfl
          · rw [key]
            refine ⟨?_, ?_⟩
            · rw [show (⟨r.directed,
                  dmodify (dmodify r.adj s (fun rw => derase rw t)) t
                    (fun rw => derase rw s)⟩ : AdjacencyList V M).adj
                = dmodify (dmodify r.adj s (fun rw => derase rw t)) t
                    (fun rw => derase rw s) from rfl]
              rw [dkeys_dmodify, dkeys_dmodify]
              exact hwf.1
            · intro p hp
              rw [show (⟨r.directed,
                  dmodify (dmodify r.adj s (fun rw => derase rw t)) t
                    (fun rw => derase rw s)⟩ : AdjacencyList V M).adj
                = dmodify (dmodify r.adj s (fun rw => derase rw t)) t
                    (fun rw => derase rw s) from rfl] at hp
              rw [show dkeys (dmodify (dmodify r.adj s (fun rw => derase rw t)) t
                    (fun rw => derase rw s))
                = dkeys r.adj from by rw [dkeys_dmodify, dkeys_dmodify]]
              rcases mem_dmodify hp with h | h
              · have := wfa.2 p h
                rwa [dkeys_dmodify] at this
              · obtain ⟨c, hc₁, hc₂⟩ := h
                subst hc₂
                have hwfc := wfa.2 (t, c) hc₁
                rw [dkeys_dmodify] at hwfc
                refine ⟨?_, ?_⟩
                · rw [dkeys_derase]
                  exact List.Nodup.filter _ hwfc.1
                · intro q hq
                  exact hwfc.2 q (mem_derase hq).1
        · have hmsf : dmem rowt s = false := by
            cases hd : dmem rowt s
            · rfl
            · exact absurd hd hms
          have key : r.remove_edge s t
              = (true, ⟨r.directed, dmodify r.adj s (fun rw => derase rw t)⟩) := by
            unfold AdjacencyList.remove_edge
            rw [hrow]
            simp [hdm, hdirf, hlook, hmsf]
          refine ⟨by rw [key], by rw [key], ?_, ?_, ?_⟩
          · rw [key]
            exact dkeys_dmodify _ _ _
          · intro x y
            rw [key]
            rw [show (true, (⟨r.directed, dmodify r.adj s (fun rw => derase rw t)⟩
                : AdjacencyList V M)).2
              = ⟨r.directed, dmodify r.adj s (fun rw => derase rw t)⟩ from rfl]
            rw [step1 x y]
            by_cases hc : s = x ∧ t = y
            · simp [hc]
            · rw [if_neg hc]
              by_cases hc₂ : r.directed = false ∧ t = x ∧ s = y
              · obtain ⟨-, htx, hsy⟩ := hc₂
                rw [if_pos (Or.inr ⟨hdirf, htx, hsy⟩), AdjacencyList.get_edge_data,
                  ← htx, hrt]
                simp only [Option.some_bind]
                rw [← hsy]
                rw [← Option.not_isSome_iff_eq_none, ← dmem_eq_isSome, hmsf]
                simp
              · rw [if_neg (by
                  rintro (hc₃ | hc₄)
                  · exact hc hc₃
                  · exact hc₂ hc₄)]
          · rw [key]
            exact wfa

theorem listIdx_eq_iff {l : List V} {s x : V} {i i' : Nat}
    (h₁ : listIdx l s = some i) (h₂ : listIdx l x = some i') :
    i = i' ↔ s = x := by
  constructor
  · intro h
    subst h
    have g₁ := listIdx_getElem h₁
    have g₂ := listIdx_getElem h₂
    rw [g₁] at g₂
    exact Option.some_inj.mp g₂
  · intro h
    subst h
    rw [h₁] at h₂
    exact Option.some_inj.mp h₂

theorem listIdx_shift {l : List V} {v : V} {i₀ : Nat}
    (h₀ : listIdx l v = some i₀) (x : V) (hx : x ≠ v) :
    listIdx (l.eraseIdx i₀) x
      = (listIdx l x).map (fun i => if i < i₀ then i else i - 1) := by
  induction l generalizing i₀ with
  | nil => simp [listIdx] at h₀
  | cons a rest ih =>
    by_cases hav : a = v
    · subst hav
      have h' : i₀ = 0 := by simpa [listIdx] using h₀.symm
      subst h'
      have hax : ¬a = x := fun hh => hx hh.symm
      simp only [List.eraseIdx_zero, List.tail_cons, listIdx, hax, if_false]
      cases hr : listIdx rest x with
      | none => simp
      | some i => simp
    · simp only [listIdx, hav, if_false] at h₀
      cases hk : listIdx rest v with
      | none => rw [hk] at h₀; simp at h₀
      | some k =>
        rw [hk] at h₀
        have h' : i₀ = k + 1 := by simpa using h₀.symm
        subst h'
        rw [show (a :: rest).eraseIdx (k + 1) = a :: rest.eraseIdx k from rfl]
        by_cases hax : a = x
        · simp [listIdx, hax]
        · simp only [listIdx, hax, if_false, ih hk]
          cases hi : listIdx rest x with
          | none => simp
          | some i =>
            have hik : i ≠ k := by
              intro hh
              exact hx ((listIdx_eq_iff hi hk).mp hh)
            simp only [Option.map_some', Option.map_map]
            congr 1
            funext
            by_cases hlt : i < k
            · simp [hlt, Nat.lt_succ_of_lt hlt, Nat.succ_lt_succ hlt]
            · have hgt : k < i := by omega
              have h1 : ¬i + 1 < k + 1 := by omega
              rw [if_neg hlt, if_neg h1]
              omega

theorem cellAt_shrink {M : Type} (mat : List (List (Option (Edge V M))))
    (i₀ i j : Nat) :
    cellAt ((mat.eraseIdx i₀).map (fun row => row.eraseIdx i₀)) i j
      = cellAt mat (if i < i₀ then i else i + 1) (if j < i₀ then j else j + 1) := by
  unfold cellAt
  rw [List.getElem?_map, List.getElem?_eraseIdx]
  by_cases hi : i < i₀
  · rw [if_pos hi, if_pos hi]
    cases hmi : mat[i]? with
    | none => simp
    | some row =>
      simp only [Option.map_some', Option.some_bind]
      rw [List.getElem?_eraseIdx]
      by_cases hj : j < i₀ <;> simp [hj]
  · rw [if_neg hi, if_neg hi]
    cases hmi : mat[i + 1]? with
    | none => simp
    | some row =>
      simp only [Option.map_some', Option.some_bind]
      rw [List.getElem?_eraseIdx]
      by_cases hj : j < i₀ <;> simp [hj]

theorem matrix_add_vertex_spec (mx : AdjacencyMatrix V M) (v : V) (hwf : mx.WF) :
    (mx.add_vertex v).1 = !decide (v ∈ mx.order)
      ∧ (mx.add_vertex v).2.directed = mx.directed
      ∧ (mx.add_vertex v).2.order
          = (if v ∈ mx.order then mx.order else mx.order ++ [v])
      ∧ (∀ s t, (mx.add_vertex v).2.get_edge_data s t = mx.get_edge_data s t)
      ∧ (mx.add_vertex v).2.WF := by
  by_cases hm : v ∈ mx.order
  · have hi : (listIdx mx.order v).isSome = true := (listIdx_isSome_iff _ _).mpr hm
    simp [AdjacencyMatrix.add_vertex, hi, hm, hwf]
  · have hi : (listIdx mx.order v).isSome = false := by
      rw [← Bool.not_eq_true, listIdx_isSome_iff]
      exact hm
    have hinone : listIdx mx.order v = none := by
      rw [← Option.not_isSome_iff_eq_none]
      simp [hi]
    have key : mx.add_vertex v
        = (true, ⟨mx.directed, mx.order ++ [v],
            (mx.mat.map (fun row => row ++ [none]))
              ++ [List.replicate (mx.order.length + 1) none]⟩) := by
      simp [AdjacencyMatrix.add_vertex, hi]
    have hsq : ∀ row ∈ mx.mat, row.length = mx.mat.length := by
      intro row hr
      rw [hwf.2.1]
      exact hwf.2.2 row hr
    have hgrow : ∀ i j, cellAt ((mx.mat.map (fun row => row ++ [none]))
        ++ [List.replicate (mx.order.length + 1) none]) i j = cellAt mx.mat i j := by
      intro i j
      rw [← hwf.2.1]
      exact cellAt_grow mx.mat hsq i j
    refine ⟨by simp [key, hm], by simp [key], by simp [key, hm], ?_, ?_⟩
    · intro s t
      rw [key]
      unfold AdjacencyMatrix.get_edge_data
      rw [show (true, (⟨mx.directed, mx.order ++ [v],
          (mx.mat.map (fun row => row ++ [none]))
            ++ [List.replicate (mx.order.length + 1) none]⟩
          : AdjacencyMatrix V M)).2.order = mx.order ++ [v] from rfl]
      cases hs : listIdx mx.order s with
      | some i =>
        have hS' : listIdx (mx.order ++ [v]) s = some i := by
          rw [listIdx_append, hs]
          simp
        cases ht : listIdx mx.order t with
        | some j =>
          have hT' : listIdx (mx.order ++ [v]) t = some j := by
            rw [listIdx_append, ht]
            simp
          rw [hS', hT']
          exact hgrow i j
        | none =>
          by_cases hvt : v = t
          · have hT' : listIdx (mx.order ++ [v]) t = some mx.order.length := by
              rw [listIdx_append, ht]
              simp [hvt]
            rw [hS', hT']
            have hval : cellAt ((mx.mat.map (fun row => row ++ [none]))
                ++ [List.replicate (mx.order.length + 1) none]) i mx.order.length
                  = none := by
              rw [hgrow i mx.order.length]
              unfold cellAt
              cases hmi : mx.mat[i]? with
              | none => simp
              | some row =>
                have hn : row[mx.order.length]? = none := by
                  rw [List.getElem?_eq_none_iff, hwf.2.2 row (List.getElem?_mem hmi)]
                simp [hn]
            exact hval
          · have hT' : listIdx (mx.order ++ [v]) t = none := by
              rw [listIdx_append, ht]
              simp [hvt]
            rw [hS', hT']
      | none =>
        have hS0 : listIdx (mx.order ++ [v]) s
            = if v = s then some mx.order.length else none := by
          rw [listIdx_append, hs]
          simp
        by_cases hvs : v = s
        · have hS' : listIdx (mx.order ++ [v]) s = some mx.order.length := by
            rw [hS0]
            simp [hvs]
          rw [hS']
          cases ht2 : listIdx (mx.order ++ [v]) t with
          | none => rfl
          | some j =>
            have hval : cellAt ((mx.mat.map (fun row => row ++ [none]))
                ++ [List.replicate (mx.order.length + 1) none]) mx.order.length j
                  = none := by
              rw [hgrow mx.order.length j]
              unfold cellAt
              have hmain : mx.mat[mx.order.length]? = none := by
                rw [List.getElem?_eq_none_iff, hwf.2.1]
              simp [hmain]
            exact hval
        · have hS' : listIdx (mx.order ++ [v]) s = none := by
            rw [hS0]
            simp [hvs]
          rw [hS']
    · rw [key]
      refine ⟨?_, ?_, ?_⟩
      · rw [show (true, (⟨mx.directed, mx.order ++ [v],
            (mx.mat.map (fun row => row ++ [none]))
              ++ [List.replicate (mx.order.length + 1) none]⟩
            : AdjacencyMatrix V M)).2.order = mx.order ++ [v] from rfl]
        rw [List.nodup_append]
        exact ⟨hwf.1, List.nodup_singleton v, by simpa using hm⟩
      · simp [hwf.2.1]
      · intro row hr
        rcases List.mem_append.mp hr with h | h
        · obtain ⟨row₀, hr₀, hr₁⟩ := List.mem_map.mp h
          subst hr₁
          simp [hwf.2.2 row₀ hr₀]
        · rw [List.mem_singleton.mp h]
          simp

theorem matrix_remove_vertex_spec (mx : AdjacencyMatrix V M) (v : V) (hwf : mx.WF) :
    (mx.remove_vertex v).1 = decide (v ∈ mx.order)
      ∧ (mx.remove_vertex v).2.directed = mx.directed
      ∧ (mx.remove_vertex v).2.order = mx.order.filter (fun x => !decide (x = v))
      ∧ (∀ s t, (mx.remove_vertex v).2.get_edge_data s t
          = if s = v ∨ t = v then none else mx.get_edge_data s t)
      ∧ (mx.remove_vertex v).2.WF := by
  cases hidx : listIdx mx.order v with
  | none =>
    have hm : v ∉ mx.order := by
      rw [← listIdx_isSome_iff, hidx]
      simp
    have hid : mx.order.filter (fun x => !decide (x = v)) = mx.order := by
      apply List.filter_eq_self.mpr
      intro x hx
      simp only [Bool.not_eq_eq_eq_not, Bool.not_true, decide_eq_false_iff_not]
      intro hxv
      exact hm (hxv ▸ hx)
    have key : mx.remove_vertex v = (false, mx) := by
      simp [AdjacencyMatrix.remove_vertex, hidx]
    refine ⟨by simp [key, hm], by simp [key], by simp [key, hid], ?_, by simp [key, hwf]⟩
    intro s t
    rw [key]
    by_cases hs : s = v
    · have hsi : listIdx mx.order s = none := hs ▸ hidx
      rw [if_pos (Or.inl hs)]
      unfold AdjacencyMatrix.get_edge_data
      rw [hsi]
    · by_cases ht : t = v
      · have hti : listIdx mx.order t = none := ht ▸ hidx
        rw [if_pos (Or.inr ht)]
        unfold AdjacencyMatrix.get_edge_data
        rw [hti]
        cases listIdx mx.order s <;> rfl
      · simp [hs, ht]
  | some i₀ =>
    have hm : v ∈ mx.order := by
      rw [← listIdx_isSome_iff, hidx]
      rfl
    have hi₀ : i₀ < mx.order.length := listIdx_lt_length hidx
    have horder : mx.order.eraseIdx i₀ = mx.order.filter (fun x => !decide (x = v)) :=
      listIdx_eraseIdx hwf.1 hidx
    have key : mx.remove_vertex v
        = (true, ⟨mx.directed, mx.order.eraseIdx i₀,
            (mx.mat.eraseIdx i₀).map (fun row => row.eraseIdx i₀)⟩) := by
      simp [AdjacencyMatrix.remove_vertex, hidx]
    have hvnot : v ∉ mx.order.eraseIdx i₀ := by
      rw [horder]
      intro hmem
      have := (List.mem_filter.mp hmem).2
      simp at this
    refine ⟨by simp [key, hm], by simp [key], by simp [key, horder], ?_, ?_⟩
    · intro s t
      rw [key]
      unfold AdjacencyMatrix.get_edge_data
      rw [show (true, (⟨mx.directed, mx.order.eraseIdx i₀,
          (mx.mat.eraseIdx i₀).map (fun row => row.eraseIdx i₀)⟩
          : AdjacencyMatrix V M)).2.order = mx.order.eraseIdx i₀ from rfl]
      by_cases hs : s = v
      · have hsiv : listIdx (mx.order.eraseIdx i₀) v = none := by
          rw [← Option.not_isSome_iff_eq_none, listIdx_isSome_iff]
          exact hvnot
        rw [if_pos (Or.inl hs), hs, hsiv]
      · by_cases ht : t = v
        · have hti : listIdx (mx.order.eraseIdx i₀) t = none := by
            rw [← Option.not_isSome_iff_eq_none, listIdx_isSome_iff]
            exact ht ▸ hvnot
          rw [if_pos (Or.inr ht), hti]
          cases listIdx (mx.order.eraseIdx i₀) s <;> rfl
        · rw [if_neg (by
            rintro (h | h)
            · exact hs h
            · exact ht h)]
          rw [listIdx_shift hidx s hs, listIdx_shift hidx t ht]
          cases hsi : listIdx mx.order s with
          | none => simp
          | some i =>
            cases hti : listIdx mx.order t with
            | none => simp
            | some j =>
              simp only [Option.map_some']
              rw [cellAt_shrink]
              have hine : i ≠ i₀ := fun hh => hs ((listIdx_eq_iff hsi hidx).mp hh)
              have hjne : j ≠ i₀ := fun hh => ht ((listIdx_eq_iff hti hidx).mp hh)
              congr 1
              · by_cases hlt : i < i₀
                · rw [if_pos hlt, if_pos hlt]
                · rw [if_neg hlt, if_neg (show ¬i - 1 < i₀ by omega)]
                  omega
              · by_cases hlt : j < i₀
                · rw [if_pos hlt, if_pos hlt]
                · rw [if_neg hlt, if_neg (show ¬j - 1 < i₀ by omega)]
                  omega
    · rw [key]
      have hmlen : mx.mat.length = mx.order.length := hwf.2.1
      refine ⟨?_, ?_, ?_⟩
      · rw [show (true, (⟨mx.directed, mx.order.eraseIdx i₀,
            (mx.mat.eraseIdx i₀).map (fun row => row.eraseIdx i₀)⟩
            : AdjacencyMatrix V M)).2.order = mx.order.eraseIdx i₀ from rfl]
        exact List.Nodup.eraseIdx i₀ hwf.1
      · simp only [List.length_map, List.length_eraseIdx]
        rw [hmlen]
      · intro row hr
        obtain ⟨row₀, hr₀, hr₁⟩ := List.mem_map.mp hr
        subst hr₁
        have hr₂ : row₀ ∈ mx.mat := by
          have hsub : (mx.mat.eraseIdx i₀).Sublist mx.mat := List.eraseIdx_sublist _ _
          exact hsub.mem hr₀
        have hlen := hwf.2.2 row₀ hr₂
        simp only [List.length_eraseIdx, hlen, List.length_eraseIdx]

theorem matSet_dims {M : Type} (mat : List (List (Option (Edge V M))))
    (i j : Nat) (val : Option (Edge V M)) (n : Nat)
    (hml : mat.length = n) (hrl : ∀ row ∈ mat, row.length = n) :
    (matSet mat i j val).length = n
      ∧ ∀ row ∈ matSet mat i j val, row.length = n := by
  refine ⟨by rw [matSet, List.length_modify, hml], ?_⟩
  intro row hr
  obtain ⟨k, hk⟩ := List.mem_iff_getElem?.mp hr
  rw [matSet, List.getElem?_modify] at hk
  cases hmk : mat[k]? with
  | none => rw [hmk] at hk; simp at hk
  | some row₀ =>
    rw [hmk] at hk
    have hrow₀ : row₀ ∈ mat := List.getElem?_mem hmk
    have hk' : (if i = k then row₀.set j val else row₀) = row := by simpa using hk
    by_cases hik : i = k
    · rw [if_pos hik] at hk'
      rw [← hk', List.length_set]
      exact hrl row₀ hrow₀
    · rw [if_neg hik] at hk'
      rw [← hk']
      exact hrl row₀ hrow₀

theorem matrix_get_eq_cellAt (mx : AdjacencyMatrix V M) {s t : V} {i j : Nat}
    (hsi : listIdx mx.order s = some i) (hti : listIdx mx.order t = some j) :
    mx.get_edge_data s t = cellAt mx.mat i j := by
  rw [AdjacencyMatrix.get_edge_data, hsi, hti]

theorem matrix_get_none_left (mx : AdjacencyMatrix V M) {s : V} (t : V)
    (hsi : listIdx mx.order s = none) : mx.get_edge_data s t = none := by
  rw [AdjacencyMatrix.get_edge_data, hsi]

theorem matrix_get_none_right (mx : AdjacencyMatrix V M) (s : V) {t : V}
    (hti : listIdx mx.order t = none) : mx.get_edge_data s t = none := by
  rw [AdjacencyMatrix.get_edge_data, hti]
  cases listIdx mx.order s <;> rfl

theorem matrix_add_edge_fail (mx : AdjacencyMatrix V M) (s t : V) (w : ℚ) (m : M)
    (h : s ∉ mx.order ∨ t ∉ mx.order ∨ (mx.get_edge_data s t).isSome) :
    mx.add_edge s t w m = (false, mx) := by
  unfold AdjacencyMatrix.add_edge
  cases hsi : listIdx mx.order s with
  | none => rfl
  | some i =>
    cases hti : listIdx mx.order t with
    | none => rfl
    | some j =>
      have hcell : (cellAt mx.mat i j).isSome = true := by
        rcases h with h | h | h
        · exact absurd ((listIdx_isSome_iff _ _).mp (by rw [hsi]; rfl)) h
        · exact absurd ((listIdx_isSome_iff _ _).mp (by rw [hti]; rfl)) h
        · rw [AdjacencyMatrix.get_edge_data, hsi, hti] at h
          exact h
      simp [hcell]

theorem matrix_remove_edge_fail (mx : AdjacencyMatrix V M) (s t : V)
    (h : mx.get_edge_data s t = none) : mx.remove_edge s t = (false, mx) := by
  unfold AdjacencyMatrix.remove_edge
  cases hsi : listIdx mx.order s with
  | none => rfl
  | some i =>
    cases hti : listIdx mx.order t with
    | none => rfl
    | some j =>
      have hcell : (cellAt mx.mat i j).isNone = true := by
        rw [matrix_get_eq_cellAt mx hsi hti] at h
        rw [h]
        rfl
      simp [hcell]

theorem matrix_add_edge_ok (mx : AdjacencyMatrix V M) (s t : V) (w : ℚ) (m : M)
    (hs : s ∈ mx.order) (ht : t ∈ mx.order)
    (hcell : mx.get_edge_data s t = none) (hwf : mx.WF) :
    (mx.add_edge s t w m).1 = true
      ∧ (mx.add_edge s t w m).2.directed = mx.directed
      ∧ (mx.add_edge s t w m).2.order = mx.order
      ∧ (∀ x y, (mx.add_edge s t w m).2.get_edge_data x y
          = if mx.directed = false ∧ t = x ∧ s = y then some ⟨t, s, w, m, true⟩
            else if s = x ∧ t = y then some ⟨s, t, w, m, true⟩
            else mx.get_edge_data x y)
      ∧ (mx.add_edge s t w m).2.WF := by
  obtain ⟨i, hsi⟩ := Option.isSome_iff_exists.mp ((listIdx_isSome_iff _ _).mpr hs)
  obtain ⟨j, hti⟩ := Option.isSome_iff_exists.mp ((listIdx_isSome_iff _ _).mpr ht)
  have hc0 : cellAt mx.mat i j = none := by
    rw [AdjacencyMatrix.get_edge_data, hsi, hti] at hcell
    exact hcell
  have himat : i < mx.mat.length := by
    rw [hwf.2.1]
    exact listIdx_lt_length hsi
  have hjmat : j < mx.mat.length := by
    rw [hwf.2.1]
    exact listIdx_lt_length hti
  have hjb : ∀ row ∈ mx.mat, j < row.length := by
    intro row hr
    rw [hwf.2.2 row hr]
    exact listIdx_lt_length hti
  have dims₁ := matSet_dims mx.mat i j (some ⟨s, t, w, m, true⟩) mx.order.length
    hwf.2.1 hwf.2.2
  have cell₁ : ∀ i' j', cellAt (matSet mx.mat i j (some ⟨s, t, w, m, true⟩)) i' j'
      = if i = i' ∧ j = j' then some ⟨s, t, w, m, true⟩ else cellAt mx.mat i' j' := by
    intro i' j'
    rw [cellAt_matSet mx.mat i j _ i' j' hjb]
    by_cases hcnd : i = i' ∧ j = j'
    · rw [if_pos hcnd, if_pos hcnd, if_pos himat]
    · rw [if_neg hcnd, if_neg hcnd]
  have hmissing : ∀ x, listIdx mx.order x = none → (s = x → False) ∧ (t = x → False) := by
    intro x hx
    constructor
    · intro hh
      rw [hh] at hsi
      rw [hsi] at hx
      exact Option.noConfusion hx
    · intro hh
      rw [hh] at hti
      rw [hti] at hx
      exact Option.noConfusion hx
  by_cases hdir : mx.directed = true
  · have key : mx.add_edge s t w m
        = (true, ⟨mx.directed, mx.order, matSet mx.mat i j (some ⟨s, t, w, m, true⟩)⟩) := by
      unfold AdjacencyMatrix.add_edge
      rw [hsi, hti]
      simp [hc0, hdir]
    refine ⟨by rw [key], by rw [key], by rw [key], ?_, ?_⟩
    · intro x y
      rw [key]
      unfold AdjacencyMatrix.get_edge_data
      rw [show (true, (⟨mx.directed, mx.order,
          matSet mx.mat i j (some ⟨s, t, w, m, true⟩)⟩ : AdjacencyMatrix V M)).2.order
        = mx.order from rfl]
      have hdirne : ¬(mx.directed = false ∧ t = x ∧ s = y) := by
        rintro ⟨hdf, -, -⟩
        rw [hdir] at hdf
        exact Bool.noConfusion hdf
      rw [if_neg hdirne]
      cases hxi : listIdx mx.order x with
      | none =>
        have hcnd : ¬(s = x ∧ t = y) := fun hc => (hmissing x hxi).1 hc.1
        rw [if_neg hcnd]
      | some i' =>
        cases hyi : listIdx mx.order y with
        | none =>
          have hcnd : ¬(s = x ∧ t = y) := fun hc => (hmissing y hyi).2 hc.2
          rw [if_neg hcnd]
        | some j' =>
          show cellAt (matSet mx.mat i j (some ⟨s, t, w, m, true⟩)) i' j'
            = if s = x ∧ t = y then some ⟨s, t, w, m, true⟩ else cellAt mx.mat i' j'
          rw [cell₁ i' j']
          by_cases hcnd : s = x ∧ t = y
          · rw [if_pos hcnd,
              if_pos ⟨(listIdx_eq_iff hsi hxi).mpr hcnd.1, (listIdx_eq_iff hti hyi).mpr hcnd.2⟩]
          · rw [if_neg hcnd, if_neg (by
              rintro ⟨h₁, h₂⟩
              exact hcnd ⟨(listIdx_eq_iff hsi hxi).mp h₁, (listIdx_eq_iff hti hyi).mp h₂⟩)]
    · rw [key]
      exact ⟨hwf.1, dims₁.1, dims₁.2⟩
  · have hdirf : mx.directed = false := by
      cases hd : mx.directed
      · rfl
      · exact absurd hd hdir
    have hib : ∀ row ∈ matSet mx.mat i j (some ⟨s, t, w, m, true⟩), i < row.length := by
      intro row hr
      rw [dims₁.2 row hr]
      exact listIdx_lt_length hsi
    have hjm : j < (matSet mx.mat i j (some ⟨s, t, w, m, true⟩)).length := by
      rw [dims₁.1]
      exact listIdx_lt_length hti
    have dims₂ := matSet_dims (matSet mx.mat i j (some ⟨s, t, w, m, true⟩)) j i
      (some ⟨t, s, w, m, true⟩) mx.order.length dims₁.1 dims₁.2
    have cell₂ : ∀ i' j',
        cellAt (matSet (matSet mx.mat i j (some ⟨s, t, w, m, true⟩)) j i
          (some ⟨t, s, w, m, true⟩)) i' j'
        = if j = i' ∧ i = j' then some ⟨t, s, w, m, true⟩
          else if i = i' ∧ j = j' then some ⟨s, t, w, m, true⟩
          else cellAt mx.mat i' j' := by
      intro i' j'
      rw [cellAt_matSet _ j i _ i' j' hib]
      by_cases hcnd : j = i' ∧ i = j'
      · rw [if_pos hcnd, if_pos hcnd, if_pos hjm]
      · rw [if_neg hcnd, if_neg hcnd, cell₁ i' j']
    have key : mx.add_edge s t w m
        = (true, ⟨mx.directed, mx.order,
            matSet (matSet mx.mat i j (some ⟨s, t, w, m, true⟩)) j i
              (some ⟨t, s, w, m, true⟩)⟩) := by
      unfold AdjacencyMatrix.add_edge
      rw [hsi, hti]
      simp [hc0, hdirf]
    refine ⟨by rw [key], by rw [key], by rw [key], ?_, ?_⟩
    · intro x y
      rw [key]
      unfold AdjacencyMatrix.get_edge_data
      rw [show (true, (⟨mx.directed, mx.order,
          matSet (matSet mx.mat i j (some ⟨s, t, w, m, true⟩)) j i
            (some ⟨t, s, w, m, true⟩)⟩ : AdjacencyMatrix V M)).2.order
        = mx.order from rfl]
      cases hxi : listIdx mx.order x with
      | none =>
        have hc₁ : ¬(mx.directed = false ∧ t = x ∧ s = y) :=
          fun hc => (hmissing x hxi).2 hc.2.1
        have hc₂ : ¬(s = x ∧ t = y) := fun hc => (hmissing x hxi).1 hc.1
        rw [if_neg hc₁, if_neg hc₂]
      | some i' =>
        cases hyi : listIdx mx.order y with
        | none =>
          have hc₁ : ¬(mx.directed = false ∧ t = x ∧ s = y) :=
            fun hc => (hmissing y hyi).1 hc.2.2
          have hc₂ : ¬(s = x ∧ t = y) := fun hc => (hmissing y hyi).2 hc.2
          rw [if_neg hc₁, if_neg hc₂]
        | some j' =>
          show cellAt (matSet (matSet mx.mat i j (some ⟨s, t, w, m, true⟩)) j i
              (some ⟨t, s, w, m, true⟩)) i' j'
            = if mx.directed = false ∧ t = x ∧ s = y then some ⟨t, s, w, m, true⟩
              else if s = x ∧ t = y then some ⟨s, t, w, m, true⟩
              else cellAt mx.mat i' j'
          rw [cell₂ i' j']
          by_cases hcnd₁ : t = x ∧ s = y
          · have hA : j = i' ∧ i = j' :=
              ⟨(listIdx_eq_iff hti hxi).mpr hcnd₁.1, (listIdx_eq_iff hsi hyi).mpr hcnd₁.2⟩
            rw [if_pos hA, if_pos ⟨hdirf, hcnd₁⟩]
          · have hA : ¬(j = i' ∧ i = j') := by
              rintro ⟨h₁, h₂⟩
              exact hcnd₁ ⟨(listIdx_eq_iff hti hxi).mp h₁, (listIdx_eq_iff hsi hyi).mp h₂⟩
            have hB : ¬(mx.directed = false ∧ t = x ∧ s = y) := fun hc => hcnd₁ hc.2
            rw [if_neg hA, if_neg hB]
            by_cases hcnd₂ : s = x ∧ t = y
            · have hC : i = i' ∧ j = j' :=
                ⟨(listIdx_eq_iff hsi hxi).mpr hcnd₂.1, (listIdx_eq_iff hti hyi).mpr hcnd₂.2⟩
              rw [if_pos hC, if_pos hcnd₂]
            · have hC : ¬(i = i' ∧ j = j') := by
                rintro ⟨h₁, h₂⟩
                exact hcnd₂ ⟨(listIdx_eq_iff hsi hxi).mp h₁, (listIdx_eq_iff hti hyi).mp h₂⟩
              rw [if_neg hC, if_neg hcnd₂]
    · rw [key]
      exact ⟨hwf.1, dims₂.1, dims₂.2⟩

theorem matrix_remove_edge_ok (mx : AdjacencyMatrix V M) (s t : V) (e : Edge V M)
    (hcell : mx.get_edge_data s t = some e) (hwf : mx.WF) :
    (mx.remove_edge s t).1 = true
      ∧ (mx.remove_edge s t).2.directed = mx.directed
      ∧ (mx.remove_edge s t).2.order = mx.order
      ∧ (∀ x y, (mx.remove_edge s t).2.get_edge_data x y
          = if (s = x ∧ t = y) ∨ (mx.directed = false ∧ t = x ∧ s = y) then none
            else mx.get_edge_data x y)
      ∧ (mx.remove_edge s t).2.WF := by
  obtain ⟨i, hsi⟩ : ∃ i, listIdx mx.order s = some i := by
    cases hl : listIdx mx.order s with
    | none =>
      rw [AdjacencyMatrix.get_edge_data, hl] at hcell
      exact Option.noConfusion hcell
    | some i => exact ⟨i, rfl⟩
  obtain ⟨j, hti⟩ : ∃ j, listIdx mx.order t = some j := by
    cases hl : listIdx mx.order t with
    | none =>
      rw [AdjacencyMatrix.get_edge_data, hsi, hl] at hcell
      exact Option.noConfusion hcell
    | some j => exact ⟨j, rfl⟩
  have hc0 : cellAt mx.mat i j = some e := by
    rw [AdjacencyMatrix.get_edge_data, hsi, hti] at hcell
    exact hcell
  have hcn : (cellAt mx.mat i j).isNone = false := by
    rw [hc0]
    rfl
  have hjb : ∀ row ∈ mx.mat, j < row.length := by
    intro row hr
    rw [hwf.2.2 row hr]
    exact listIdx_lt_length hti
  have himat : i < mx.mat.length := by
    rw [hwf.2.1]
    exact listIdx_lt_length hsi
  have dims₁ := matSet_dims mx.mat i j none mx.order.length hwf.2.1 hwf.2.2
  have cell₁ : ∀ i' j', cellAt (matSet mx.mat i j none) i' j'
      = if i = i' ∧ j = j' then none else cellAt mx.mat i' j' := by
    intro i' j'
    rw [cellAt_matSet mx.mat i j none i' j' hjb]
    by_cases hcnd : i = i' ∧ j = j'
    · rw [if_pos hcnd, if_pos hcnd, if_pos himat]
    · rw [if_neg hcnd, if_neg hcnd]
  have hmissing : ∀ x, listIdx mx.order x = none → (s = x → False) ∧ (t = x → False) := by
    intro x hx
    constructor
    · intro hh
      rw [hh] at hsi
      rw [hsi] at hx
      exact Option.noConfusion hx
    · intro hh
      rw [hh] at hti
      rw [hti] at hx
      exact Option.noConfusion hx
  by_cases hdir : mx.directed = true
  · have key : mx.remove_edge s t
        = (true, ⟨mx.directed, mx.order, matSet mx.mat i j none⟩) := by
      unfold AdjacencyMatrix.remove_edge
      rw [hsi, hti]
      simp [hcn, hdir]
    refine ⟨by rw [key], by rw [key], by rw [key], ?_, ?_⟩
    · intro x y
      rw [key]
      unfold AdjacencyMatrix.get_edge_data
      rw [show (true, (⟨mx.directed, mx.order,
          matSet mx.mat i j none⟩ : AdjacencyMatrix V M)).2.order = mx.order from rfl]
      have hdirne : ¬(mx.directed = false ∧ t = x ∧ s = y) := by
        rintro ⟨hdf, -, -⟩
        rw [hdir] at hdf
        exact Bool.noConfusion hdf
      cases hxi : listIdx mx.order x with
      | none =>
        have hcnd : ¬((s = x ∧ t = y) ∨ (mx.directed = false ∧ t = x ∧ s = y)) := by
          rintro (hc | hc)
          · exact (hmissing x hxi).1 hc.1
          · exact hdirne hc
        rw [if_neg hcnd]
      | some i' =>
        cases hyi : listIdx mx.order y with
        | none =>
          have hcnd : ¬((s = x ∧ t = y) ∨ (mx.directed = false ∧ t = x ∧ s = y)) := by
            rintro (hc | hc)
            · exact (hmissing y hyi).2 hc.2
            · exact hdirne hc
          rw [if_neg hcnd]
        | some j' =>
          show cellAt (matSet mx.mat i j none) i' j'
            = if (s = x ∧ t = y) ∨ (mx.directed = false ∧ t = x ∧ s = y) then none
              else cellAt mx.mat i' j'
          rw [cell₁ i' j']
          by_cases hcnd : s = x ∧ t = y
          · rw [if_pos ⟨(listIdx_eq_iff hsi hxi).mpr hcnd.1,
              (listIdx_eq_iff hti hyi).mpr hcnd.2⟩, if_pos (Or.inl hcnd)]
          · rw [if_neg (by
              rintro ⟨h₁, h₂⟩
              exact hcnd ⟨(listIdx_eq_iff hsi hxi).mp h₁, (listIdx_eq_iff hti hyi).mp h₂⟩)]
            rw [if_neg (by
              rintro (hc | hc)
              · exact hcnd hc
              · exact hdirne hc)]
    · rw [key]
      exact ⟨hwf.1, dims₁.1, dims₁.2⟩
  · have hdirf : mx.directed = false := by
      cases hd : mx.directed
      · rfl
      · exact absurd hd hdir
    have hib : ∀ row ∈ matSet mx.mat i j none, i < row.length := by
      intro row hr
      rw [dims₁.2 row hr]
      exact listIdx_lt_length hsi
    have hjm : j < (matSet mx.mat i j none).length := by
      rw [dims₁.1]
      exact listIdx_lt_length hti
    have dims₂ := matSet_dims (matSet mx.mat i j none) j i none mx.order.length
      dims₁.1 dims₁.2
    have cell₂ : ∀ i' j', cellAt (matSet (matSet mx.mat i j none) j i none) i' j'
        = if j = i' ∧ i = j' then none
          else if i = i' ∧ j = j' then none
          else cellAt mx.mat i' j' := by
      intro i' j'
      rw [cellAt_matSet _ j i none i' j' hib]
      by_cases hcnd : j = i' ∧ i = j'
      · rw [if_pos hcnd, if_pos hcnd, if_pos hjm]
      · rw [if_neg hcnd, if_neg hcnd, cell₁ i' j']
    have key : mx.remove_edge s t
        = (true, ⟨mx.directed, mx.order, matSet (matSet mx.mat i j none) j i none⟩) := by
      unfold AdjacencyMatrix.remove_edge
      rw [hsi, hti]
      simp [hcn, hdirf]
    refine ⟨by rw [key], by rw [key], by rw [key], ?_, ?_⟩
    · intro x y
      rw [key]
      unfold AdjacencyMatrix.get_edge_data
      rw [show (true, (⟨mx.directed, mx.order,
          matSet (matSet mx.mat i j none) j i none⟩ : AdjacencyMatrix V M)).2.order
        = mx.order from rfl]
      cases hxi : listIdx mx.order x with
      | none =>
        have hcnd : ¬((s = x ∧ t = y) ∨ (mx.directed = false ∧ t = x ∧ s = y)) := by
          rintro (hc | hc)
          · exact (hmissing x hxi).1 hc.1
          · exact (hmissing x hxi).2 hc.2.1
        rw [if_neg hcnd]
      | some i' =>
        cases hyi : listIdx mx.order y with
        | none =>
          have hcnd : ¬((s = x ∧ t = y) ∨ (mx.directed = false ∧ t = x ∧ s = y)) := by
            rintro (hc | hc)
            · exact (hmissing y hyi).2 hc.2
            · exact (hmissing y hyi).1 hc.2.2
          rw [if_neg hcnd]
        | some j' =>
          show cellAt (matSet (matSet mx.mat i j none) j i none) i' j'
            = if (s = x ∧ t = y) ∨ (mx.directed = false ∧ t = x ∧ s = y) then none
              else cellAt mx.mat i' j'
          rw [cell₂ i' j']
          by_cases hcnd₁ : t = x ∧ s = y
          · rw [if_pos ⟨(listIdx_eq_iff hti hxi).mpr hcnd₁.1,
              (listIdx_eq_iff hsi hyi).mpr hcnd₁.2⟩,
              if_pos (Or.inr ⟨hdirf, hcnd₁⟩)]
          · rw [if_neg (by
              rintro ⟨h₁, h₂⟩
              exact hcnd₁ ⟨(listIdx_eq_iff hti hxi).mp h₁, (listIdx_eq_iff hsi hyi).mp h₂⟩)]
            by_cases hcnd₂ : s = x ∧ t = y
            · rw [if_pos ⟨(listIdx_eq_iff hsi hxi).mpr hcnd₂.1,
                (listIdx_eq_iff hti hyi).mpr hcnd₂.2⟩, if_pos (Or.inl hcnd₂)]
            · rw [if_neg (by
                rintro ⟨h₁, h₂⟩
                exact hcnd₂ ⟨(listIdx_eq_iff hsi hxi).mp h₁, (listIdx_eq_iff hti hyi).mp h₂⟩)]
              rw [if_neg (by
                rintro (hc | hc)
                · exact hcnd₂ hc
                · exact hcnd₁ hc.2)]
    · rw [key]
      exact ⟨hwf.1, dims₂.1, dims₂.2⟩

/-- C2: evaluation at the failing input of the bug.  In an undirected
AdjacencyList (and likewise AdjacencyMatrix) holding vertices 0 and 1,
`add_edge(0, 1, 3.0)` stores the forward entry `Edge(0, 1, 3.0)` and the
mirror entry `Edge(1, 0, 3.0)`, both constructed with the Edge default
`directed=True`, so no normalization runs: the mirror reports source 1 and
target 0 — not the identical normalized source/target the claim (and
test_add_edge_undirected of test_representations.py, which expects both
entries to read source A, target B and compare equal) requires — and the
two stored entries are unequal under Python equality. -/
theorem undirected_mirror_unnormalized :
    (AdjacencyList.get_edge_data
        ((((AdjacencyList.empty (V := Nat) (M := Unit) false).add_vertex 0).2.add_vertex
          1).2.add_edge 0 1 3 ()).2 0 1 = some ⟨0, 1, 3, (), true⟩
      ∧ AdjacencyList.get_edge_data
        ((((AdjacencyList.empty (V := Nat) (M := Unit) false).add_vertex 0).2.add_vertex
          1).2.add_edge 0 1 3 ()).2 1 0 = some ⟨1, 0, 3, (), true⟩)
    ∧ (AdjacencyMatrix.get_edge_data
        ((((AdjacencyMatrix.empty (V := Nat) (M := Unit) false).add_vertex 0).2.add_vertex
          1).2.add_edge 0 1 3 ()).2 0 1 = some ⟨0, 1, 3, (), true⟩
      ∧ AdjacencyMatrix.get_edge_data
        ((((AdjacencyMatrix.empty (V := Nat) (M := Unit) false).add_vertex 0).2.add_vertex
          1).2.add_edge 0 1 3 ()).2 1 0 = some ⟨1, 0, 3, (), true⟩)
    ∧ Edge.pyEq (V := Nat) (M := Unit) ⟨0, 1, 3, (), true⟩ ⟨1, 0, 3, (), true⟩ = false
    ∧ (⟨1, 0, 3, (), true⟩ : Edge Nat Unit).source ≠ 0 := by
  refine ⟨⟨by decide, by decide⟩, ⟨by decide, by decide⟩, by decide, by decide⟩

/-- C9: on an undirected adjacency-list graph, a successful
`add_edge(a, b)` with distinct endpoints (both present, edge absent in
both directions, as in every reachable undirected state) appends two
entries: the forward `Edge(a, b, w, m)` under (a, b) and the distinct
mirror `Edge(b, a, w, m)` under (b, a), both with the Edge default
`directed=True`; they are unequal under Python equality, so even a
deduplicating view keeps both, `num_edges` grows by 2 for the one logical
edge, and `edges()` is exactly the representation's stored entry list. -/
theorem undirected_add_edge_two_entries (g : Graph V M (AdjacencyList V M))
    (a b : V) (w : ℚ) (m : M)
    (hdir : g.rep.directed = false) (hab : a ≠ b)
    (ha : dmem g.rep.adj a = true) (hb : dmem g.rep.adj b = true)
    (hnoab : AdjacencyList.has_edge g.rep a b = false)
    (hnoba : AdjacencyList.has_edge g.rep b a = false) :
    (Graph.add_edge AdjacencyList.ops g a b w m).1 = .ok ()
      ∧ Graph.num_edges AdjacencyList.ops (Graph.add_edge AdjacencyList.ops g a b w m).2
          = Graph.num_edges AdjacencyList.ops g + 2
      ∧ AdjacencyList.get_edge_data (Graph.add_edge AdjacencyList.ops g a b w m).2.rep a b
          = some ⟨a, b, w, m, true⟩
      ∧ AdjacencyList.get_edge_data (Graph.add_edge AdjacencyList.ops g a b w m).2.rep b a
          = some ⟨b, a, w, m, true⟩
      ∧ Edge.pyEq (⟨a, b, w, m, true⟩ : Edge V M) ⟨b, a, w, m, true⟩ = false
      ∧ Graph.edges AdjacencyList.ops (Graph.add_edge AdjacencyList.ops g a b w m).2
          = AdjacencyList.get_edges (Graph.add_edge AdjacencyList.ops g a b w m).2.rep := by
  obtain ⟨rowa, hrowa⟩ := Option.isSome_iff_exists.mp (dmem_eq_isSome g.rep.adj a ▸ ha)
  obtain ⟨rowb, hrowb⟩ := Option.isSome_iff_exists.mp (dmem_eq_isSome g.rep.adj b ▸ hb)
  have hnoab' : dmem rowa b = false := by
    simpa [AdjacencyList.has_edge, hrowa] using hnoab
  have hnoba' : dmem rowb a = false := by
    simpa [AdjacencyList.has_edge, hrowb] using hnoba
  have hba : ¬b = a := fun hh => hab hh.symm
  have key : AdjacencyList.add_edge g.rep a b w m
      = (true, ⟨g.rep.directed,
          dmodify (dmodify g.rep.adj a (fun rw => dset rw b ⟨a, b, w, m, true⟩)) b
            (fun rw => dset rw a ⟨b, a, w, m, true⟩)⟩) := by
    simp [AdjacencyList.add_edge, ha, hb, hrowa, hnoab', hdir]
  have hvisa : AdjacencyList.ops.has_vertex g.rep a = true := ha
  have hvisb : AdjacencyList.ops.has_vertex g.rep b = true := hb
  have hfac : Graph.add_edge AdjacencyList.ops g a b w m
      = (.ok (), ⟨g.directed, g.weighted, (AdjacencyList.add_edge g.rep a b w m).2⟩) := by
    simp [Graph.add_edge, AdjacencyList.ops, AdjacencyList.has_vertex, ha, hb]
  have hadj1 : dlook (dmodify g.rep.adj a (fun rw => dset rw b ⟨a, b, w, m, true⟩)) b
      = some rowb := by
    rw [dlook_dmodify]
    simp [hab, hrowb]
  refine ⟨by rw [hfac], ?_, ?_, ?_, ?_, rfl⟩
  · have s₁ := get_edges_length_dmodify (M := M) g.rep.directed g.rep.adj a
      (fun rw => dset rw b ⟨a, b, w, m, true⟩) rowa hrowa
    have s₂ := get_edges_length_dmodify (M := M) g.rep.directed
      (dmodify g.rep.adj a (fun rw => dset rw b ⟨a, b, w, m, true⟩)) b
      (fun rw => dset rw a ⟨b, a, w, m, true⟩) rowb hadj1
    rw [dset_length, hnoab'] at s₁
    rw [dset_length, hnoba'] at s₂
    simp at s₁ s₂
    have heta : (⟨g.rep.directed, g.rep.adj⟩ : AdjacencyList V M) = g.rep := rfl
    rw [heta] at s₁
    rw [hfac]
    simp only [Graph.num_edges, Graph.edges, AdjacencyList.ops, key]
    omega
  · rw [hfac, key]
    simp only [AdjacencyList.get_edge_data]
    rw [dlook_dmodify]
    simp only [hba, if_false]
    rw [dlook_dmodify]
    simp only [if_pos rfl, hrowa, Option.map_some]
    simp [dlook_dset, hab]
  · rw [hfac, key]
    simp only [AdjacencyList.get_edge_data]
    rw [dlook_dmodify]
    simp only [if_pos rfl, hadj1, Option.map_some]
    simp [dlook_dset]
  · simp [Edge.pyEq, hab]

/-- C9 witness: the concrete undirected adjacency-list graph with vertices
0 and 1, no edges, then `add_edge(0, 1, 3.0)`. -/
theorem undirected_add_edge_two_entries_witness :
    ((Graph.add_edge (V := Nat) (M := Unit) AdjacencyList.ops
        ⟨false, true, (((AdjacencyList.empty false).add_vertex 0).2.add_vertex 1).2⟩
        0 1 3 ()).1 = .ok ()
      ∧ Graph.num_edges AdjacencyList.ops
          (Graph.add_edge (V := Nat) (M := Unit) AdjacencyList.ops
            ⟨false, true, (((AdjacencyList.empty false).add_vertex 0).2.add_vertex 1).2⟩
            0 1 3 ()).2
        = Graph.num_edges AdjacencyList.ops
            (⟨false, true, (((AdjacencyList.empty false).add_vertex 0).2.add_vertex 1).2⟩
              : Graph Nat Unit (AdjacencyList Nat Unit)) + 2) := by
  have h := undirected_add_edge_two_entries (V := Nat) (M := Unit)
    ⟨false, true, (((AdjacencyList.empty false).add_vertex 0).2.add_vertex 1).2⟩
    0 1 3 () (by decide) (by decide) (by decide) (by decide) (by decide) (by decide)
  exact ⟨h.1, h.2.1⟩

/-- C4: the claim quantifies over all hashable vertices `a ≠ b`, including
non-comparable vertices; Python hashes may collide.  With two distinct
non-comparable vertices of equal hash (here `V := Bool` with the constant
hash `0` and a comparison that always raises TypeError, as for instances
of a class defining `__hash__` but no ordering), neither construction
swaps, so `Edge(a,b,directed=False)` keeps source `a` and
`Edge(b,a,directed=False)` keeps source `b`: the two edges are not equal
under Python equality, refuting the claim as stated. -/
theorem edge_norm_counterexample :
    Edge.pyEq
      (mkEdge (V := Bool) (M := Unit) (fun _ _ => none) (fun _ => 0) false true 1 () false)
      (mkEdge (V := Bool) (M := Unit) (fun _ _ => none) (fun _ => 0) true false 1 () false)
      = false := by
  decide

/-- C4 (amended): for distinct vertices `a ≠ b` and any weight, provided the
comparison orders the pair one way round (a strict total comparison, as for
Python's comparable built-in types), or the comparison is unsupported in
both directions and the two hashes differ, the two undirected
constructions normalize to the same Edge value (hence Python `==` and
`hash` agree on them), while the two directed constructions are never
equal under Python equality. -/
theorem edge_norm_amended {M : Type} (gt : V → V → Option Bool) (hashv : V → Int)
    (a b : V) (w : ℚ) (m : M) (hab : a ≠ b)
    (hord : (gt a b = some true ∧ gt b a = some false)
      ∨ (gt a b = some false ∧ gt b a = some true)
      ∨ (gt a b = none ∧ gt b a = none ∧ hashv a ≠ hashv b)) :
    mkEdge gt hashv a b w m false = mkEdge gt hashv b a w m false
      ∧ Edge.pyEq (mkEdge gt hashv a b w m true) (mkEdge gt hashv b a w m true) = false := by
  constructor
  · rcases hord with ⟨h₁, h₂⟩ | ⟨h₁, h₂⟩ | ⟨h₁, h₂, h₃⟩ <;>
      simp only [mkEdge, hab, Ne.symm hab, h₁, h₂, ne_eq, not_false_eq_true, and_true,
        if_true, reduceIte]
    rcases lt_trichotomy (hashv a) (hashv b) with hlt | heq | hgt
    · simp [not_lt_of_lt hlt, hlt]
    · exact absurd heq h₃
    · simp [hgt, not_lt_of_lt hgt]
  · simp [mkEdge, Edge.pyEq, hab]

/-- C4 amended-claim witness: concrete comparable integers 1 ≠ 2 under the
standard order and identity hash. -/
theorem edge_norm_amended_witness :
    (1 : Int) ≠ 2
      ∧ (mkEdge (V := Int) (M := Unit) (fun x y => some (decide (x > y))) id 1 2 5 () false
          = mkEdge (fun x y => some (decide (x > y))) id 2 1 5 () false
        ∧ Edge.pyEq (mkEdge (V := Int) (M := Unit) (fun x y => some (decide (x > y))) id 1 2 5 () true)
            (mkEdge (fun x y => some (decide (x > y))) id 2 1 5 () true) = false) :=
  ⟨by decide,
    edge_norm_amended (fun x y => some (decide (x > y))) id 1 2 5 () (by decide)
      (Or.inr (Or.inl ⟨by decide, by decide⟩))⟩

/-- C8: at the concrete directed edge (0, 1) and vertex 2 (not an endpoint),
`other_vertex` raises the builtin ValueError.  No `NotPartOfEdgeError`
exists anywhere in the codebase (exceptions.py defines only GraphError,
VertexNotFoundError, EdgeNotFoundError, CycleError,
DisconnectedGraphError, InvalidGraphError), so the failure is not any
library exception kind, refuting the claimed error type. -/
theorem other_vertex_counterexample :
    (Edge.other_vertex (V := Nat) (M := Unit) ⟨0, 1, 1, (), true⟩ 2 = .error .valueError)
      ∧ Edge.other_vertex (V := Nat) (M := Unit) ⟨0, 1, 1, (), true⟩ 2 ≠ .error .vertexNotFound
      ∧ Edge.other_vertex (V := Nat) (M := Unit) ⟨0, 1, 1, (), true⟩ 2 ≠ .error .edgeNotFound
      ∧ Edge.other_vertex (V := Nat) (M := Unit) ⟨0, 1, 1, (), true⟩ 2 ≠ .error .cycleErr
      ∧ Edge.other_vertex (V := Nat) (M := Unit) ⟨0, 1, 1, (), true⟩ 2 ≠ .error .disconnectedErr
      ∧ Edge.other_vertex (V := Nat) (M := Unit) ⟨0, 1, 1, (), true⟩ 2 ≠ .error .invalidGraph := by
  refine ⟨by decide, by decide, by decide, by decide, by decide, by decide⟩

/-- C8 (amended): `other_vertex` returns the endpoint distinct from the
given vertex (the target when the vertex is the source, the source when it
is the target), and raises the builtin ValueError — not a
NotPartOfEdgeError, which does not exist in the codebase — when the vertex
is neither endpoint (`has_vertex` false). -/
theorem other_vertex_amended {M : Type} (e : Edge V M) (v : V) :
    (e.has_vertex v = false → e.other_vertex v = .error .valueError)
      ∧ (v = e.source → e.other_vertex v = .ok e.target)
      ∧ (v ≠ e.source → v = e.target → e.other_vertex v = .ok e.source) := by
  refine ⟨fun h => ?_, fun h => ?_, fun h₁ h₂ => ?_⟩
  · simp only [Edge.has_vertex, Bool.or_eq_false_iff, decide_eq_false_iff_not] at h
    simp [Edge.other_vertex, h.1, h.2]
  · simp [Edge.other_vertex, h]
  · simp [Edge.other_vertex, h₁, h₂]

/-- C8 amended-claim witness at the concrete edge (0, 1): vertex 2 is not an
endpoint and the call errors with ValueError; vertex 0 gets 1 back; vertex
1 gets 0 back. -/
theorem other_vertex_amended_witness :
    (Edge.has_vertex (V := Nat) (M := Unit) ⟨0, 1, 1, (), true⟩ 2 = false
        ∧ Edge.other_vertex (V := Nat) (M := Unit) ⟨0, 1, 1, (), true⟩ 2 = .error .valueError)
      ∧ Edge.other_vertex (V := Nat) (M := Unit) ⟨0, 1, 1, (), true⟩ 0 = .ok 1
      ∧ Edge.other_vertex (V := Nat) (M := Unit) ⟨0, 1, 1, (), true⟩ 1 = .ok 0 :=
  ⟨⟨by decide, (other_vertex_amended (V := Nat) (M := Unit) ⟨0, 1, 1, (), true⟩ 2).1 (by decide)⟩,
    (other_vertex_amended (V := Nat) (M := Unit) ⟨0, 1, 1, (), true⟩ 0).2.1 (by decide),
    (other_vertex_amended (V := Nat) (M := Unit) ⟨0, 1, 1, (), true⟩ 1).2.2 (by decide) (by decide)⟩

end Pygraph

-- ===================================================================
-- Representation equivalence (C7): observation lemmas
-- ===================================================================

namespace Pygraph

variable {V M : Type} [DecidableEq V]

theorem list_mem_get_edges_iff (r : AdjacencyList V M) (hwf : r.WF) (e : Edge V M) :
    e ∈ r.get_edges ↔ ∃ s t, r.get_edge_data s t = some e := by
  unfold AdjacencyList.get_edges
  rw [List.mem_flatten]
  constructor
  · rintro ⟨l, hl, hel⟩
    rw [List.mem_map] at hl
    obtain ⟨p, hp, rfl⟩ := hl
    rw [dvalues, List.mem_map] at hel
    obtain ⟨q, hq, rfl⟩ := hel
    refine ⟨p.1, q.1, ?_⟩
    rw [AdjacencyList.get_edge_data]
    have h₁ : dlook r.adj p.1 = some p.2 := dlook_eq_some_of_mem hwf.1 hp
    have h₂ : dlook p.2 q.1 = some q.2 := dlook_eq_some_of_mem (hwf.2 p hp).1 hq
    rw [h₁, Option.some_bind]
    exact h₂
  · rintro ⟨s, t, hst⟩
    rw [AdjacencyList.get_edge_data] at hst
    cases hrow : dlook r.adj s with
    | none =>
      rw [hrow, Option.none_bind] at hst
      exact Option.noConfusion hst
    | some row =>
      rw [hrow, Option.some_bind] at hst
      refine ⟨dvalues row, List.mem_map.mpr ⟨(s, row), mem_of_dlook_eq_some hrow, rfl⟩, ?_⟩
      exact List.mem_map.mpr ⟨(t, e), mem_of_dlook_eq_some hst, rfl⟩

theorem matrix_mem_get_edges_iff (mx : AdjacencyMatrix V M) (hwf : mx.WF) (e : Edge V M) :
    e ∈ mx.get_edges ↔ ∃ s t, mx.get_edge_data s t = some e := by
  unfold AdjacencyMatrix.get_edges
  rw [List.mem_flatten]
  constructor
  · rintro ⟨l, hl, hel⟩
    rw [List.mem_map] at hl
    obtain ⟨row, hrow, rfl⟩ := hl
    rw [List.mem_filterMap] at hel
    obtain ⟨cell, hcell, hid⟩ := hel
    obtain ⟨i, hi, hmi⟩ := List.getElem_of_mem hrow
    obtain ⟨j, hj, hmj⟩ := List.getElem_of_mem hcell
    have hilen : i < mx.order.length := by rw [← hwf.2.1]; exact hi
    have hjlen : j < mx.order.length := by rw [← hwf.2.2 row hrow]; exact hj
    refine ⟨mx.order[i], mx.order[j], ?_⟩
    have hsi : listIdx mx.order mx.order[i] = some i :=
      listIdx_of_getElem hwf.1 (List.getElem?_eq_getElem hilen)
    have hti : listIdx mx.order mx.order[j] = some j :=
      listIdx_of_getElem hwf.1 (List.getElem?_eq_getElem hjlen)
    rw [matrix_get_eq_cellAt mx hsi hti]
    have h1 : mx.mat[i]? = some row := by rw [List.getElem?_eq_getElem hi, hmi]
    have h2 : row[j]? = some cell := by rw [List.getElem?_eq_getElem hj, hmj]
    have hce : cell = some e := by simpa using hid
    rw [cellAt, h1, Option.some_bind, h2, hce]
    rfl
  · rintro ⟨s, t, hst⟩
    obtain ⟨i, hsi⟩ : ∃ i, listIdx mx.order s = some i := by
      cases hl : listIdx mx.order s with
      | none =>
        rw [matrix_get_none_left mx t hl] at hst
        exact Option.noConfusion hst
      | some i => exact ⟨i, rfl⟩
    obtain ⟨j, hti⟩ : ∃ j, listIdx mx.order t = some j := by
      cases hl : listIdx mx.order t with
      | none =>
        rw [matrix_get_none_right mx s hl] at hst
        exact Option.noConfusion hst
      | some j => exact ⟨j, rfl⟩
    rw [matrix_get_eq_cellAt mx hsi hti, cellAt] at hst
    cases h1 : mx.mat[i]? with
    | none =>
      rw [h1, Option.none_bind] at hst
      exact Option.noConfusion hst
    | some row =>
      rw [h1, Option.some_bind] at hst
      cases h2 : row[j]? with
      | none =>
        rw [h2] at hst
        exact Option.noConfusion hst
      | some cell =>
        rw [h2] at hst
        have hce : cell = some e := by simpa using hst
        refine ⟨row.filterMap id, List.mem_map.mpr ⟨row, List.getElem?_mem h1, rfl⟩, ?_⟩
        exact List.mem_filterMap.mpr ⟨cell, List.getElem?_mem h2, by rw [hce]; rfl⟩

theorem list_neighbors_mem (r : AdjacencyList V M) (v x : V) :
    x ∈ r.get_neighbors v ↔ (r.get_edge_data v x).isSome := by
  unfold AdjacencyList.get_neighbors AdjacencyList.get_edge_data
  cases hrow : dlook r.adj v with
  | none => simp
  | some row =>
    show x ∈ dkeys row ↔ ((some row).bind (fun rw => dlook rw x)).isSome
    rw [Option.some_bind]
    exact (dlook_isSome_iff row x).symm

theorem list_neighbors_nodup (r : AdjacencyList V M) (hwf : r.WF) (v : V) :
    (r.get_neighbors v).Nodup := by
  unfold AdjacencyList.get_neighbors
  cases hrow : dlook r.adj v with
  | none => simp
  | some row =>
    show (dkeys row).Nodup
    exact (hwf.2 (v, row) (mem_of_dlook_eq_some hrow)).1

theorem neighbors_filterMap_sublist (row : List (Option (Edge V M))) (ord : List V) :
    List.Sublist ((row.zip ord).filterMap matrixNbrPick) ord := by
  induction row generalizing ord with
  | nil => simp
  | cons c rest ih =>
    cases ord with
    | nil => simp
    | cons a as =>
      cases c with
      | none =>
        simp only [List.zip_cons_cons, List.filterMap_cons, matrixNbrPick]
        exact (ih as).cons a
      | some e =>
        simp only [List.zip_cons_cons, List.filterMap_cons, matrixNbrPick]
        exact (ih as).cons₂ a

theorem zip_neighbors_mem (row : List (Option (Edge V M))) (ord : List V) (x : V) :
    (x ∈ (row.zip ord).filterMap matrixNbrPick)
      ↔ ∃ (j : Nat) (c : Edge V M), row[j]? = some (some c) ∧ ord[j]? = some x := by
  induction row generalizing ord with
  | nil =>
    simp
  | cons c rest ih =>
    cases ord with
    | nil => simp
    | cons a as =>
      cases c with
      | none =>
        simp only [List.zip_cons_cons, List.filterMap_cons, matrixNbrPick]
        rw [ih as]
        constructor
        · rintro ⟨j, c', h1, h2⟩
          exact ⟨j + 1, c', by simpa using h1, by simpa using h2⟩
        · rintro ⟨j, c', h1, h2⟩
          cases j with
          | zero => simp at h1
          | succ j => exact ⟨j, c', by simpa using h1, by simpa using h2⟩
      | some e =>
        simp only [List.zip_cons_cons, List.filterMap_cons, matrixNbrPick]
        rw [List.mem_cons, ih as]
        constructor
        · rintro (rfl | ⟨j, c', h1, h2⟩)
          · exact ⟨0, e, by simp, by simp⟩
          · exact ⟨j + 1, c', by simpa using h1, by simpa using h2⟩
        · rintro ⟨j, c', h1, h2⟩
          cases j with
          | zero => exact Or.inl (show a = x by simpa using h2).symm
          | succ j => exact Or.inr ⟨j, c', by simpa using h1, by simpa using h2⟩

theorem matrix_neighbors_nodup (mx : AdjacencyMatrix V M) (hwf : mx.WF) (v : V) :
    (mx.get_neighbors v).Nodup := by
  unfold AdjacencyMatrix.get_neighbors
  cases hidx : listIdx mx.order v with
  | none => simp
  | some i =>
    show ((((mx.mat[i]?).getD []).zip mx.order).filterMap matrixNbrPick).Nodup
    exact List.Nodup.sublist (neighbors_filterMap_sublist _ _) hwf.1

theorem matrix_neighbors_mem (mx : AdjacencyMatrix V M) (hwf : mx.WF) (v x : V) :
    x ∈ mx.get_neighbors v ↔ (mx.get_edge_data v x).isSome := by
  cases hidx : listIdx mx.order v with
  | none =>
    have hn : mx.get_neighbors v = [] := by
      rw [AdjacencyMatrix.get_neighbors, hidx]
    rw [hn, matrix_get_none_left mx x hidx]
    simp
  | some i =>
    have hil : i < mx.mat.length := by rw [hwf.2.1]; exact listIdx_lt_length hidx
    have hrow : mx.mat[i]? = some (mx.mat[i]) := List.getElem?_eq_getElem hil
    have hneq : mx.get_neighbors v
        = ((mx.mat[i]).zip mx.order).filterMap matrixNbrPick := by
      rw [AdjacencyMatrix.get_neighbors, hidx]
      show (((mx.mat[i]?).getD []).zip mx.order).filterMap matrixNbrPick = _
      rw [hrow]
      rfl
    rw [hneq, zip_neighbors_mem]
    constructor
    · rintro ⟨j, c, h1, h2⟩
      have hjx : listIdx mx.order x = some j := listIdx_of_getElem hwf.1 h2
      rw [matrix_get_eq_cellAt mx hidx hjx, cellAt, hrow, Option.some_bind, h1]
      rfl
    · intro hsome
      cases hjx : listIdx mx.order x with
      | none =>
        rw [matrix_get_none_right mx v hjx] at hsome
        exact Bool.noConfusion hsome
      | some j =>
        rw [matrix_get_eq_cellAt mx hidx hjx, cellAt, hrow, Option.some_bind] at hsome
        cases h1 : mx.mat[i][j]? with
        | none =>
          rw [h1] at hsome
          exact Bool.noConfusion hsome
        | some cell =>
          rw [h1] at hsome
          cases cell with
          | none => exact Bool.noConfusion hsome
          | some e => exact ⟨j, e, h1, listIdx_getElem hjx⟩

end Pygraph

-- ===================================================================
-- Representation equivalence (C7): coupling preservation per operation
-- ===================================================================

namespace Pygraph

variable {V M : Type} [DecidableEq V]

theorem coupled_step_addVertex (gl : Graph V M (AdjacencyList V M))
    (gm : Graph V M (AdjacencyMatrix V M)) (v : V)
    (hc : Coupled gl.rep gm.rep) (hwr : gl.rep.WF) (hwm : gm.rep.WF) :
    Coupled (applyGOp AdjacencyList.ops gl (.addVertex v)).rep
        (applyGOp AdjacencyMatrix.ops gm (.addVertex v)).rep
      ∧ (applyGOp AdjacencyList.ops gl (.addVertex v)).rep.WF
      ∧ (applyGOp AdjacencyMatrix.ops gm (.addVertex v)).rep.WF := by
  obtain ⟨l1, l2, l3, l4, l5⟩ := list_add_vertex_spec gl.rep v hwr
  obtain ⟨m1, m2, m3, m4, m5⟩ := matrix_add_vertex_spec gm.rep v hwm
  have h1 : (applyGOp AdjacencyList.ops gl (.addVertex v)).rep
      = (gl.rep.add_vertex v).2 := rfl
  have hm1 : (applyGOp AdjacencyMatrix.ops gm (.addVertex v)).rep
      = (gm.rep.add_vertex v).2 := rfl
  rw [h1, hm1]
  refine ⟨⟨?_, ?_, ?_⟩, l5, m5⟩
  · rw [l2, m2]
    exact hc.1
  · rw [l3, m3, hc.2.1]
  · intro x y
    rw [l4 x y, m4 x y]
    exact hc.2.2 x y

theorem coupled_step_removeVertex (gl : Graph V M (AdjacencyList V M))
    (gm : Graph V M (AdjacencyMatrix V M)) (v : V)
    (hc : Coupled gl.rep gm.rep) (hwr : gl.rep.WF) (hwm : gm.rep.WF) :
    Coupled (applyGOp AdjacencyList.ops gl (.removeVertex v)).rep
        (applyGOp AdjacencyMatrix.ops gm (.removeVertex v)).rep
      ∧ (applyGOp AdjacencyList.ops gl (.removeVertex v)).rep.WF
      ∧ (applyGOp AdjacencyMatrix.ops gm (.removeVertex v)).rep.WF := by
  have hLv : AdjacencyList.ops.has_vertex gl.rep v = decide (v ∈ dkeys gl.rep.adj) :=
    list_has_vertex_eq gl.rep v
  have hMv : AdjacencyMatrix.ops.has_vertex gm.rep v = decide (v ∈ dkeys gl.rep.adj) := by
    show gm.rep.has_vertex v = _
    rw [matrix_has_vertex_eq, hc.2.1]
  by_cases hv : v ∈ dkeys gl.rep.adj
  · have h1 : (applyGOp AdjacencyList.ops gl (.removeVertex v)).rep
        = (gl.rep.remove_vertex v).2 := by
      show (Graph.remove_vertex AdjacencyList.ops gl v).2.rep = _
      rw [Graph.remove_vertex, if_pos (by rw [hLv]; simp [hv])]
      rfl
    have hm1 : (applyGOp AdjacencyMatrix.ops gm (.removeVertex v)).rep
        = (gm.rep.remove_vertex v).2 := by
      show (Graph.remove_vertex AdjacencyMatrix.ops gm v).2.rep = _
      rw [Graph.remove_vertex, if_pos (by rw [hMv]; simp [hv])]
      rfl
    obtain ⟨l1, l2, l3, l4, l5⟩ := list_remove_vertex_spec gl.rep v hwr
    obtain ⟨m1, m2, m3, m4, m5⟩ := matrix_remove_vertex_spec gm.rep v hwm
    rw [h1, hm1]
    refine ⟨⟨?_, ?_, ?_⟩, l5, m5⟩
    · rw [l2, m2]
      exact hc.1
    · rw [l3, m3, hc.2.1]
    · intro x y
      rw [l4 x y, m4 x y]
      by_cases hxy : x = v ∨ y = v
      · rw [if_pos hxy, if_pos hxy]
      · rw [if_neg hxy, if_neg hxy]
        exact hc.2.2 x y
  · have h1 : (applyGOp AdjacencyList.ops gl (.removeVertex v)).rep = gl.rep := by
      show (Graph.remove_vertex AdjacencyList.ops gl v).2.rep = _
      rw [Graph.remove_vertex, if_neg (by rw [hLv]; simp [hv])]
    have hm1 : (applyGOp AdjacencyMatrix.ops gm (.removeVertex v)).rep = gm.rep := by
      show (Graph.remove_vertex AdjacencyMatrix.ops gm v).2.rep = _
      rw [Graph.remove_vertex, if_neg (by rw [hMv]; simp [hv])]
    rw [h1, hm1]
    exact ⟨hc, hwr, hwm⟩

theorem coupled_step_addEdge (gl : Graph V M (AdjacencyList V M))
    (gm : Graph V M (AdjacencyMatrix V M)) (s t : V) (w : ℚ) (m : M)
    (hc : Coupled gl.rep gm.rep) (hwr : gl.rep.WF) (hwm : gm.rep.WF) :
    Coupled (applyGOp AdjacencyList.ops gl (.addEdge s t w m)).rep
        (applyGOp AdjacencyMatrix.ops gm (.addEdge s t w m)).rep
      ∧ (applyGOp AdjacencyList.ops gl (.addEdge s t w m)).rep.WF
      ∧ (applyGOp AdjacencyMatrix.ops gm (.addEdge s t w m)).rep.WF := by
  have hLs : AdjacencyList.ops.has_vertex gl.rep s = decide (s ∈ dkeys gl.rep.adj) :=
    list_has_vertex_eq gl.rep s
  have hLt : AdjacencyList.ops.has_vertex gl.rep t = decide (t ∈ dkeys gl.rep.adj) :=
    list_has_vertex_eq gl.rep t
  have hMs : AdjacencyMatrix.ops.has_vertex gm.rep s = decide (s ∈ dkeys gl.rep.adj) := by
    show gm.rep.has_vertex s = _
    rw [matrix_has_vertex_eq, hc.2.1]
  have hMt : AdjacencyMatrix.ops.has_vertex gm.rep t = decide (t ∈ dkeys gl.rep.adj) := by
    show gm.rep.has_vertex t = _
    rw [matrix_has_vertex_eq, hc.2.1]
  by_cases hs : s ∈ dkeys gl.rep.adj
  · by_cases ht : t ∈ dkeys gl.rep.adj
    · have h1 : (applyGOp AdjacencyList.ops gl (.addEdge s t w m)).rep
          = (gl.rep.add_edge s t w m).2 := by
        show (Graph.add_edge AdjacencyList.ops gl s t w m).2.rep = _
        rw [Graph.add_edge, if_neg (by rw [hLs]; simp [hs]), if_neg (by rw [hLt]; simp [ht])]
        rfl
      have hm1 : (applyGOp AdjacencyMatrix.ops gm (.addEdge s t w m)).rep
          = (gm.rep.add_edge s t w m).2 := by
        show (Graph.add_edge AdjacencyMatrix.ops gm s t w m).2.rep = _
        rw [Graph.add_edge, if_neg (by rw [hMs]; simp [hs]), if_neg (by rw [hMt]; simp [ht])]
        rfl
      rw [h1, hm1]
      by_cases hcell : gl.rep.get_edge_data s t = none
      · have hcm : gm.rep.get_edge_data s t = none := by
          rw [← hc.2.2]
          exact hcell
        have hsm : s ∈ gm.rep.order := by rw [← hc.2.1]; exact hs
        have htm : t ∈ gm.rep.order := by rw [← hc.2.1]; exact ht
        obtain ⟨l1, l2, l3, l4, l5⟩ := list_add_edge_ok gl.rep s t w m hs ht hcell hwr
        obtain ⟨m1, m2, m3, m4, m5⟩ := matrix_add_edge_ok gm.rep s t w m hsm htm hcm hwm
        refine ⟨⟨?_, ?_, ?_⟩, l5, m5⟩
        · rw [l2, m2]
          exact hc.1
        · rw [l3, m3, hc.2.1]
        · intro x y
          rw [l4 x y, m4 x y, hc.1, hc.2.2 x y]
      · obtain ⟨e, he⟩ := Option.ne_none_iff_exists'.mp hcell
        have hfl : gl.rep.add_edge s t w m = (false, gl.rep) :=
          list_add_edge_fail gl.rep s t w m (Or.inr (Or.inr (by rw [he]; rfl)))
        have hfm : gm.rep.add_edge s t w m = (false, gm.rep) :=
          matrix_add_edge_fail gm.rep s t w m (Or.inr (Or.inr (by rw [← hc.2.2, he]; rfl)))
        rw [hfl, hfm]
        exact ⟨hc, hwr, hwm⟩
    · have h1 : (applyGOp AdjacencyList.ops gl (.addEdge s t w m)).rep = gl.rep := by
        show (Graph.add_edge AdjacencyList.ops gl s t w m).2.rep = _
        rw [Graph.add_edge, if_neg (by rw [hLs]; simp [hs]), if_pos (by rw [hLt]; simp [ht])]
      have hm1 : (applyGOp AdjacencyMatrix.ops gm (.addEdge s t w m)).rep = gm.rep := by
        show (Graph.add_edge AdjacencyMatrix.ops gm s t w m).2.rep = _
        rw [Graph.add_edge, if_neg (by rw [hMs]; simp [hs]), if_pos (by rw [hMt]; simp [ht])]
      rw [h1, hm1]
      exact ⟨hc, hwr, hwm⟩
  · have h1 : (applyGOp AdjacencyList.ops gl (.addEdge s t w m)).rep = gl.rep := by
      show (Graph.add_edge AdjacencyList.ops gl s t w m).2.rep = _
      rw [Graph.add_edge, if_pos (by rw [hLs]; simp [hs])]
    have hm1 : (applyGOp AdjacencyMatrix.ops gm (.addEdge s t w m)).rep = gm.rep := by
      show (Graph.add_edge AdjacencyMatrix.ops gm s t w m).2.rep = _
      rw [Graph.add_edge, if_pos (by rw [hMs]; simp [hs])]
    rw [h1, hm1]
    exact ⟨hc, hwr, hwm⟩

theorem coupled_step_removeEdge (gl : Graph V M (AdjacencyList V M))
    (gm : Graph V M (AdjacencyMatrix V M)) (s t : V)
    (hc : Coupled gl.rep gm.rep) (hwr : gl.rep.WF) (hwm : gm.rep.WF) :
    Coupled (applyGOp AdjacencyList.ops gl (.removeEdge s t)).rep
        (applyGOp AdjacencyMatrix.ops gm (.removeEdge s t)).rep
      ∧ (applyGOp AdjacencyList.ops gl (.removeEdge s t)).rep.WF
      ∧ (applyGOp AdjacencyMatrix.ops gm (.removeEdge s t)).rep.WF := by
  have hLs : AdjacencyList.ops.has_vertex gl.rep s = decide (s ∈ dkeys gl.rep.adj) :=
    list_has_vertex_eq gl.rep s
  have hLt : AdjacencyList.ops.has_vertex gl.rep t = decide (t ∈ dkeys gl.rep.adj) :=
    list_has_vertex_eq gl.rep t
  have hMs : AdjacencyMatrix.ops.has_vertex gm.rep s = decide (s ∈ dkeys gl.rep.adj) := by
    show gm.rep.has_vertex s = _
    rw [matrix_has_vertex_eq, hc.2.1]
  have hMt : AdjacencyMatrix.ops.has_vertex gm.rep t = decide (t ∈ dkeys gl.rep.adj) := by
    show gm.rep.has_vertex t = _
    rw [matrix_has_vertex_eq, hc.2.1]
  have hEl : AdjacencyList.ops.has_edge gl.rep s t = (gl.rep.get_edge_data s t).isSome :=
    list_has_edge_eq gl.rep s t
  have hEm : AdjacencyMatrix.ops.has_edge gm.rep s t
      = (gl.rep.get_edge_data s t).isSome := by
    show gm.rep.has_edge s t = _
    rw [matrix_has_edge_eq, hc.2.2]
  by_cases hs : s ∈ dkeys gl.rep.adj
  · by_cases ht : t ∈ dkeys gl.rep.adj
    · by_cases hcell : gl.rep.get_edge_data s t = none
      · have h1 : (applyGOp AdjacencyList.ops gl (.removeEdge s t)).rep = gl.rep := by
          show (Graph.remove_edge AdjacencyList.ops gl s t).2.rep = _
          rw [Graph.remove_edge, if_neg (by rw [hLs]; simp [hs]),
            if_neg (by rw [hLt]; simp [ht]), if_pos (by rw [hEl, hcell]; rfl)]
        have hm1 : (applyGOp AdjacencyMatrix.ops gm (.removeEdge s t)).rep = gm.rep := by
          show (Graph.remove_edge AdjacencyMatrix.ops gm s t).2.rep = _
          rw [Graph.remove_edge, if_neg (by rw [hMs]; simp [hs]),
            if_neg (by rw [hMt]; simp [ht]), if_pos (by rw [hEm, hcell]; rfl)]
        rw [h1, hm1]
        exact ⟨hc, hwr, hwm⟩
      · obtain ⟨e, he⟩ := Option.ne_none_iff_exists'.mp hcell
        have h1 : (applyGOp AdjacencyList.ops gl (.removeEdge s t)).rep
            = (gl.rep.remove_edge s t).2 := by
          show (Graph.remove_edge AdjacencyList.ops gl s t).2.rep = _
          rw [Graph.remove_edge, if_neg (by rw [hLs]; simp [hs]),
            if_neg (by rw [hLt]; simp [ht]), if_neg (by rw [hEl, he]; simp)]
          rfl
        have hm1 : (applyGOp AdjacencyMatrix.ops gm (.removeEdge s t)).rep
            = (gm.rep.remove_edge s t).2 := by
          show (Graph.remove_edge AdjacencyMatrix.ops gm s t).2.rep = _
          rw [Graph.remove_edge, if_neg (by rw [hMs]; simp [hs]),
            if_neg (by rw [hMt]; simp [ht]), if_neg (by rw [hEm, he]; simp)]
          rfl
        have hcm : gm.rep.get_edge_data s t = some e := by
          rw [← hc.2.2]
          exact he
        obtain ⟨l1, l2, l3, l4, l5⟩ := list_remove_edge_ok gl.rep s t e he hwr
        obtain ⟨m1, m2, m3, m4, m5⟩ := matrix_remove_edge_ok gm.rep s t e hcm hwm
        rw [h1, hm1]
        refine ⟨⟨?_, ?_, ?_⟩, l5, m5⟩
        · rw [l2, m2]
          exact hc.1
        · rw [l3, m3, hc.2.1]
        · intro x y
          rw [l4 x y, m4 x y, hc.1, hc.2.2 x y]
    · have h1 : (applyGOp AdjacencyList.ops gl (.removeEdge s t)).rep = gl.rep := by
        show (Graph.remove_edge AdjacencyList.ops gl s t).2.rep = _
        rw [Graph.remove_edge, if_neg (by rw [hLs]; simp [hs]),
          if_pos (by rw [hLt]; simp [ht])]
      have hm1 : (applyGOp AdjacencyMatrix.ops gm (.removeEdge s t)).rep = gm.rep := by
        show (Graph.remove_edge AdjacencyMatrix.ops gm s t).2.rep = _
        rw [Graph.remove_edge, if_neg (by rw [hMs]; simp [hs]),
          if_pos (by rw [hMt]; simp [ht])]
      rw [h1, hm1]
      exact ⟨hc, hwr, hwm⟩
  · have h1 : (applyGOp AdjacencyList.ops gl (.removeEdge s t)).rep = gl.rep := by
      show (Graph.remove_edge AdjacencyList.ops gl s t).2.rep = _
      rw [Graph.remove_edge, if_pos (by rw [hLs]; simp [hs])]
    have hm1 : (applyGOp AdjacencyMatrix.ops gm (.removeEdge s t)).rep = gm.rep := by
      show (Graph.remove_edge AdjacencyMatrix.ops gm s t).2.rep = _
      rw [Graph.remove_edge, if_pos (by rw [hMs]; simp [hs])]
    rw [h1, hm1]
    exact ⟨hc, hwr, hwm⟩

theorem coupled_step (gl : Graph V M (AdjacencyList V M))
    (gm : Graph V M (AdjacencyMatrix V M)) (op : GOp V M)
    (hc : Coupled gl.rep gm.rep) (hwr : gl.rep.WF) (hwm : gm.rep.WF) :
    Coupled (applyGOp AdjacencyList.ops gl op).rep
        (applyGOp AdjacencyMatrix.ops gm op).rep
      ∧ (applyGOp AdjacencyList.ops gl op).rep.WF
      ∧ (applyGOp AdjacencyMatrix.ops gm op).rep.WF := by
  cases op with
  | addVertex v => exact coupled_step_addVertex gl gm v hc hwr hwm
  | removeVertex v => exact coupled_step_removeVertex gl gm v hc hwr hwm
  | addEdge s t w m => exact coupled_step_addEdge gl gm s t w m hc hwr hwm
  | removeEdge s t => exact coupled_step_removeEdge gl gm s t hc hwr hwm

theorem coupled_run (ops : List (GOp V M)) (gl : Graph V M (AdjacencyList V M))
    (gm : Graph V M (AdjacencyMatrix V M))
    (hc : Coupled gl.rep gm.rep) (hwr : gl.rep.WF) (hwm : gm.rep.WF) :
    Coupled (applyGOps AdjacencyList.ops gl ops).rep
        (applyGOps AdjacencyMatrix.ops gm ops).rep
      ∧ (applyGOps AdjacencyList.ops gl ops).rep.WF
      ∧ (applyGOps AdjacencyMatrix.ops gm ops).rep.WF := by
  induction ops generalizing gl gm with
  | nil => exact ⟨hc, hwr, hwm⟩
  | cons op rest ih =>
    obtain ⟨hc2, hwr2, hwm2⟩ := coupled_step gl gm op hc hwr hwm
    exact ih (applyGOp AdjacencyList.ops gl op) (applyGOp AdjacencyMatrix.ops gm op)
      hc2 hwr2 hwm2

theorem coupled_init (dir wt : Bool) :
    Coupled (Graph.newList (V := V) (M := M) dir wt).rep
        (Graph.newMatrix (V := V) (M := M) dir wt).rep
      ∧ (Graph.newList (V := V) (M := M) dir wt).rep.WF
      ∧ (Graph.newMatrix (V := V) (M := M) dir wt).rep.WF := by
  refine ⟨⟨rfl, rfl, fun s t => rfl⟩, ⟨List.nodup_nil, fun p hp => absurd hp (List.not_mem_nil p)⟩,
    ⟨List.nodup_nil, rfl, fun row hr => absurd hr (List.not_mem_nil row)⟩⟩

end Pygraph

-- ===================================================================
-- Representation equivalence (C7): observations agree on coupled states
-- ===================================================================

namespace Pygraph

variable {V M : Type} [DecidableEq V]

theorem coupled_observations (gl : Graph V M (AdjacencyList V M))
    (gm : Graph V M (AdjacencyMatrix V M))
    (hc : Coupled gl.rep gm.rep) (hwr : gl.rep.WF) (hwm : gm.rep.WF) :
    Graph.vertices AdjacencyList.ops gl = Graph.vertices AdjacencyMatrix.ops gm
      ∧ (∀ e : Edge V M,
          e ∈ Graph.edges AdjacencyList.ops gl ↔ e ∈ Graph.edges AdjacencyMatrix.ops gm)
      ∧ (∀ v : V,
          Graph.neighbors AdjacencyList.ops gl v = .error .vertexNotFound
            ↔ Graph.neighbors AdjacencyMatrix.ops gm v = .error .vertexNotFound)
      ∧ (∀ v x : V,
          (∃ l, Graph.neighbors AdjacencyList.ops gl v = .ok l ∧ x ∈ l)
            ↔ (∃ l, Graph.neighbors AdjacencyMatrix.ops gm v = .ok l ∧ x ∈ l))
      ∧ (∀ v : V, Graph.degree AdjacencyList.ops gl v = Graph.degree AdjacencyMatrix.ops gm v) := by
  have hnb : ∀ v : V,
      (v ∈ dkeys gl.rep.adj
          → Graph.neighbors AdjacencyList.ops gl v = .ok (gl.rep.get_neighbors v)
            ∧ Graph.neighbors AdjacencyMatrix.ops gm v = .ok (gm.rep.get_neighbors v))
        ∧ (v ∉ dkeys gl.rep.adj
          → Graph.neighbors AdjacencyList.ops gl v = .error .vertexNotFound
            ∧ Graph.neighbors AdjacencyMatrix.ops gm v = .error .vertexNotFound) := by
    intro v
    have hLv : AdjacencyList.ops.has_vertex gl.rep v = decide (v ∈ dkeys gl.rep.adj) :=
      list_has_vertex_eq gl.rep v
    have hMv : AdjacencyMatrix.ops.has_vertex gm.rep v = decide (v ∈ dkeys gl.rep.adj) := by
      show gm.rep.has_vertex v = _
      rw [matrix_has_vertex_eq, hc.2.1]
    constructor
    · intro hv
      constructor
      · rw [Graph.neighbors, if_pos (by rw [hLv]; simp [hv])]
        rfl
      · rw [Graph.neighbors, if_pos (by rw [hMv]; simp [hv])]
        rfl
    · intro hv
      constructor
      · rw [Graph.neighbors, if_neg (by rw [hLv]; simp [hv])]
      · rw [Graph.neighbors, if_neg (by rw [hMv]; simp [hv])]
  have hmem : ∀ v x : V,
      (x ∈ gl.rep.get_neighbors v ↔ x ∈ gm.rep.get_neighbors v) := by
    intro v x
    rw [list_neighbors_mem, matrix_neighbors_mem gm.rep hwm, hc.2.2]
  refine ⟨hc.2.1, ?_, ?_, ?_, ?_⟩
  · intro e
    show e ∈ gl.rep.get_edges ↔ e ∈ gm.rep.get_edges
    rw [list_mem_get_edges_iff gl.rep hwr e, matrix_mem_get_edges_iff gm.rep hwm e]
    simp only [hc.2.2]
  · intro v
    by_cases hv : v ∈ dkeys gl.rep.adj
    · obtain ⟨e1, e2⟩ := (hnb v).1 hv
      rw [e1, e2]
      simp
    · obtain ⟨e1, e2⟩ := (hnb v).2 hv
      rw [e1, e2]
  · intro v x
    by_cases hv : v ∈ dkeys gl.rep.adj
    · obtain ⟨e1, e2⟩ := (hnb v).1 hv
      rw [e1, e2]
      simp only [Except.ok.injEq]
      constructor
      · rintro ⟨l, rfl, hx⟩
        exact ⟨_, rfl, (hmem v x).mp hx⟩
      · rintro ⟨l, rfl, hx⟩
        exact ⟨_, rfl, (hmem v x).mpr hx⟩
    · obtain ⟨e1, e2⟩ := (hnb v).2 hv
      rw [e1, e2]
  · intro v
    by_cases hv : v ∈ dkeys gl.rep.adj
    · obtain ⟨e1, e2⟩ := (hnb v).1 hv
      have hlen : (gl.rep.get_neighbors v).length = (gm.rep.get_neighbors v).length := by
        rw [← List.toFinset_card_of_nodup (list_neighbors_nodup gl.rep hwr v),
          ← List.toFinset_card_of_nodup (matrix_neighbors_nodup gm.rep hwm v)]
        congr 1
        apply Finset.ext
        intro a
        simp only [List.mem_toFinset]
        exact hmem v a
      show (Graph.neighbors AdjacencyList.ops gl v).map List.length
          = (Graph.neighbors AdjacencyMatrix.ops gm v).map List.length
      rw [e1, e2]
      show Except.ok (gl.rep.get_neighbors v).length
          = Except.ok (gm.rep.get_neighbors v).length
      rw [hlen]
    · obtain ⟨e1, e2⟩ := (hnb v).2 hv
      show (Graph.neighbors AdjacencyList.ops gl v).map List.length
          = (Graph.neighbors AdjacencyMatrix.ops gm v).map List.length
      rw [e1, e2]

/-- C7: representation equivalence.  For every sequence of vertex/edge
mutations applied through the Graph facade, starting from
`Graph(directed, weighted, "adjacency_list")` and from
`Graph(directed, weighted, "adjacency_matrix")`: `vertices()` returns the
same list, `edges()` holds the same entries (membership agrees, i.e. equal
as sets), `neighbors(v)` raises VertexNotFoundError for exactly the same
vertices and otherwise returns the same neighbor set, and `degree(v)`
returns identical results for every vertex. -/
theorem representation_equivalence (dir wt : Bool) (ops : List (GOp V M)) :
    Graph.vertices AdjacencyList.ops (applyGOps AdjacencyList.ops (Graph.newList dir wt) ops)
        = Graph.vertices AdjacencyMatrix.ops
            (applyGOps AdjacencyMatrix.ops (Graph.newMatrix dir wt) ops)
      ∧ (∀ e : Edge V M,
          e ∈ Graph.edges AdjacencyList.ops
              (applyGOps AdjacencyList.ops (Graph.newList dir wt) ops)
            ↔ e ∈ Graph.edges AdjacencyMatrix.ops
              (applyGOps AdjacencyMatrix.ops (Graph.newMatrix dir wt) ops))
      ∧ (∀ v : V,
          Graph.neighbors AdjacencyList.ops
              (applyGOps AdjacencyList.ops (Graph.newList dir wt) ops) v
              = .error .vertexNotFound
            ↔ Graph.neighbors AdjacencyMatrix.ops
              (applyGOps AdjacencyMatrix.ops (Graph.newMatrix dir wt) ops) v
              = .error .vertexNotFound)
      ∧ (∀ v x : V,
          (∃ l, Graph.neighbors AdjacencyList.ops
              (applyGOps AdjacencyList.ops (Graph.newList dir wt) ops) v = .ok l ∧ x ∈ l)
            ↔ (∃ l, Graph.neighbors AdjacencyMatrix.ops
              (applyGOps AdjacencyMatrix.ops (Graph.newMatrix dir wt) ops) v = .ok l ∧ x ∈ l))
      ∧ (∀ v : V,
          Graph.degree AdjacencyList.ops
              (applyGOps AdjacencyList.ops (Graph.newList dir wt) ops) v
            = Graph.degree AdjacencyMatrix.ops
              (applyGOps AdjacencyMatrix.ops (Graph.newMatrix dir wt) ops) v) := by
  obtain ⟨hc0, hwr0, hwm0⟩ := coupled_init (V := V) (M := M) dir wt
  obtain ⟨hc, hwr, hwm⟩ :=
    coupled_run ops (Graph.newList dir wt) (Graph.newMatrix dir wt) hc0 hwr0 hwm0
  exact coupled_observations _ _ hc hwr hwm

end Pygraph

-- ===================================================================
-- C1: Tree.from_graph performs no tree-property validation
-- ===================================================================

namespace Pygraph

/-- C1: evaluation at the failing input of the bug.  `gExample` is
directed with vertices 0, 1, 2 and the single edge 0→1, so the claimed
validations must reject it for root 0 (1 edge ≠ 3 − 1 vertices, and
vertex 2 is unreachable from 0); but `from_graph` — whose cycle and
connectivity checks are "Phase 5" TODO comments — only tests
`graph.directed` and succeeds, wrapping the graph with a parent map built
from the edge list that holds no record for the unreached vertex 2. -/
theorem from_graph_missing_validation :
    Tree.from_graph gExample 0 = .ok ⟨0, gExample, [(1, 0)]⟩
      ∧ Tree.num_edges ⟨0, gExample, [(1, 0)]⟩
          ≠ Tree.num_vertices ⟨0, gExample, [(1, 0)]⟩ - 1
      ∧ 2 ∈ Graph.vertices AdjacencyList.ops gExample
      ∧ dlook (TreeSt.pm ⟨0, gExample, [(1, 0)]⟩) 2 = none := by
  decide

end Pygraph

-- ===================================================================
-- Tree invariant machinery: parent-chain lemmas
-- ===================================================================

namespace Pygraph

variable {V : Type} [DecidableEq V]

theorem pmChain_add (pm : List (V × V)) (k₁ k₂ : Nat) (v : V) :
    pmChain pm (k₁ + k₂) v = (pmChain pm k₁ v).bind (pmChain pm k₂) := by
  induction k₁ generalizing v with
  | zero => simp [pmChain]
  | succ k ih =>
    have harith : k + 1 + k₂ = (k + k₂) + 1 := by omega
    rw [harith, pmChain, pmChain]
    cases hd : dlook pm v with
    | none => simp
    | some p => simp [ih p]

theorem pmChain_one (pm : List (V × V)) (v : V) :
    pmChain pm 1 v = dlook pm v := by
  rw [pmChain]
  cases hd : dlook pm v with
  | none => simp
  | some p => simp [pmChain]

theorem pmChain_succ_decomp {pm : List (V × V)} {k : Nat} {x c : V}
    (h : pmChain pm (k + 1) x = some c) :
    ∃ w, pmChain pm k x = some w ∧ dlook pm w = some c := by
  rw [pmChain_add pm k 1 x] at h
  cases hw : pmChain pm k x with
  | none =>
    rw [hw, Option.none_bind] at h
    exact Option.noConfusion h
  | some w =>
    rw [hw, Option.some_bind, pmChain_one] at h
    exact ⟨w, rfl, h⟩

theorem pmChain_dep {pm : List (V × V)} {dep : V → Nat}
    (hdep : ∀ q ∈ pm, dep q.1 = dep q.2 + 1) {k : Nat} {v w : V}
    (h : pmChain pm k v = some w) : dep v = dep w + k := by
  induction k generalizing v with
  | zero =>
    have hv : v = w := by simpa [pmChain] using h
    subst hv
    rfl
  | succ k ih =>
    rw [pmChain] at h
    cases hd : dlook pm v with
    | none =>
      rw [hd, Option.none_bind] at h
      exact Option.noConfusion h
    | some p =>
      rw [hd, Option.some_bind] at h
      have h₁ : dep v = dep p + 1 := hdep (v, p) (mem_of_dlook_eq_some hd)
      have h₂ : dep p = dep w + k := ih h
      omega

theorem pmChain_first_mem {pm : List (V × V)} {k : Nat} {v w : V}
    (h : pmChain pm (k + 1) v = some w) : v ∈ dkeys pm := by
  rw [pmChain] at h
  cases hd : dlook pm v with
  | none =>
    rw [hd, Option.none_bind] at h
    exact Option.noConfusion h
  | some p =>
    exact List.mem_map_of_mem Prod.fst (mem_of_dlook_eq_some hd)

end Pygraph

namespace Pygraph

variable {V : Type} [DecidableEq V]

theorem graph_neighbors_ok {M : Type} (g : Graph V M (AdjacencyList V M)) (v : V)
    (hv : v ∈ dkeys g.rep.adj) :
    Graph.neighbors AdjacencyList.ops g v = .ok (g.rep.get_neighbors v) := by
  rw [Graph.neighbors, if_pos (show AdjacencyList.ops.has_vertex g.rep v = true from by
    show g.rep.has_vertex v = true
    rw [list_has_vertex_eq]
    simpa using hv)]
  rfl

theorem graph_neighbors_err {M : Type} (g : Graph V M (AdjacencyList V M)) (v : V)
    (hv : v ∉ dkeys g.rep.adj) :
    Graph.neighbors AdjacencyList.ops g v = .error .vertexNotFound := by
  rw [Graph.neighbors, if_neg (by
    rw [show AdjacencyList.ops.has_vertex g.rep v = decide (v ∈ dkeys g.rep.adj) from
      list_has_vertex_eq g.rep v]
    simp [hv])]

theorem treeLive_cell_iff (t : TreeSt V) (hl : TreeLive t) (p c : V) :
    (t.g.rep.get_edge_data p c).isSome ↔ dlook t.pm c = some p := by
  obtain ⟨hdir, hwf, hroot, hndpm, he1, he2, hj, hf1, hf2, dep, hdep⟩ := hl
  constructor
  · intro h
    rw [AdjacencyList.get_edge_data] at h
    cases hrow : dlook t.g.rep.adj p with
    | none =>
      rw [hrow, Option.none_bind] at h
      exact Bool.noConfusion h
    | some row =>
      rw [hrow, Option.some_bind] at h
      obtain ⟨e, he⟩ := Option.isSome_iff_exists.mp h
      exact hf1 (p, row) (mem_of_dlook_eq_some hrow) (c, e) (mem_of_dlook_eq_some he)
  · intro h
    exact hf2 (c, p) (mem_of_dlook_eq_some h)

theorem treeLive_pm_iff (t : TreeSt V) (hl : TreeLive t) (v : V) :
    v ∈ dkeys t.pm ↔ (v ∈ dkeys t.g.rep.adj ∧ v ≠ t.root) := by
  constructor
  · exact hl.2.2.2.2.1 v
  · rintro ⟨h1, h2⟩
    exact hl.2.2.2.2.2.1 v h1 h2

theorem treeLive_root_notin_pm (t : TreeSt V) (hl : TreeLive t) :
    t.root ∉ dkeys t.pm :=
  fun h => ((treeLive_pm_iff t hl t.root).mp h).2 rfl

theorem treeLive_child_mem (t : TreeSt V) (hl : TreeLive t) (v x : V) :
    x ∈ t.g.rep.get_neighbors v ↔ dlook t.pm x = some v := by
  rw [list_neighbors_mem, treeLive_cell_iff t hl]

theorem treeLive_chain_target_mem (t : TreeSt V) (hl : TreeLive t) {k : Nat} {v w : V}
    (h : pmChain t.pm k v = some w) (hv : v ∈ dkeys t.g.rep.adj) :
    w ∈ dkeys t.g.rep.adj := by
  cases k with
  | zero =>
    have hvw : v = w := by simpa [pmChain] using h
    exact hvw ▸ hv
  | succ k =>
    obtain ⟨w', hw', hlast⟩ := pmChain_succ_decomp h
    exact hl.2.2.2.2.2.2.1 (w', w) (mem_of_dlook_eq_some hlast)

theorem treeLive_no_self_chain (t : TreeSt V) (hl : TreeLive t) {k : Nat} {v : V}
    (h : pmChain t.pm k v = some v) : k = 0 := by
  obtain ⟨dep, hdep⟩ := hl.2.2.2.2.2.2.2.2.2
  have := pmChain_dep hdep h
  omega

theorem treeLive_root_chain (t : TreeSt V) (hl : TreeLive t) {k : Nat} {w : V}
    (h : pmChain t.pm (k + 1) t.root = some w) : False :=
  treeLive_root_notin_pm t hl (pmChain_first_mem h)

theorem treeLive_reach_root (t : TreeSt V) (hl : TreeLive t) :
    ∀ v ∈ dkeys t.g.rep.adj, ∃ k, pmChain t.pm k v = some t.root := by
  obtain ⟨dep, hdep⟩ := hl.2.2.2.2.2.2.2.2.2
  have H : ∀ n, ∀ v, v ∈ dkeys t.g.rep.adj → dep v = n
      → ∃ k, pmChain t.pm k v = some t.root := by
    intro n
    induction n using Nat.strong_induction_on with
    | _ n ih =>
      intro v hv hdv
      by_cases hvr : v = t.root
      · refine ⟨0, ?_⟩
        rw [hvr]
        rfl
      · have hpm : v ∈ dkeys t.pm := hl.2.2.2.2.2.1 v hv hvr
        obtain ⟨p, hp⟩ := Option.isSome_iff_exists.mp ((dlook_isSome_iff t.pm v).mpr hpm)
        have hdep' : dep v = dep p + 1 := hdep (v, p) (mem_of_dlook_eq_some hp)
        have hpv : p ∈ dkeys t.g.rep.adj := hl.2.2.2.2.2.2.1 (v, p) (mem_of_dlook_eq_some hp)
        obtain ⟨k, hk⟩ := ih (dep p) (by omega) p hpv rfl
        refine ⟨k + 1, ?_⟩
        rw [pmChain, hp, Option.some_bind]
        exact hk
  intro v hv
  exact H (dep v) v hv rfl

end Pygraph

-- ===================================================================
-- Tree.add_child: branch characterizations and invariant preservation
-- ===================================================================

namespace Pygraph

variable {V : Type} [DecidableEq V]

theorem tree_addChild_parent_missing (t : TreeSt V) (p c : V)
    (hp : p ∉ dkeys t.g.rep.adj) :
    Tree.add_child t p c = (.error .vertexNotFound, t) := by
  rw [Tree.add_child, if_pos (show p ∉ Graph.vertices AdjacencyList.ops t.g from hp)]

theorem tree_addChild_child_dup (t : TreeSt V) (p c : V) (hl : TreeLive t)
    (hp : p ∈ dkeys t.g.rep.adj) (hc : c ∈ dkeys t.g.rep.adj)
    (hch : dlook t.pm c = some p) :
    Tree.add_child t p c = (.error .valueError, t) := by
  rw [Tree.add_child,
    if_neg (not_not_intro (show p ∈ Graph.vertices AdjacencyList.ops t.g from hp)),
    if_pos (show c ∈ Graph.vertices AdjacencyList.ops t.g from hc),
    graph_neighbors_ok t.g p hp]
  show (if c ∈ t.g.rep.get_neighbors p then ((.error .valueError, t) : Except PyErr Unit × TreeSt V)
      else (.error .cycleErr, t)) = (.error .valueError, t)
  rw [if_pos ((treeLive_child_mem t hl p c).mpr hch)]

theorem tree_addChild_child_elsewhere (t : TreeSt V) (p c : V) (hl : TreeLive t)
    (hp : p ∈ dkeys t.g.rep.adj) (hc : c ∈ dkeys t.g.rep.adj)
    (hch : ¬dlook t.pm c = some p) :
    Tree.add_child t p c = (.error .cycleErr, t) := by
  rw [Tree.add_child,
    if_neg (not_not_intro (show p ∈ Graph.vertices AdjacencyList.ops t.g from hp)),
    if_pos (show c ∈ Graph.vertices AdjacencyList.ops t.g from hc),
    graph_neighbors_ok t.g p hp]
  show (if c ∈ t.g.rep.get_neighbors p then ((.error .valueError, t) : Except PyErr Unit × TreeSt V)
      else (.error .cycleErr, t)) = (.error .cycleErr, t)
  rw [if_neg (fun hm => hch ((treeLive_child_mem t hl p c).mp hm))]

theorem tree_addChild_ok (t : TreeSt V) (p c : V) (hl : TreeLive t)
    (hp : p ∈ dkeys t.g.rep.adj) (hc : c ∉ dkeys t.g.rep.adj) :
    (Tree.add_child t p c).1 = .ok ()
      ∧ (Tree.add_child t p c).2.root = t.root
      ∧ (Tree.add_child t p c).2.pm = dset t.pm c p
      ∧ (Tree.add_child t p c).2.g.rep.directed = t.g.rep.directed
      ∧ dkeys (Tree.add_child t p c).2.g.rep.adj = dkeys t.g.rep.adj ++ [c]
      ∧ (∀ x y, (Tree.add_child t p c).2.g.rep.get_edge_data x y
          = if p = x ∧ c = y then some ⟨p, c, 1, (), true⟩
            else t.g.rep.get_edge_data x y)
      ∧ (Tree.add_child t p c).2.g.rep.WF := by
  have key : Tree.add_child t p c
      = (.ok (), ⟨t.root,
          (Graph.add_edge AdjacencyList.ops (Graph.add_vertex AdjacencyList.ops t.g c)
            p c 1 ()).2,
          dset t.pm c p⟩) := by
    rw [Tree.add_child,
      if_neg (not_not_intro (show p ∈ Graph.vertices AdjacencyList.ops t.g from hp)),
      if_neg (show ¬c ∈ Graph.vertices AdjacencyList.ops t.g from hc)]
  obtain ⟨a1, a2, a3, a4, a5⟩ := list_add_vertex_spec t.g.rep c hl.2.1
  rw [if_neg hc] at a3
  have hpg1 : p ∈ dkeys (t.g.rep.add_vertex c).2.adj := by
    rw [a3]
    exact List.mem_append_left _ hp
  have hcg1 : c ∈ dkeys (t.g.rep.add_vertex c).2.adj := by
    rw [a3]
    exact List.mem_append_right _ (List.mem_singleton.mpr rfl)
  have hcell1 : (t.g.rep.add_vertex c).2.get_edge_data p c = none := by
    rw [a4 p c]
    refine Option.not_isSome_iff_eq_none.mp ?_
    rw [treeLive_cell_iff t hl]
    intro hcontra
    exact hc ((treeLive_pm_iff t hl c).mp
      (List.mem_map_of_mem Prod.fst (mem_of_dlook_eq_some hcontra))).1
  have hfacade : (Graph.add_edge AdjacencyList.ops (Graph.add_vertex AdjacencyList.ops t.g c)
      p c 1 ()).2.rep = ((t.g.rep.add_vertex c).2.add_edge p c 1 ()).2 := by
    show (Graph.add_edge AdjacencyList.ops (Graph.add_vertex AdjacencyList.ops t.g c)
      p c 1 ()).2.rep = _
    rw [Graph.add_edge,
      if_neg (by
        rw [show AdjacencyList.ops.has_vertex (Graph.add_vertex AdjacencyList.ops t.g c).rep p
            = decide (p ∈ dkeys (t.g.rep.add_vertex c).2.adj) from
          list_has_vertex_eq (t.g.rep.add_vertex c).2 p]
        simp [hpg1]),
      if_neg (by
        rw [show AdjacencyList.ops.has_vertex (Graph.add_vertex AdjacencyList.ops t.g c).rep c
            = decide (c ∈ dkeys (t.g.rep.add_vertex c).2.adj) from
          list_has_vertex_eq (t.g.rep.add_vertex c).2 c]
        simp [hcg1])]
    rfl
  obtain ⟨b1, b2, b3, b4, b5⟩ :=
    list_add_edge_ok (t.g.rep.add_vertex c).2 p c 1 () hpg1 hcg1 hcell1 a5
  have hd1 : (t.g.rep.add_vertex c).2.directed = true := by
    rw [a2]
    exact hl.1
  refine ⟨by rw [key], by rw [key], by rw [key], ?_, ?_, ?_, ?_⟩
  · rw [key]
    show ((Graph.add_edge AdjacencyList.ops (Graph.add_vertex AdjacencyList.ops t.g c)
      p c 1 ()).2.rep).directed = t.g.rep.directed
    rw [hfacade, b2, a2]
  · rw [key]
    show dkeys ((Graph.add_edge AdjacencyList.ops (Graph.add_vertex AdjacencyList.ops t.g c)
      p c 1 ()).2.rep).adj = dkeys t.g.rep.adj ++ [c]
    rw [hfacade, b3, a3]
  · intro x y
    rw [key]
    show ((Graph.add_edge AdjacencyList.ops (Graph.add_vertex AdjacencyList.ops t.g c)
      p c 1 ()).2.rep).get_edge_data x y = _
    rw [hfacade, b4 x y,
      if_neg (by
        rintro ⟨hdf, -, -⟩
        rw [hd1] at hdf
        exact Bool.noConfusion hdf),
      a4 x y]
  · rw [key]
    show ((Graph.add_edge AdjacencyList.ops (Graph.add_vertex AdjacencyList.ops t.g c)
      p c 1 ()).2.rep).WF
    rw [hfacade]
    exact b5

end Pygraph

namespace Pygraph

variable {V : Type} [DecidableEq V]

theorem entry_forms_of_cell_iff (r : AdjacencyList V Unit) (pm : List (V × V))
    (hwf : r.WF) (hnd : (dkeys pm).Nodup)
    (hiff : ∀ x y, (r.get_edge_data x y).isSome ↔ dlook pm y = some x) :
    (∀ pr ∈ r.adj, ∀ q ∈ pr.2, dlook pm q.1 = some pr.1)
      ∧ (∀ q ∈ pm, (r.get_edge_data q.2 q.1).isSome) := by
  constructor
  · intro pr hpr q hq
    have hcell : (r.get_edge_data pr.1 q.1).isSome := by
      rw [AdjacencyList.get_edge_data, dlook_eq_some_of_mem hwf.1 hpr, Option.some_bind,
        dlook_eq_some_of_mem (hwf.2 pr hpr).1 hq]
      rfl
    exact (hiff pr.1 q.1).mp hcell
  · intro q hq
    exact (hiff q.2 q.1).mpr (dlook_eq_some_of_mem hnd hq)

theorem treeInv_addChild (t : TreeSt V) (p c : V) (hi : TreeInv t) :
    TreeInv (Tree.add_child t p c).2 := by
  rcases hi with hl | hdead
  · by_cases hp : p ∈ dkeys t.g.rep.adj
    · by_cases hc : c ∈ dkeys t.g.rep.adj
      · by_cases hch : dlook t.pm c = some p
        · rw [tree_addChild_child_dup t p c hl hp hc hch]
          exact Or.inl hl
        · rw [tree_addChild_child_elsewhere t p c hl hp hc hch]
          exact Or.inl hl
      · obtain ⟨k1, kroot, kpm, kdir, kkeys, kcell, kwf⟩ := tree_addChild_ok t p c hl hp hc
        obtain ⟨hdir, hwf, hroot, hndpm, he1, he2, hj, hf1, hf2, dep, hdep⟩ := hl
        have hl' : TreeLive t := ⟨hdir, hwf, hroot, hndpm, he1, he2, hj, hf1, hf2, dep, hdep⟩
        have hcpm : c ∉ dkeys t.pm := fun hh => hc ((treeLive_pm_iff t hl' c).mp hh).1
        have hdm : dmem t.pm c = false := by
          rw [dmem_eq_decide]
          simp [hcpm]
        have hpmkeys : dkeys (dset t.pm c p) = dkeys t.pm ++ [c] := by
          rw [dkeys_dset, hdm]
          simp
        have hcroot : c ≠ t.root := fun hh => hc (hh ▸ hroot)
        have hndpm' : (dkeys (dset t.pm c p)).Nodup := by
          rw [hpmkeys, List.nodup_append]
          exact ⟨hndpm, List.nodup_singleton c, by simpa using hcpm⟩
        have hcelliff : ∀ x y, ((Tree.add_child t p c).2.g.rep.get_edge_data x y).isSome
            ↔ dlook (dset t.pm c p) y = some x := by
          intro x y
          rw [kcell x y, dlook_dset]
          by_cases hcnd : p = x ∧ c = y
          · rw [if_pos hcnd, if_pos hcnd.2]
            simp [hcnd.1]
          · rw [if_neg hcnd]
            by_cases hcy : c = y
            · rw [if_pos hcy]
              have hpx : ¬p = x := fun hh => hcnd ⟨hh, hcy⟩
              have hnone : dlook t.pm y = none := by
                rw [← Option.not_isSome_iff_eq_none, dlook_isSome_iff]
                rw [← hcy]
                exact hcpm
              rw [treeLive_cell_iff t hl', hnone]
              constructor
              · intro hcontra
                exact Option.noConfusion hcontra
              · intro hcontra
                exact absurd (Option.some.inj hcontra) hpx
            · rw [if_neg hcy]
              exact treeLive_cell_iff t hl' x y
        obtain ⟨hf1', hf2'⟩ := entry_forms_of_cell_iff (Tree.add_child t p c).2.g.rep
          (dset t.pm c p) kwf hndpm' hcelliff
        left
        refine ⟨?_, kwf, ?_, ?_, ?_, ?_, ?_, ?_, ?_, ?_⟩
        · rw [kdir]
          exact hdir
        · rw [kroot, kkeys]
          exact List.mem_append_left _ hroot
        · rw [kpm]
          exact hndpm'
        · intro v hv
          rw [kpm, hpmkeys] at hv
          rw [kroot, kkeys]
          rcases List.mem_append.mp hv with hv | hv
          · obtain ⟨h1, h2⟩ := he1 v hv
            exact ⟨List.mem_append_left _ h1, h2⟩
          · have hvc : v = c := List.mem_singleton.mp hv
            subst hvc
            exact ⟨List.mem_append_right _ (List.mem_singleton.mpr rfl), hcroot⟩
        · intro v hv hvr
          rw [kkeys] at hv
          rw [kroot] at hvr
          rw [kpm, hpmkeys]
          rcases List.mem_append.mp hv with hv | hv
          · exact List.mem_append_left _ (he2 v hv hvr)
          · exact List.mem_append_right _ hv
        · intro q hq
          rw [kpm] at hq
          rw [kkeys]
          rcases mem_dset hq with hq | hq
          · subst hq
            exact List.mem_append_left _ hp
          · exact List.mem_append_left _ (hj q hq)
        · intro pr hpr q hq
          rw [kpm]
          exact hf1' pr hpr q hq
        · intro q hq
          rw [kpm] at hq
          exact hf2' q hq
        · refine ⟨fun v => if v = c then dep p + 1 else dep v, ?_⟩
          intro q hq
          rw [kpm] at hq
          rcases mem_dset hq with hq | hq
          · subst hq
            have hpc : ¬p = c := fun hh => hc (hh ▸ hp)
            simp [hpc]
          · have h1 : q.1 ≠ c := fun hh => hcpm (hh ▸ List.mem_map_of_mem Prod.fst hq)
            have h2 : q.2 ≠ c := fun hh => hc (hh ▸ hj q hq)
            simp only [h1, h2, if_neg]
            exact hdep q hq
    · rw [tree_addChild_parent_missing t p c hp]
      exact Or.inl hl
  · have hp : p ∉ dkeys t.g.rep.adj := by
      rw [hdead.1]
      simp [dkeys]
    rw [tree_addChild_parent_missing t p c hp]
    exact Or.inr hdead

end Pygraph

-- ===================================================================
-- The removal loop of Tree.remove_subtree
-- ===================================================================

namespace Pygraph

variable {V : Type} [DecidableEq V]

theorem removeStep_fold (L : List V) :
    ∀ t : TreeSt V, L.Nodup → (∀ v ∈ L, v ∈ dkeys t.g.rep.adj) → t.g.rep.WF →
    ∃ t', L.foldl removeStep (.ok (), t) = (.ok (), t')
      ∧ t'.root = t.root
      ∧ t'.g.rep.directed = t.g.rep.directed
      ∧ dkeys t'.g.rep.adj = (dkeys t.g.rep.adj).filter (fun x => !decide (x ∈ L))
      ∧ (∀ x y, t'.g.rep.get_edge_data x y
          = if x ∈ L ∨ y ∈ L then none else t.g.rep.get_edge_data x y)
      ∧ (∀ x, dlook t'.pm x = if x ∈ L then none else dlook t.pm x)
      ∧ dkeys t'.pm = (dkeys t.pm).filter (fun x => !decide (x ∈ L))
      ∧ (∀ q, q ∈ t'.pm → q ∈ t.pm ∧ q.1 ∉ L)
      ∧ t'.g.rep.WF := by
  induction L with
  | nil =>
    intro t hnd hsub hwf
    refine ⟨t, rfl, rfl, rfl, by simp, by simp, by simp, by simp,
      fun q hq => ⟨hq, by simp⟩, hwf⟩
  | cons v L' ih =>
    intro t hnd hsub hwf
    have hv : v ∈ dkeys t.g.rep.adj := hsub v (List.mem_cons_self v L')
    have hvnot : v ∉ L' := (List.nodup_cons.mp hnd).1
    obtain ⟨r1, r2, r3, r4, r5⟩ := list_remove_vertex_spec t.g.rep v hwf
    have hfac : Graph.remove_vertex AdjacencyList.ops t.g v
        = (.ok (), ⟨t.g.directed, t.g.weighted, (t.g.rep.remove_vertex v).2⟩) := by
      rw [Graph.remove_vertex, if_pos (show AdjacencyList.ops.has_vertex t.g.rep v = true from by
        show t.g.rep.has_vertex v = true
        rw [list_has_vertex_eq]
        simpa using hv)]
      rfl
    have hstep : removeStep ((.ok (), t) : Except PyErr Unit × TreeSt V) v
        = (.ok (), ⟨t.root, ⟨t.g.directed, t.g.weighted, (t.g.rep.remove_vertex v).2⟩,
            derase t.pm v⟩) := by
      show ((Graph.remove_vertex AdjacencyList.ops t.g v).1,
        (⟨t.root, (Graph.remove_vertex AdjacencyList.ops t.g v).2, derase t.pm v⟩ : TreeSt V))
          = _
      rw [hfac]
    have hnd' : L'.Nodup := (List.nodup_cons.mp hnd).2
    have hsub' : ∀ x ∈ L',
        x ∈ dkeys ((⟨t.root, ⟨t.g.directed, t.g.weighted, (t.g.rep.remove_vertex v).2⟩,
          derase t.pm v⟩ : TreeSt V)).g.rep.adj := by
      intro x hx
      show x ∈ dkeys (t.g.rep.remove_vertex v).2.adj
      rw [r3]
      refine List.mem_filter.mpr ⟨hsub x (List.mem_cons_of_mem v hx), ?_⟩
      have hxv : x ≠ v := fun hh => hvnot (hh ▸ hx)
      simp [hxv]
    have hwf' : ((⟨t.root, ⟨t.g.directed, t.g.weighted, (t.g.rep.remove_vertex v).2⟩,
        derase t.pm v⟩ : TreeSt V)).g.rep.WF := r5
    obtain ⟨t', hfold, proot, pdir, pkeys, pcells, plook, pkeys2, pment, pwf⟩ :=
      ih _ hnd' hsub' hwf'
    have e1 : ((⟨t.root, ⟨t.g.directed, t.g.weighted, (t.g.rep.remove_vertex v).2⟩,
        derase t.pm v⟩ : TreeSt V)).g.rep = (t.g.rep.remove_vertex v).2 := rfl
    have e2 : ((⟨t.root, ⟨t.g.directed, t.g.weighted, (t.g.rep.remove_vertex v).2⟩,
        derase t.pm v⟩ : TreeSt V)).pm = derase t.pm v := rfl
    have e3 : ((⟨t.root, ⟨t.g.directed, t.g.weighted, (t.g.rep.remove_vertex v).2⟩,
        derase t.pm v⟩ : TreeSt V)).root = t.root := rfl
    rw [e1] at pdir pkeys
    rw [e3] at proot
    refine ⟨t', ?_, proot, ?_, ?_, ?_, ?_, ?_, ?_, pwf⟩
    · rw [List.foldl_cons, hstep]
      exact hfold
    · rw [pdir, r2]
    · rw [pkeys, r3, List.filter_filter]
      refine List.filter_congr ?_
      intro x hx
      by_cases h1 : x = v <;> by_cases h2 : x ∈ L' <;>
        simp [h1, h2, List.mem_cons]
    · intro x y
      rw [pcells x y, e1]
      by_cases h2 : x ∈ L' ∨ y ∈ L'
      · rw [if_pos h2, if_pos (by
          rcases h2 with h | h
          · exact Or.inl (List.mem_cons_of_mem v h)
          · exact Or.inr (List.mem_cons_of_mem v h))]
      · rw [if_neg h2, r4 x y]
        by_cases h3 : x = v ∨ y = v
        · rw [if_pos h3, if_pos (by
            rcases h3 with h | h
            · exact Or.inl (by rw [h]; exact List.mem_cons_self v L')
            · exact Or.inr (by rw [h]; exact List.mem_cons_self v L'))]
        · rw [if_neg h3, if_neg (by
            rintro (h | h) <;> rcases List.mem_cons.mp h with h' | h'
            · exact h3 (Or.inl h')
            · exact h2 (Or.inl h')
            · exact h3 (Or.inr h')
            · exact h2 (Or.inr h'))]
    · intro x
      rw [plook x, e2, dlook_derase]
      by_cases h2 : x ∈ L'
      · rw [if_pos h2, if_pos (List.mem_cons_of_mem v h2)]
      · rw [if_neg h2]
        by_cases h3 : v = x
        · rw [if_pos h3, if_pos (by rw [← h3]; exact List.mem_cons_self v L')]
        · rw [if_neg h3, if_neg (by
            intro hmem
            rcases List.mem_cons.mp hmem with h' | h'
            · exact h3 h'.symm
            · exact h2 h')]
    · rw [pkeys2, e2, dkeys_derase, List.filter_filter]
      refine List.filter_congr ?_
      intro x hx
      by_cases h1 : x = v <;> by_cases h2 : x ∈ L' <;>
        simp [h1, h2, List.mem_cons]
    · intro q hq
      obtain ⟨hq1, hq2⟩ := pment q hq
      rw [e2] at hq1
      obtain ⟨hq3, hq4⟩ := mem_derase hq1
      refine ⟨hq3, ?_⟩
      intro hmem
      rcases List.mem_cons.mp hmem with h' | h'
      · exact hq4 h'
      · exact hq2 h'

end Pygraph

-- ===================================================================
-- The BFS collection loop of Tree.remove_subtree
-- ===================================================================

namespace Pygraph

variable {V : Type} [DecidableEq V]

theorem bfs_go (t : TreeSt V) (hl : TreeLive t) (fuel : Nat) :
    ∀ (Q : List V) (S : Finset V),
      (∀ v ∈ Q, v ∈ dkeys t.g.rep.adj) →
      List.Pairwise (fun a b => ∀ x k₁ k₂, pmChain t.pm k₁ x = some a →
        pmChain t.pm k₂ x = some b → False) Q →
      (∀ u : V, (∃ v ∈ Q, ∃ k, pmChain t.pm k u = some v) → u ∈ S) →
      S.card ≤ fuel →
      ∃ L, bfsCollect t.g fuel Q = .ok L
        ∧ L.Nodup
        ∧ (∀ x, x ∈ L ↔ ∃ v ∈ Q, ∃ k, pmChain t.pm k x = some v) := by
  induction fuel with
  | zero =>
    intro Q S hQv hQp hScov hScard
    cases Q with
    | nil =>
      refine ⟨[], rfl, List.nodup_nil, ?_⟩
      intro x
      simp
    | cons c rest =>
      exfalso
      have hcS : c ∈ S := hScov c ⟨c, List.mem_cons_self c rest, 0, rfl⟩
      have hpos : 0 < S.card := Finset.card_pos.mpr ⟨c, hcS⟩
      omega
  | succ f ih =>
    intro Q S hQv hQp hScov hScard
    cases Q with
    | nil =>
      refine ⟨[], rfl, List.nodup_nil, ?_⟩
      intro x
      simp
    | cons c rest =>
      have hc : c ∈ dkeys t.g.rep.adj := hQv c (List.mem_cons_self c rest)
      have hnb := graph_neighbors_ok t.g c hc
      have hstep : bfsCollect t.g (f + 1) (c :: rest)
          = (bfsCollect t.g f (rest ++ t.g.rep.get_neighbors c)).map
              (fun r => c :: r) := by
        show (match Graph.neighbors AdjacencyList.ops t.g c with
          | .error e => Except.error e
          | .ok nbrs => (bfsCollect t.g f (rest ++ nbrs)).map (fun r => c :: r)) = _
        rw [hnb]
      have hchnd : (t.g.rep.get_neighbors c).Nodup := list_neighbors_nodup t.g.rep hl.2.1 c
      have hchmem : ∀ x, x ∈ t.g.rep.get_neighbors c ↔ dlook t.pm x = some c :=
        treeLive_child_mem t hl c
      obtain ⟨dep, hdep⟩ := hl.2.2.2.2.2.2.2.2.2
      have hrestQ : ∀ v ∈ rest, v ∈ dkeys t.g.rep.adj :=
        fun v hv => hQv v (List.mem_cons_of_mem c hv)
      have hchQ : ∀ v ∈ t.g.rep.get_neighbors c, v ∈ dkeys t.g.rep.adj := by
        intro v hv
        exact (hl.2.2.2.2.1 v (List.mem_map_of_mem Prod.fst
          (mem_of_dlook_eq_some ((hchmem v).mp hv)))).1
      have hQv' : ∀ v ∈ rest ++ t.g.rep.get_neighbors c, v ∈ dkeys t.g.rep.adj := by
        intro v hv
        rcases List.mem_append.mp hv with h | h
        exacts [hrestQ v h, hchQ v h]
      have hheadrel : ∀ b ∈ rest, ∀ x k₁ k₂, pmChain t.pm k₁ x = some c →
          pmChain t.pm k₂ x = some b → False := (List.pairwise_cons.mp hQp).1
      have hrestp := (List.pairwise_cons.mp hQp).2
      have hext : ∀ x k w, w ∈ t.g.rep.get_neighbors c → pmChain t.pm k x = some w →
          pmChain t.pm (k + 1) x = some c := by
        intro x k w hw hk
        rw [pmChain_add t.pm k 1 x, hk, Option.some_bind, pmChain_one]
        exact (hchmem w).mp hw
      have hcnotdesc : ∀ k w, w ∈ t.g.rep.get_neighbors c →
          pmChain t.pm k c = some w → False := by
        intro k w hw hkc
        have h1 := pmChain_dep hdep hkc
        have h2 : dep w = dep c + 1 := hdep (w, c) (mem_of_dlook_eq_some ((hchmem w).mp hw))
        omega
      have hQp' : List.Pairwise (fun a b => ∀ x k₁ k₂, pmChain t.pm k₁ x = some a →
          pmChain t.pm k₂ x = some b → False) (rest ++ t.g.rep.get_neighbors c) := by
        rw [List.pairwise_append]
        refine ⟨hrestp, ?_, ?_⟩
        · refine hchnd.pairwise_of_forall_ne ?_
          intro a ha b hb hab x k₁ k₂ hk1 hk2
          have d1 := pmChain_dep hdep (hext x k₁ a ha hk1)
          have d2 := pmChain_dep hdep (hext x k₂ b hb hk2)
          have hkk : k₁ = k₂ := by omega
          subst hkk
          rw [hk1] at hk2
          exact hab (Option.some.inj hk2)
        · intro a ha b hb x k₁ k₂ hk1 hk2
          exact hheadrel a ha x (k₂ + 1) k₁ (hext x k₂ b hb hk2) hk1
      have hScov' : ∀ u : V,
          (∃ v ∈ rest ++ t.g.rep.get_neighbors c, ∃ k, pmChain t.pm k u = some v)
            → u ∈ S.erase c := by
        rintro u ⟨v, hv, k, hk⟩
        have huS : u ∈ S := by
          rcases List.mem_append.mp hv with h | h
          · exact hScov u ⟨v, List.mem_cons_of_mem c h, k, hk⟩
          · exact hScov u ⟨c, List.mem_cons_self c rest, k + 1, hext u k v h hk⟩
        refine Finset.mem_erase.mpr ⟨?_, huS⟩
        intro huc
        subst huc
        rcases List.mem_append.mp hv with h | h
        · exact hheadrel v h u 0 k rfl hk
        · exact hcnotdesc k v h hk
      have hcS : c ∈ S := hScov c ⟨c, List.mem_cons_self c rest, 0, rfl⟩
      have hScard' : (S.erase c).card ≤ f := by
        rw [Finset.card_erase_of_mem hcS]
        omega
      obtain ⟨L', hL', hnd', hmem'⟩ :=
        ih (rest ++ t.g.rep.get_neighbors c) (S.erase c) hQv' hQp' hScov' hScard'
      refine ⟨c :: L', ?_, ?_, ?_⟩
      · rw [hstep, hL']
        rfl
      · rw [List.nodup_cons]
        refine ⟨?_, hnd'⟩
        intro hcL
        obtain ⟨v, hv, k, hk⟩ := (hmem' c).mp hcL
        rcases List.mem_append.mp hv with h | h
        · exact hheadrel v h c 0 k rfl hk
        · exact hcnotdesc k v h hk
      · intro x
        rw [List.mem_cons, hmem' x]
        constructor
        · rintro (rfl | ⟨v, hv, k, hk⟩)
          · exact ⟨x, List.mem_cons_self x rest, 0, rfl⟩
          · rcases List.mem_append.mp hv with h | h
            · exact ⟨v, List.mem_cons_of_mem c h, k, hk⟩
            · exact ⟨c, List.mem_cons_self c rest, k + 1, hext x k v h hk⟩
        · rintro ⟨v, hv, k, hk⟩
          rcases List.mem_cons.mp hv with rfl | h
          · cases k with
            | zero =>
              left
              simpa [pmChain] using hk
            | succ k =>
              right
              obtain ⟨w, hw, hlast⟩ := pmChain_succ_decomp hk
              exact ⟨w, List.mem_append_right _ ((hchmem w).mpr hlast), k, hw⟩
          · exact Or.inr ⟨v, List.mem_append_left _ h, k, hk⟩

end Pygraph

namespace Pygraph

variable {V : Type} [DecidableEq V]

theorem tree_removeSubtree_missing (t : TreeSt V) (node : V)
    (hnode : node ∉ dkeys t.g.rep.adj) :
    Tree.remove_subtree t node = (.error .vertexNotFound, t) := by
  rw [Tree.remove_subtree,
    if_pos (show node ∉ Graph.vertices AdjacencyList.ops t.g from hnode)]

theorem tree_removeSubtree_spec (t : TreeSt V) (hl : TreeLive t) (node : V)
    (hnode : node ∈ dkeys t.g.rep.adj) :
    ∃ (L : List V) (t' : TreeSt V),
      Tree.remove_subtree t node = (.ok (), t')
        ∧ L.Nodup
        ∧ (∀ x, x ∈ L ↔ ∃ k, pmChain t.pm k x = some node)
        ∧ t'.root = t.root
        ∧ t'.g.rep.directed = t.g.rep.directed
        ∧ dkeys t'.g.rep.adj = (dkeys t.g.rep.adj).filter (fun x => !decide (x ∈ L))
        ∧ (∀ x y, t'.g.rep.get_edge_data x y
            = if x ∈ L ∨ y ∈ L then none else t.g.rep.get_edge_data x y)
        ∧ (∀ x, dlook t'.pm x = if x ∈ L then none else dlook t.pm x)
        ∧ dkeys t'.pm = (dkeys t.pm).filter (fun x => !decide (x ∈ L))
        ∧ (∀ q, q ∈ t'.pm → q ∈ t.pm ∧ q.1 ∉ L)
        ∧ t'.g.rep.WF := by
  have hmemverts : ∀ (u : V) (k : Nat), pmChain t.pm k u = some node
      → u ∈ dkeys t.g.rep.adj := by
    intro u k hk
    cases k with
    | zero =>
      have : u = node := by simpa [pmChain] using hk
      exact this ▸ hnode
    | succ k =>
      exact (hl.2.2.2.2.1 u (pmChain_first_mem hk)).1
  have hQv : ∀ v ∈ [node], v ∈ dkeys t.g.rep.adj := by
    intro v hv
    rw [List.mem_singleton.mp hv]
    exact hnode
  have hQp : List.Pairwise (fun a b => ∀ x k₁ k₂, pmChain t.pm k₁ x = some a →
      pmChain t.pm k₂ x = some b → False) [node] := List.pairwise_singleton _ _
  have hScov : ∀ u : V, (∃ v ∈ [node], ∃ k, pmChain t.pm k u = some v)
      → u ∈ (dkeys t.g.rep.adj).toFinset := by
    rintro u ⟨v, hv, k, hk⟩
    rw [List.mem_singleton.mp hv] at hk
    exact List.mem_toFinset.mpr (hmemverts u k hk)
  have hScard : (dkeys t.g.rep.adj).toFinset.card
      ≤ Graph.num_vertices AdjacencyList.ops t.g := by
    show _ ≤ (dkeys t.g.rep.adj).length
    rw [List.toFinset_card_of_nodup hl.2.1.1]
  obtain ⟨L, hbfs, hndL, hmemL⟩ :=
    bfs_go t hl (Graph.num_vertices AdjacencyList.ops t.g) [node]
      (dkeys t.g.rep.adj).toFinset hQv hQp hScov hScard
  have hmemL' : ∀ x, x ∈ L ↔ ∃ k, pmChain t.pm k x = some node := by
    intro x
    rw [hmemL x]
    constructor
    · rintro ⟨v, hv, k, hk⟩
      rw [List.mem_singleton.mp hv] at hk
      exact ⟨k, hk⟩
    · rintro ⟨k, hk⟩
      exact ⟨node, List.mem_singleton.mpr rfl, k, hk⟩
  have hLsub : ∀ v ∈ L, v ∈ dkeys t.g.rep.adj := by
    intro v hv
    obtain ⟨k, hk⟩ := (hmemL' v).mp hv
    exact hmemverts v k hk
  obtain ⟨t', hfold, proot, pdir, pkeys, pcells, plook, pkeys2, pment, pwf⟩ :=
    removeStep_fold L t hndL hLsub hl.2.1
  have hred : Tree.remove_subtree t node = (.ok (), t') := by
    rw [Tree.remove_subtree,
      if_neg (not_not_intro (show node ∈ Graph.vertices AdjacencyList.ops t.g from hnode)),
      hbfs]
    exact hfold
  exact ⟨L, t', hred, hndL, hmemL', proot, pdir, pkeys, pcells, plook, pkeys2, pment, pwf⟩

end Pygraph

namespace Pygraph

variable {V : Type} [DecidableEq V]

theorem treeInv_removeSubtree (t : TreeSt V) (node : V) (hi : TreeInv t) :
    TreeInv (Tree.remove_subtree t node).2 := by
  rcases hi with hl | hdead
  · by_cases hnode : node ∈ dkeys t.g.rep.adj
    · obtain ⟨L, t', heq, hndL, hmemL, proot, pdir, pkeys, pcells, plook, pkeys2, pment, pwf⟩ :=
        tree_removeSubtree_spec t hl node hnode
      rw [heq]
      show TreeInv t'
      by_cases hroot : t.root ∈ L
      · right
        have hnr : node = t.root := by
          obtain ⟨k, hk⟩ := (hmemL t.root).mp hroot
          cases k with
          | zero => exact (show t.root = node by simpa [pmChain] using hk).symm
          | succ k => exact absurd hk (fun hh => treeLive_root_chain t hl hh)
        have hall : ∀ v ∈ dkeys t.g.rep.adj, v ∈ L := by
          intro v hv
          obtain ⟨k, hk⟩ := treeLive_reach_root t hl v hv
          refine (hmemL v).mpr ⟨k, ?_⟩
          rw [hnr]
          exact hk
        constructor
        · have hkeys0 : dkeys t'.g.rep.adj = [] := by
            rw [pkeys]
            refine List.filter_eq_nil_iff.mpr ?_
            intro a ha
            simp [hall a ha]
          exact List.map_eq_nil_iff.mp hkeys0
        · have hpm0 : dkeys t'.pm = [] := by
            rw [pkeys2]
            refine List.filter_eq_nil_iff.mpr ?_
            intro a ha
            have haL : a ∈ L := hall a (hl.2.2.2.2.1 a ha).1
            simp [haL]
          exact List.map_eq_nil_iff.mp hpm0
      · left
        have hclosed : ∀ x c, x ∈ L → dlook t.pm c = some x → c ∈ L := by
          intro x c hx hcx
          obtain ⟨k, hk⟩ := (hmemL x).mp hx
          refine (hmemL c).mpr ⟨k + 1, ?_⟩
          rw [pmChain, hcx, Option.some_bind]
          exact hk
        have hndpm' : (dkeys t'.pm).Nodup := by
          rw [pkeys2]
          exact List.Nodup.filter _ hl.2.2.2.1
        have hcelliff : ∀ x y, (t'.g.rep.get_edge_data x y).isSome
            ↔ dlook t'.pm y = some x := by
          intro x y
          rw [pcells x y, plook y]
          by_cases hyL : y ∈ L
          · rw [if_pos (Or.inr hyL), if_pos hyL]
            constructor
            · intro h
              exact Bool.noConfusion h
            · intro h
              exact Option.noConfusion h
          · rw [if_neg hyL]
            by_cases hxL : x ∈ L
            · rw [if_pos (Or.inl hxL)]
              constructor
              · intro h
                exact Bool.noConfusion h
              · intro h
                exact absurd (hclosed x y hxL h) hyL
            · rw [if_neg (by rintro (h | h); exacts [hxL h, hyL h])]
              exact treeLive_cell_iff t hl x y
        obtain ⟨hf1', hf2'⟩ := entry_forms_of_cell_iff t'.g.rep t'.pm pwf hndpm' hcelliff
        refine ⟨?_, pwf, ?_, hndpm', ?_, ?_, ?_, hf1', hf2', ?_⟩
        · rw [pdir]
          exact hl.1
        · rw [proot, pkeys]
          refine List.mem_filter.mpr ⟨hl.2.2.1, ?_⟩
          simp [hroot]
        · intro v hv
          rw [pkeys2] at hv
          obtain ⟨hv1, hv2⟩ := List.mem_filter.mp hv
          obtain ⟨hv3, hv4⟩ := hl.2.2.2.2.1 v hv1
          rw [proot, pkeys]
          exact ⟨List.mem_filter.mpr ⟨hv3, hv2⟩, hv4⟩
        · intro v hv hvr
          rw [pkeys] at hv
          rw [proot] at hvr
          obtain ⟨hv1, hv2⟩ := List.mem_filter.mp hv
          rw [pkeys2]
          exact List.mem_filter.mpr ⟨hl.2.2.2.2.2.1 v hv1 hvr, hv2⟩
        · intro q hq
          obtain ⟨hq1, hq2⟩ := pment q hq
          have hq3 := hl.2.2.2.2.2.2.1 q hq1
          rw [pkeys]
          refine List.mem_filter.mpr ⟨hq3, ?_⟩
          have hq4 : q.2 ∉ L := fun hcontra =>
            hq2 (hclosed q.2 q.1 hcontra (dlook_eq_some_of_mem hl.2.2.2.1 hq1))
          simp [hq4]
        · obtain ⟨dep, hdep⟩ := hl.2.2.2.2.2.2.2.2.2
          exact ⟨dep, fun q hq => hdep q (pment q hq).1⟩
    · rw [tree_removeSubtree_missing t node hnode]
      exact Or.inl hl
  · have hnode : node ∉ dkeys t.g.rep.adj := by
      rw [hdead.1]
      simp [dkeys]
    rw [tree_removeSubtree_missing t node hnode]
    exact Or.inr hdead

end Pygraph

-- ===================================================================
-- Tree counting: vertices and edges from the invariant
-- ===================================================================

namespace Pygraph

variable {V : Type} [DecidableEq V]

theorem treeLive_num_vertices (t : TreeSt V) (hl : TreeLive t) :
    Tree.num_vertices t = (dkeys t.pm).length + 1 := by
  show (dkeys t.g.rep.adj).length = (dkeys t.pm).length + 1
  have hndv : (dkeys t.g.rep.adj).Nodup := hl.2.1.1
  have hndpm : (dkeys t.pm).Nodup := hl.2.2.2.1
  have hfin : (dkeys t.pm).toFinset = (dkeys t.g.rep.adj).toFinset.erase t.root := by
    apply Finset.ext
    intro x
    rw [List.mem_toFinset, Finset.mem_erase, List.mem_toFinset]
    constructor
    · intro hx
      obtain ⟨h1, h2⟩ := hl.2.2.2.2.1 x hx
      exact ⟨h2, h1⟩
    · rintro ⟨h1, h2⟩
      exact hl.2.2.2.2.2.1 x h2 h1
  have hc1 : (dkeys t.pm).length = (dkeys t.pm).toFinset.card :=
    (List.toFinset_card_of_nodup hndpm).symm
  have hc2 : (dkeys t.g.rep.adj).length = (dkeys t.g.rep.adj).toFinset.card :=
    (List.toFinset_card_of_nodup hndv).symm
  have hroot : t.root ∈ (dkeys t.g.rep.adj).toFinset := List.mem_toFinset.mpr hl.2.2.1
  have hcard := Finset.card_erase_of_mem hroot
  have hpos : 0 < (dkeys t.g.rep.adj).toFinset.card := Finset.card_pos.mpr ⟨t.root, hroot⟩
  rw [hc1, hc2, hfin, hcard]
  omega

theorem treeLive_num_edges (t : TreeSt V) (hl : TreeLive t) :
    Tree.num_edges t = t.pm.length := by
  have hndv : (dkeys t.g.rep.adj).Nodup := hl.2.1.1
  have hndpm : (dkeys t.pm).Nodup := hl.2.2.2.1
  have hlen1 : Tree.num_edges t
      = ((t.g.rep.adj.map (fun pr => pr.2.map (fun q => (pr.1, q.1)))).flatten).length := by
    show ((t.g.rep.adj.map (fun p => dvalues p.2)).flatten).length = _
    rw [List.length_flatten, List.length_flatten, List.map_map, List.map_map]
    congr 1
    apply List.map_congr_left
    intro pr hpr
    show (dvalues pr.2).length = (pr.2.map (fun q => (pr.1, q.1))).length
    rw [dvalues_length, List.length_map]
  have hmemPL : ∀ s c : V,
      ((s, c) ∈ (t.g.rep.adj.map (fun pr => pr.2.map (fun q => (pr.1, q.1)))).flatten)
        ↔ (t.g.rep.get_edge_data s c).isSome := by
    intro s c
    rw [List.mem_flatten]
    constructor
    · rintro ⟨l, hl', hel⟩
      rw [List.mem_map] at hl'
      obtain ⟨pr, hpr, rfl⟩ := hl'
      rw [List.mem_map] at hel
      obtain ⟨q, hq, heq⟩ := hel
      rw [Prod.mk.injEq] at heq
      rw [AdjacencyList.get_edge_data, ← heq.1, ← heq.2,
        dlook_eq_some_of_mem hndv hpr, Option.some_bind,
        dlook_eq_some_of_mem (hl.2.1.2 pr hpr).1 hq]
      rfl
    · intro hcell
      rw [AdjacencyList.get_edge_data] at hcell
      cases hrow : dlook t.g.rep.adj s with
      | none =>
        rw [hrow, Option.none_bind] at hcell
        exact Bool.noConfusion hcell
      | some row =>
        rw [hrow, Option.some_bind] at hcell
        obtain ⟨e, he⟩ := Option.isSome_iff_exists.mp hcell
        refine ⟨row.map (fun q => (s, q.1)), ?_, ?_⟩
        · exact List.mem_map.mpr ⟨(s, row), mem_of_dlook_eq_some hrow, rfl⟩
        · exact List.mem_map.mpr ⟨(c, e), mem_of_dlook_eq_some he, rfl⟩
  have hndPL : ((t.g.rep.adj.map (fun pr => pr.2.map (fun q => (pr.1, q.1)))).flatten).Nodup := by
    rw [List.nodup_flatten]
    constructor
    · intro l hl'
      rw [List.mem_map] at hl'
      obtain ⟨pr, hpr, rfl⟩ := hl'
      have : pr.2.map (fun q => (pr.1, q.1)) = (pr.2.map Prod.fst).map (fun k => (pr.1, k)) := by
        rw [List.map_map]
        rfl
      rw [this]
      refine List.Nodup.map ?_ (hl.2.1.2 pr hpr).1
      intro a b hab
      exact congrArg Prod.snd hab
    · rw [List.pairwise_map]
      have hpw : t.g.rep.adj.Pairwise (fun a b => a.1 ≠ b.1) := List.pairwise_map.mp hndv
      refine hpw.imp ?_
      intro a b hab x hxa hxb
      rw [List.mem_map] at hxa hxb
      obtain ⟨qa, hqa, hqa2⟩ := hxa
      obtain ⟨qb, hqb, hqb2⟩ := hxb
      apply hab
      rw [← hqb2] at hqa2
      rw [Prod.mk.injEq] at hqa2
      exact hqa2.1
  have hpment : t.pm.Nodup := List.Nodup.of_map Prod.fst hndpm
  have hndSwap : (t.pm.map (fun q => (q.2, q.1))).Nodup := by
    refine List.Nodup.map ?_ hpment
    rintro ⟨a1, a2⟩ ⟨b1, b2⟩ hab
    rw [Prod.mk.injEq] at hab
    rw [Prod.mk.injEq]
    exact ⟨hab.2, hab.1⟩
  have hmemSwap : ∀ x : V × V, x ∈ t.pm.map (fun q => (q.2, q.1)) ↔ (x.2, x.1) ∈ t.pm := by
    rintro ⟨s, c⟩
    rw [List.mem_map]
    constructor
    · rintro ⟨q, hq, heq⟩
      rw [Prod.mk.injEq] at heq
      have : q = (c, s) := by
        rw [Prod.ext_iff]
        exact ⟨heq.2, heq.1⟩
      exact this ▸ hq
    · intro hq
      exact ⟨(c, s), hq, rfl⟩
  have hmemiff : ∀ x : V × V,
      x ∈ (t.g.rep.adj.map (fun pr => pr.2.map (fun q => (pr.1, q.1)))).flatten
        ↔ x ∈ t.pm.map (fun q => (q.2, q.1)) := by
    rintro ⟨s, c⟩
    rw [hmemPL s c, hmemSwap ⟨s, c⟩, treeLive_cell_iff t hl]
    constructor
    · intro h
      exact mem_of_dlook_eq_some h
    · intro h
      exact dlook_eq_some_of_mem hndpm h
  have hfin : ((t.g.rep.adj.map (fun pr => pr.2.map (fun q => (pr.1, q.1)))).flatten).toFinset
      = (t.pm.map (fun q => (q.2, q.1))).toFinset := by
    apply Finset.ext
    intro x
    rw [List.mem_toFinset, List.mem_toFinset]
    exact hmemiff x
  have hlen2 : ((t.g.rep.adj.map (fun pr => pr.2.map (fun q => (pr.1, q.1)))).flatten).length
      = (t.pm.map (fun q => (q.2, q.1))).length := by
    rw [← List.toFinset_card_of_nodup hndPL, ← List.toFinset_card_of_nodup hndSwap, hfin]
  rw [hlen1, hlen2, List.length_map]

theorem treeInv_counts (t : TreeSt V) (hi : TreeInv t) :
    Tree.num_edges t + 1 = Tree.num_vertices t
      ∨ (Tree.num_vertices t = 0 ∧ Tree.num_edges t = 0) := by
  rcases hi with hl | hdead
  · left
    rw [treeLive_num_edges t hl, treeLive_num_vertices t hl]
    have : (dkeys t.pm).length = t.pm.length := by
      show (t.pm.map Prod.fst).length = t.pm.length
      rw [List.length_map]
    omega
  · right
    constructor
    · show (dkeys t.g.rep.adj).length = 0
      rw [hdead.1]
      rfl
    · show ((t.g.rep.adj.map (fun p => dvalues p.2)).flatten).length = 0
      rw [hdead.1]
      rfl

end Pygraph

namespace Pygraph

variable {V : Type} [DecidableEq V]

theorem treeInv_new (root : V) : TreeInv (Tree.new root) := by
  left
  have hadj : (Tree.new root).g.rep.adj = [(root, [])] := rfl
  have hpm : (Tree.new root).pm = [] := rfl
  have hroot : (Tree.new root).root = root := rfl
  refine ⟨rfl, ?_, ?_, ?_, ?_, ?_, ?_, ?_, ?_, ⟨fun _ => 0, ?_⟩⟩
  · constructor
    · rw [hadj]
      simp [dkeys]
    · intro p hp
      rw [hadj] at hp
      have hp' : p = (root, []) := by simpa using hp
      subst hp'
      constructor
      · simp [dkeys]
      · intro q hq
        simp at hq
  · rw [hadj, hroot]
    simp [dkeys]
  · rw [hpm]
    simp [dkeys]
  · intro v hv
    rw [hpm] at hv
    simp [dkeys] at hv
  · intro v hv hvr
    rw [hadj] at hv
    rw [hroot] at hvr
    simp [dkeys] at hv
    exact absurd hv hvr
  · intro q hq
    rw [hpm] at hq
    simp at hq
  · intro pr hpr q hq
    rw [hadj] at hpr
    have hpr' : pr = (root, []) := by simpa using hpr
    subst hpr'
    simp at hq
  · intro q hq
    rw [hpm] at hq
    simp at hq
  · intro q hq
    rw [hpm] at hq
    simp at hq

theorem treeInv_applyTOp (t : TreeSt V) (op : TOp V) (hi : TreeInv t) :
    TreeInv (applyTOp t op) := by
  cases op with
  | addChild p c => exact treeInv_addChild t p c hi
  | removeSubtree v => exact treeInv_removeSubtree t v hi

theorem treeInv_applyTOps (t : TreeSt V) (ops : List (TOp V)) (hi : TreeInv t) :
    TreeInv (applyTOps t ops) := by
  induction ops generalizing t with
  | nil => exact hi
  | cons op rest ih => exact ih (applyTOp t op) (treeInv_applyTOp t op hi)

/-- C5: tree shape invariant.  After any sequence of `add_child` /
`remove_subtree` calls on a `Tree(root)` (raising calls leave the state
the code leaves behind), the edge count is exactly the vertex count minus
one — stated additively as `num_edges() + 1 = num_vertices()` — except
that both counts are 0 once the root's own subtree has been removed. -/
theorem tree_shape_invariant (root : V) (ops : List (TOp V)) :
    Tree.num_edges (applyTOps (Tree.new root) ops) + 1
        = Tree.num_vertices (applyTOps (Tree.new root) ops)
      ∨ (Tree.num_vertices (applyTOps (Tree.new root) ops) = 0
          ∧ Tree.num_edges (applyTOps (Tree.new root) ops) = 0) :=
  treeInv_counts _ (treeInv_applyTOps (Tree.new root) ops (treeInv_new root))

end Pygraph

namespace Pygraph

variable {V : Type} [DecidableEq V]

/-- C6: cycle rejection.  For an existing strict ancestor/descendant pair
(`anc` reached from `desc` by a positive number of parent-map steps) in a
live tree, `add_child(descendant, ancestor)` raises CycleError — the
ancestor exists but is not a child of the descendant, so the code's
`child in self._graph.vertices()` / `child in self._graph.neighbors(parent)`
tests select the CycleError branch — and returns with the tree state (and
hence its vertex and edge counts) unchanged. -/
theorem tree_cycle_rejection (t : TreeSt V) (anc desc : V)
    (hl : TreeLive t) (ha : isStrictAncestor t.pm anc desc) :
    Tree.add_child t desc anc = (.error .cycleErr, t)
      ∧ Tree.num_vertices (Tree.add_child t desc anc).2 = Tree.num_vertices t
      ∧ Tree.num_edges (Tree.add_child t desc anc).2 = Tree.num_edges t := by
  obtain ⟨k, hkpos, hk⟩ := ha
  obtain ⟨dep, hdep⟩ := hl.2.2.2.2.2.2.2.2.2
  have hdesc : desc ∈ dkeys t.g.rep.adj := by
    cases k with
    | zero => omega
    | succ k => exact (hl.2.2.2.2.1 desc (pmChain_first_mem hk)).1
  have hanc : anc ∈ dkeys t.g.rep.adj := treeLive_chain_target_mem t hl hk hdesc
  have hnotchild : ¬dlook t.pm anc = some desc := by
    intro hcontra
    have h1 : dep anc = dep desc + 1 := hdep (anc, desc) (mem_of_dlook_eq_some hcontra)
    have h2 : dep desc = dep anc + k := pmChain_dep hdep hk
    omega
  have heq := tree_addChild_child_elsewhere t desc anc hl hdesc hanc hnotchild
  refine ⟨heq, ?_, ?_⟩ <;> rw [heq]

/-- C6 witness: in the concrete tree with root 0 and child 1 (a live
state, certified with the identity depth function), 0 is a strict
ancestor of 1 via one parent step, and `add_child(1, 0)` returns
CycleError with the state unchanged. -/
theorem tree_cycle_rejection_witness :
    TreeLive ((Tree.add_child (Tree.new (0 : Nat)) 0 1).2)
      ∧ isStrictAncestor ((Tree.add_child (Tree.new (0 : Nat)) 0 1).2).pm 0 1
      ∧ Tree.add_child ((Tree.add_child (Tree.new (0 : Nat)) 0 1).2) 1 0
          = (.error .cycleErr, (Tree.add_child (Tree.new (0 : Nat)) 0 1).2) :=
  have hlive : TreeLive ((Tree.add_child (Tree.new (0 : Nat)) 0 1).2) :=
    ⟨by decide, ⟨by decide, by decide⟩, by decide, by decide, by decide, by decide,
      by decide, by decide, by decide, ⟨fun v => v, by decide⟩⟩
  have hanc : isStrictAncestor ((Tree.add_child (Tree.new (0 : Nat)) 0 1).2).pm 0 1 :=
    ⟨1, by decide, by decide⟩
  ⟨hlive, hanc, (tree_cycle_rejection _ 0 1 hlive hanc).1⟩

/-- C10: removing the root's subtree empties the tree but keeps the stale
`_root`.  Under the live invariant, `remove_subtree(root)` returns
normally; afterwards `num_vertices()` and `num_edges()` are 0 and the
parent map is empty, yet the `root` property still reports the removed
vertex, and both `add_child(old_root, c)` and `is_root(old_root)` raise
VertexNotFoundError because the stored root is no longer a vertex. -/
theorem tree_remove_root (t : TreeSt V) (hl : TreeLive t) :
    (Tree.remove_subtree t t.root).1 = .ok ()
      ∧ Tree.num_vertices (Tree.remove_subtree t t.root).2 = 0
      ∧ Tree.num_edges (Tree.remove_subtree t t.root).2 = 0
      ∧ (Tree.remove_subtree t t.root).2.pm = []
      ∧ (Tree.remove_subtree t t.root).2.root = t.root
      ∧ (∀ c, Tree.add_child (Tree.remove_subtree t t.root).2 t.root c
          = (.error .vertexNotFound, (Tree.remove_subtree t t.root).2))
      ∧ Tree.is_root (Tree.remove_subtree t t.root).2 t.root
          = .error .vertexNotFound := by
  obtain ⟨L, t', heq, hndL, hmemL, proot, pdir, pkeys, pcells, plook, pkeys2, pment, pwf⟩ :=
    tree_removeSubtree_spec t hl t.root hl.2.2.1
  have hall : ∀ v ∈ dkeys t.g.rep.adj, v ∈ L := by
    intro v hv
    obtain ⟨k, hk⟩ := treeLive_reach_root t hl v hv
    exact (hmemL v).mpr ⟨k, hk⟩
  have hkeys0 : dkeys t'.g.rep.adj = [] := by
    rw [pkeys]
    exact List.filter_eq_nil_iff.mpr (fun a ha => by simp [hall a ha])
  have hadj0 : t'.g.rep.adj = [] := List.map_eq_nil_iff.mp hkeys0
  have hpmk0 : dkeys t'.pm = [] := by
    rw [pkeys2]
    refine List.filter_eq_nil_iff.mpr ?_
    intro a ha
    simp [hall a (hl.2.2.2.2.1 a ha).1]
  have hpm0 : t'.pm = [] := List.map_eq_nil_iff.mp hpmk0
  rw [heq]
  refine ⟨rfl, ?_, ?_, hpm0, proot, ?_, ?_⟩
  · show (dkeys t'.g.rep.adj).length = 0
    rw [hkeys0]
    rfl
  · show ((t'.g.rep.adj.map (fun p => dvalues p.2)).flatten).length = 0
    rw [hadj0]
    rfl
  · intro c
    show Tree.add_child t' t.root c = (.error .vertexNotFound, t')
    refine tree_addChild_parent_missing t' t.root c ?_
    rw [hkeys0]
    simp
  · show Tree.is_root t' t.root = .error .vertexNotFound
    rw [Tree.is_root, if_pos (show t.root ∉ Graph.vertices AdjacencyList.ops t'.g from by
      show t.root ∉ dkeys t'.g.rep.adj
      rw [hkeys0]
      simp)]

/-- C10 witness: the concrete live tree with root 0 and child 1;
`remove_subtree(0)` returns normally, both counts drop to 0, the parent
map empties, `root` still reports 0, and `add_child(0, 2)` and
`is_root(0)` afterwards raise VertexNotFoundError. -/
theorem tree_remove_root_witness :
    TreeLive ((Tree.add_child (Tree.new (0 : Nat)) 0 1).2)
      ∧ (Tree.remove_subtree ((Tree.add_child (Tree.new (0 : Nat)) 0 1).2)
            ((Tree.add_child (Tree.new (0 : Nat)) 0 1).2).root).1 = .ok ()
      ∧ Tree.num_vertices (Tree.remove_subtree ((Tree.add_child (Tree.new (0 : Nat)) 0 1).2)
            ((Tree.add_child (Tree.new (0 : Nat)) 0 1).2).root).2 = 0
      ∧ (Tree.remove_subtree ((Tree.add_child (Tree.new (0 : Nat)) 0 1).2)
            ((Tree.add_child (Tree.new (0 : Nat)) 0 1).2).root).2.root
          = ((Tree.add_child (Tree.new (0 : Nat)) 0 1).2).root
      ∧ Tree.add_child (Tree.remove_subtree ((Tree.add_child (Tree.new (0 : Nat)) 0 1).2)
            ((Tree.add_child (Tree.new (0 : Nat)) 0 1).2).root).2
            ((Tree.add_child (Tree.new (0 : Nat)) 0 1).2).root 2
          = (.error .vertexNotFound,
              (Tree.remove_subtree ((Tree.add_child (Tree.new (0 : Nat)) 0 1).2)
                ((Tree.add_child (Tree.new (0 : Nat)) 0 1).2).root).2) :=
  have hlive : TreeLive ((Tree.add_child (Tree.new (0 : Nat)) 0 1).2) :=
    ⟨by decide, ⟨by decide, by decide⟩, by decide, by decide, by decide, by decide,
      by decide, by decide, by decide, ⟨fun v => v, by decide⟩⟩
  have h := tree_remove_root ((Tree.add_child (Tree.new (0 : Nat)) 0 1).2) hlive
  ⟨hlive, h.1, h.2.1, h.2.2.2.2.1, h.2.2.2.2.2.1 2⟩

end Pygraph
